import Mathlib

/-!
# qvmd: variables, functions, the variable resolver and the printer

A shallow embedding of `src/variables.c`, `src/functions.c`, the variable
resolver and the printer of `src/opblocks.c`, and the statement loop of
`src/decompile.c`.

Conventions of the embedding.

* A singly linked list (`next` chain from a head pointer) is a `List`, head
  first.  A pointer into such a list is the position of the node in the chain.
* A `qvm_function_t *` is a `FuncPtr`; the function objects live in a store
  `Mem.func` indexed by pointer.  A null pointer is `none`.
* `unsigned int` values are natural numbers below `2 ^ 32`; the subtractions
  of the source, which can wrap, are taken modulo `2 ^ 32` (`u32_sub`), and
  so is the sum of the DATA and LIT section lengths (`u32_add`).
* `malloc` is taken to succeed, so the allocation-failure returns of the
  source do not appear.
* The header `qvmd.h` is not part of the sources at hand.  The record types
  below list the fields the C files read and write; the counters are
  natural numbers; name buffers are taken to be large enough for the names
  that `sprintf` produces.
-/

namespace Qvmd

/-! ## Formatting helpers (`sprintf` conversions) -/

/-- Two to the thirty-two: the number of `unsigned int` values. -/
def U32 : Nat := 4294967296

/-- Subtraction of `unsigned int` values, modulo `2 ^ 32`. -/
def u32_sub (a b : Nat) : Nat := (a % U32 + (U32 - b % U32)) % U32

/-- Addition of `unsigned int` values, modulo `2 ^ 32`. -/
def u32_add (a b : Nat) : Nat := (a % U32 + b % U32) % U32

/-- The `%x` conversion: lowercase hexadecimal without leading zeros. -/
def fmt_x (n : Nat) : String := String.mk (Nat.toDigits 16 n)

/-- The `%i` conversion applied to a 32-bit pattern: values from `2 ^ 31` on
print as negative numbers. -/
def fmt_i (n : Nat) : String :=
  if n % U32 < 2147483648 then String.mk (Nat.toDigits 10 (n % U32))
  else "-" ++ String.mk (Nat.toDigits 10 (U32 - n % U32))

/-! ## Function lists (`qvm_function_list_t`) -/

/-- A pointer to a `qvm_function_t`. -/
abbrev FuncPtr := Nat

/-- The source's `func_list_find`: position of the first element whose
`function` field is `func`, or `none` (null). -/
def func_list_find : List FuncPtr → FuncPtr → Option Nat
  | [], _ => none
  | f :: rest, func =>
    if f = func then some 0
    else (func_list_find rest func).map Nat.succ

/-- The source's `func_list_add`: returns the list after the call and the position of
the returned element.  A missing function is linked in front of the head. -/
def func_list_add (list : List FuncPtr) (func : FuncPtr) : List FuncPtr × Nat :=
  match func_list_find list func with
  | some i => (list, i)
  | none => (func :: list, 0)

/-- A sequence of `func_list_add` calls on the same list, in order. -/
def func_list_add_all (list : List FuncPtr) (funcs : List FuncPtr) : List FuncPtr :=
  funcs.foldl (fun l f => (func_list_add l f).1) list

/-- The distinct functions of a sequence of additions, in the order of their
first addition (stated from the words of the specification). -/
def first_additions : List FuncPtr → List FuncPtr
  | [] => []
  | f :: rest => f :: (first_additions rest).filter (fun g => g ≠ f)

/-! ## Variables (`qvm_variable_t`) -/

/-- Status tag of a variable. -/
inductive VarStatus where
  | VS_GLOBAL
  | VS_LITERAL
  | VS_BSS
  | VS_LOCAL
  | VS_ARG
  deriving DecidableEq, Repr

/-- A `qvm_variable_t` without its `next` link.  `content` is the offset
into the DATA section content the pointer refers to, `none` for null.
`prob_size1`, `prob_size2`, `prob_size4` are `prob_size[1]`, `prob_size[2]`,
`prob_size[4]`. -/
structure Variable where
  name : String
  address : Nat
  prob_size1 : Nat
  prob_size2 : Nat
  prob_size4 : Nat
  size : Nat
  content : Option Nat
  status : VarStatus
  parents : List FuncPtr
  variadic : Nat
  deriving DecidableEq, Repr

/-- Reading `prob_size[i]` for the three indices the source uses. -/
def Variable.prob_size (v : Variable) (i : Nat) : Nat :=
  if i = 1 then v.prob_size1
  else if i = 2 then v.prob_size2
  else if i = 4 then v.prob_size4
  else 0

/-- The source's `var_new`: a zeroed variable.  The source leaves `status`
unset; `var_create` always assigns it before use. -/
def var_new : Variable :=
  { name := "", address := 0, prob_size1 := 0, prob_size2 := 0, prob_size4 := 0,
    size := 0, content := none, status := VarStatus.VS_BSS, parents := [],
    variadic := 0 }

/-- The source's `var_find`: position of the first variable with the address. -/
def var_find : List Variable → Nat → Option Nat
  | [], _ => none
  | v :: rest, address =>
    if v.address = address then some 0
    else (var_find rest address).map Nat.succ

/-- Loop of `var_find_prev`: `i` is the position of the head of the
remaining list, `prev` the current candidate with its position. -/
def var_find_prev_loop (address : Nat) :
    List Variable → Nat → Option (Nat × Variable) → Option (Nat × Variable)
  | [], _, prev => prev
  | v :: rest, i, none =>
    if v.address < address then var_find_prev_loop address rest (i + 1) (some (i, v))
    else var_find_prev_loop address rest (i + 1) none
  | v :: rest, i, some (j, p) =>
    if v.address < address ∧ v.address > p.address then
      var_find_prev_loop address rest (i + 1) (some (i, v))
    else var_find_prev_loop address rest (i + 1) (some (j, p))

/-- The source's `var_find_prev`: position of the variable after which a
variable with the given address is linked, or `none`. -/
def var_find_prev (list : List Variable) (address : Nat) : Option Nat :=
  (var_find_prev_loop address list 0 none).map Prod.fst

/-- Applies `f` to the element at position `i` (an in-place update through a
pointer to that node). -/
def modify_at {α : Type} (f : α → α) : List α → Nat → List α
  | [], _ => []
  | x :: rest, 0 => f x :: rest
  | x :: rest, i + 1 => x :: modify_at f rest i

/-- Strictly increasing addresses along a chain. -/
def addr_sorted (l : List Variable) : Prop :=
  l.Pairwise (fun a b => a.address < b.address)

instance (l : List Variable) : Decidable (addr_sorted l) :=
  inferInstanceAs (Decidable (List.Pairwise (fun a b : Variable => a.address < b.address) l))

/-- Number of variables of a chain that start below `address`. -/
def count_below (address : Nat) : List Variable → Nat
  | [] => 0
  | v :: rest => (if v.address < address then 1 else 0) + count_below address rest

/-- The `%u` conversion: decimal. -/
def fmt_u (n : Nat) : String := String.mk (Nat.toDigits 10 n)

/-- Links `v` into the chain so that it sits at position `k`. -/
def link_at (v : Variable) (list : List Variable) (k : Nat) : List Variable :=
  list.take k ++ v :: list.drop k

/-! ## Functions and the module -/

/-- The fields of a `qvm_function_t` that the embedded code reads or writes
(`next` and the opblock pointers are left out). -/
structure Function where
  address : Nat
  name : String
  stack_size : Nat
  return_size : Nat
  locals : List Variable
  locals_count : Nat
  calls : List FuncPtr
  called_by : List FuncPtr

/-- The fields of the `qvm_t` module object used by the embedded code:
`sections[S_DATA].length`, `sections[S_LIT].length`, the globals chain, the
counters, the pointers to the `functions_count` elements of the `functions`
array in order, and the `syscalls` chain with its counter. -/
structure Qvm where
  data_length : Nat
  lit_length : Nat
  globals : List Variable
  globals_count : Nat
  locals_count : Nat
  functions : List FuncPtr
  syscalls : List FuncPtr
  syscalls_count : Nat

/-- The program state: the module object and the function objects,
addressed by pointer. -/
structure Mem where
  qvm : Qvm
  func : FuncPtr → Function

/-- The chain selected by `function ? function->locals : qvm->globals`. -/
def var_list (m : Mem) : Option FuncPtr → List Variable
  | none => m.qvm.globals
  | some f => (m.func f).locals

/-- Stores a chain back through `function ? &function->locals : &qvm->globals`. -/
def set_var_list (m : Mem) (function : Option FuncPtr) (l : List Variable) : Mem :=
  match function with
  | none => { m with qvm := { m.qvm with globals := l } }
  | some f => { m with func := Function.update m.func f { m.func f with locals := l } }

/-- The name and status that `var_create` gives a fresh variable. -/
def var_name_status (m : Mem) (function : Option FuncPtr) (address : Nat) :
    String × VarStatus :=
  match function with
  | some f =>
    if address ≥ (m.func f).stack_size then
      ("arg_" ++ fmt_i (u32_sub (u32_sub address (m.func f).stack_size) 8 / 4),
        VarStatus.VS_ARG)
    else ("local_" ++ fmt_x address, VarStatus.VS_LOCAL)
  | none =>
    if address < m.qvm.data_length then
      ("global_" ++ fmt_x address, VarStatus.VS_GLOBAL)
    else if address < u32_add m.qvm.data_length m.qvm.lit_length then
      ("lit_" ++ fmt_x address, VarStatus.VS_LITERAL)
    else ("bss_" ++ fmt_x address, VarStatus.VS_BSS)

/-- The content pointer that `var_create` gives a fresh variable. -/
def var_content (m : Mem) (function : Option FuncPtr) (address : Nat) : Option Nat :=
  match function with
  | some _ => none
  | none =>
    if address < u32_add m.qvm.data_length m.qvm.lit_length then some address else none

/-- The histogram step `prob_size[used_size]++` for `used_size` 4, 1 or 2. -/
def var_count_size (v : Variable) (used_size : Nat) : Variable :=
  if used_size = 4 then { v with prob_size4 := v.prob_size4 + 1 }
  else if used_size = 1 then { v with prob_size1 := v.prob_size1 + 1 }
  else if used_size = 2 then { v with prob_size2 := v.prob_size2 + 1 }
  else v

/-- The counting step of `var_create`. -/
def var_count (m : Mem) (function : Option FuncPtr) : Mem :=
  match function with
  | some f =>
    { qvm := { m.qvm with locals_count := m.qvm.locals_count + 1 },
      func := Function.update m.func f
        { m.func f with locals_count := (m.func f).locals_count + 1 } }
  | none => { m with qvm := { m.qvm with globals_count := m.qvm.globals_count + 1 } }

/-- The variable that `var_create` builds before linking it.  The parent is
recorded by `func_list_add` on the empty `parents` list of the fresh
variable (the source does so right after linking). -/
def var_fresh (m : Mem) (function : Option FuncPtr) (address used_size : Nat)
    (parent : Option FuncPtr) : Variable :=
  let v0 : Variable :=
    { var_new with
      address := address,
      name := (var_name_status m function address).1,
      status := (var_name_status m function address).2,
      content := var_content m function address }
  let v1 := var_count_size v0 used_size
  match parent with
  | none => v1
  | some p => { v1 with parents := (func_list_add v1.parents p).1 }

/-- The source's `var_create`: returns the new state and the position of the new
variable in its chain. -/
def var_create (m : Mem) (function : Option FuncPtr) (address used_size : Nat)
    (parent : Option FuncPtr) : Mem × Nat :=
  let v := var_fresh m function address used_size parent
  let m1 := var_count m function
  let list := var_list m1 function
  match var_find_prev list address with
  | none => (set_var_list m1 function (v :: list), 0)
  | some j => (set_var_list m1 function (link_at v list (j + 1)), j + 1)

/-- The source's `var_get`: returns the new state and the position of the returned
variable in the relevant chain. -/
def var_get (m : Mem) (function : Option FuncPtr) (address size : Nat)
    (parent : Option FuncPtr) : Mem × Nat :=
  match var_find (var_list m function) address with
  | none => var_create m function address size parent
  | some i =>
    match parent with
    | none => (m, i)
    | some p =>
      (set_var_list m function
        (modify_at (fun v => { v with parents := (func_list_add v.parents p).1 })
          (var_list m function) i), i)

/-- The test `!var->next || var->next->address > address` of `var_cut`. -/
def var_cut_here (address : Nat) : List Variable → Prop
  | [] => True
  | n :: _ => n.address > address

instance (address : Nat) : (l : List Variable) → Decidable (var_cut_here address l)
  | [] => isTrue trivial
  | n :: _ => inferInstanceAs (Decidable (n.address > address))

/-- The cut itself: create the variable at `address`, give it the remainder
of the size of `var` (at position `i` before the creation) and shrink `var`. -/
def var_cut_at (m : Mem) (function : Option FuncPtr) (address : Nat)
    (var : Variable) (i : Nat) : Mem × Option Nat :=
  let r := var_create m function address 0 none
  let k := r.2
  let i1 := if k ≤ i then i + 1 else i
  let l1 := var_list r.1 function
  let l2 := modify_at
    (fun n => { n with size := u32_sub var.size (u32_sub address var.address) }) l1 k
  let l3 := modify_at (fun w => { w with size := u32_sub address var.address }) l2 i1
  (set_var_list r.1 function l3, some k)

/-- Loop of `var_cut` over the remaining chain, whose head is at position `i`. -/
def var_cut_loop (m : Mem) (function : Option FuncPtr) (address : Nat) :
    List Variable → Nat → Mem × Option Nat
  | [], _ => (m, none)
  | var :: rest, i =>
    if var.address = address then (m, some i)
    else if var.address < address ∧ var_cut_here address rest then
      var_cut_at m function address var i
    else var_cut_loop m function address rest (i + 1)

/-- The source's `var_cut`: returns the new state and the position of the returned
variable, `none` on failure. -/
def var_cut (m : Mem) (function : Option FuncPtr) (address : Nat) : Mem × Option Nat :=
  var_cut_loop m function address (var_list m function) 0

/-! ## Opblocks and the variable resolver (`opb_load_variables`) -/

/-- Opblock kinds, the values of `info->id`, in the order of the table
`qvm_opblocks_info`. -/
inductive OpbId where
  | OPB_UNDEF
  | OPB_FUNC_ENTER
  | OPB_FUNC_RETURN
  | OPB_FUNC_LEAVE
  | OPB_FUNC_ARG
  | OPB_FUNC_CALL
  | OPB_PUSH
  | OPB_POP
  | OPB_CONST
  | OPB_GLOBAL_ADR
  | OPB_GLOBAL
  | OPB_LOCAL_ADR
  | OPB_LOCAL
  | OPB_JUMP
  | OPB_COMPARE
  | OPB_LOAD
  | OPB_ASSIGNATION
  | OPB_STRUCT_COPY
  | OPB_OPERATION
  | OPB_DOUBLE_OPERATION
  | OPB_JUMP_POINT
  | OPB_JUMP_ADDRESS
  deriving DecidableEq, Repr

/-- The decoded opcode behind an opblock: its `value` and the operator
string `info->operation`. -/
structure Opcode where
  value : Nat
  operation : String
  deriving DecidableEq, Repr

/-- A pointer to a variable, as stored in `opb->variable`: the chain the
variable lives in (`owner`, `none` for the module globals) and its address.
`var_get` returns the first variable of the chain with the requested address
and never links a second variable with an address already present, so the
pair keeps denoting the returned node while the resolver runs. -/
structure VarPtr where
  owner : Option FuncPtr
  address : Nat
  deriving DecidableEq, Repr

/-- The variable a `VarPtr` denotes in a state. -/
def var_deref (m : Mem) (p : VarPtr) : Option Variable :=
  match var_find (var_list m p.owner) p.address with
  | none => none
  | some k => (var_list m p.owner)[k]?

/-- The object behind `opb->jumppoint`: the code reads its `name`, the label. -/
structure Jumppoint where
  name : String
  deriving DecidableEq, Repr

/-- The fields of a `qvm_opblock_t` other than its tree edges: `info->id`,
`opcode` (null is `none`), `function` and `variable` (here `var`, the
source's name being reserved); then `function_called`, `jumppoint`,
`function_arg` (the position of the pointed statement in the statement chain
of the owning function) and `opcodes_count`, which `opb_new` sets to null
and zero. -/
structure OpbData where
  id : OpbId
  opcode : Option Opcode
  function : Option FuncPtr
  var : Option VarPtr
  function_called : Option FuncPtr := none
  jumppoint : Option Jumppoint := none
  function_arg : Option Nat := none
  opcodes_count : Nat := 0
  deriving DecidableEq, Repr

/-- An expression tree of opblocks; `null` is the null pointer, `node`
carries the fields and the `child`, `op1`, `op2` edges. -/
inductive Opblock where
  | null : Opblock
  | node (d : OpbData) (child op1 op2 : Opblock) : Opblock
  deriving DecidableEq, Repr

/-- The fields of the opblock behind a pointer, `none` for null. -/
def Opblock.data? : Opblock → Option OpbData
  | .null => none
  | .node d _ _ _ => some d

/-- The opblock after its fields were overwritten in place. -/
def Opblock.set_data : Opblock → Option OpbData → Opblock
  | .node _ child op1 op2, some d => .node d child op1 op2
  | t, _ => t

/-- The rule shared by LOAD (operand `child`) and ASSIGNATION (operand `op2`):
an operand of kind LOCAL_ADR or CONST gets the variable returned by `var_get`
and the kind GLOBAL_ADR.  Dereferencing a null pointer gives `none`. -/
def opb_load_address (m : Mem) (d : OpbData) (operand : Option OpbData) :
    Option (Mem × Option OpbData) :=
  match operand with
  | none => none
  | some t =>
    if t.id = OpbId.OPB_LOCAL_ADR ∨ t.id = OpbId.OPB_CONST then
      match t.opcode, d.opcode with
      | some toc, some oc =>
        let owner := if t.id ≠ OpbId.OPB_CONST then d.function else none
        some ((var_get m owner toc.value oc.value d.function).1,
          some { t with var := some ⟨owner, toc.value⟩, id := OpbId.OPB_GLOBAL_ADR })
      | _, _ => none
    else some (m, some t)

/-- The STRUCT_COPY rule on `op2`. -/
def opb_load_copy (m : Mem) (d : OpbData) (operand : Option OpbData) :
    Option (Mem × Option OpbData) :=
  match operand with
  | none => none
  | some t =>
    if t.id = OpbId.OPB_CONST then
      match t.opcode with
      | some toc =>
        some ((var_get m none toc.value 0 d.function).1,
          some { t with var := some ⟨none, toc.value⟩, id := OpbId.OPB_GLOBAL_ADR })
      | none => none
    else some (m, some t)

/-- The LOCAL_ADR rule on the opblock itself. -/
def opb_load_local (m : Mem) (d : OpbData) : Option (Mem × OpbData) :=
  match d.opcode with
  | some oc =>
    some ((var_get m d.function oc.value 0 d.function).1,
      { d with var := some ⟨d.function, oc.value⟩ })
  | none => none

/-- The four rules of `opb_load_variables` that precede the recursion, in
source order.  `d` holds the fields of the opblock, `cd` and `od` those of
`child` and `op2`; the result holds the fields after the updates. -/
def opb_load_here (m : Mem) (d : OpbData) (cd od : Option OpbData) :
    Option (Mem × OpbData × Option OpbData × Option OpbData) :=
  match (if d.id = OpbId.OPB_LOAD then opb_load_address m d cd else some (m, cd)) with
  | none => none
  | some (m1, cd1) =>
    match (if d.id = OpbId.OPB_ASSIGNATION then opb_load_address m1 d od
           else some (m1, od)) with
    | none => none
    | some (m2, od2) =>
      match (if d.id = OpbId.OPB_STRUCT_COPY then opb_load_copy m2 d od2
             else some (m2, od2)) with
      | none => none
      | some (m3, od3) =>
        match (if d.id = OpbId.OPB_LOCAL_ADR then opb_load_local m3 d
               else some (m3, d)) with
        | none => none
        | some (m4, d4) => some (m4, d4, cd1, od3)

/-- The source's `opb_load_variables` on the opblock `t` whose fields currently are `d`
(a caller may have overwritten them in place).  The result is the state and
the tree after a call that returns 1; `none` stands for a null dereference.
With `malloc` succeeding no call returns 0. -/
def opb_load_variables_from (m : Mem) : Opblock → OpbData → Option (Mem × Opblock)
  | .null, _ => none
  | .node _ child op1 op2, d =>
    match opb_load_here m d child.data? op2.data? with
    | none => none
    | some (m4, d4, cd, od) =>
      match cd with
      | some cd1 =>
        (opb_load_variables_from m4 child cd1).map
          (fun r => (r.1, Opblock.node d4 r.2 op1 (op2.set_data od)))
      | none =>
        match op1.data? with
        | some d1 =>
          match opb_load_variables_from m4 op1 d1 with
          | none => none
          | some (m5, op1a) =>
            match od with
            | some od1 =>
              (opb_load_variables_from m5 op2 od1).map
                (fun r => (r.1, Opblock.node d4 child op1a r.2))
            | none => some (m5, Opblock.node d4 child op1a op2)
        | none =>
          match od with
          | some od1 =>
            (opb_load_variables_from m4 op2 od1).map
              (fun r => (r.1, Opblock.node d4 child op1 r.2))
          | none => some (m4, Opblock.node d4 child op1 op2)

/-- The source's `opb_load_variables`. -/
def opb_load_variables (m : Mem) (opb : Opblock) : Option (Mem × Opblock) :=
  match opb.data? with
  | none => none
  | some d => opb_load_variables_from m opb d

/-! ## Functions and syscalls (`func_find`, `func_add_syscall`, renaming) -/

/-- The source's `func_new`: a zeroed function object.  The source leaves
`locals_count` unset. -/
def func_new : Function :=
  { address := 0, name := "", stack_size := 0, return_size := 0,
    locals := [], locals_count := 0, calls := [], called_by := [] }

/-- One search loop of `func_find`: the first pointer of the sequence whose
function has the address. -/
def func_find_in (m : Mem) (address : Nat) : List FuncPtr → Option FuncPtr
  | [] => none
  | p :: rest =>
    if (m.func p).address = address then some p else func_find_in m address rest

/-- The source's `func_find`: the known functions first, then the syscalls. -/
def func_find (m : Mem) (address : Nat) : Option FuncPtr :=
  match func_find_in m address m.qvm.functions with
  | some p => some p
  | none => func_find_in m address m.qvm.syscalls

/-- The source's `func_add_syscall`.  `fresh` is the pointer that `malloc` hands to
`func_new`; the result is the new state and the function returned. -/
def func_add_syscall (m : Mem) (address : Nat) (fresh : FuncPtr) : Mem × FuncPtr :=
  match func_find m address with
  | some p => (m, p)
  | none =>
    ({ qvm := { m.qvm with
                syscalls := fresh :: m.qvm.syscalls,
                syscalls_count := m.qvm.syscalls_count + 1 },
       func := Function.update m.func fresh
         { func_new with address := address, name := "trap_" ++ fmt_x address } },
     fresh)

/-- The source's `func_rename`.  `name_size` is `sizeof(func->name)`, a constant of the
header; a C string is the `String` of its characters before the terminator,
so `strlen` is `String.length`.  The result is the function after the call
and the value returned. -/
def func_rename (name_size : Nat) (func : Function) (name : String) : Function × Nat :=
  if name.length ≥ name_size then (func, 0)
  else ({ func with name := name }, 1)

/-- The source's `var_rename`, with `name_size` for `sizeof(var->name)`. -/
def var_rename (name_size : Nat) (var : Variable) (name : String) : Variable :=
  if name.length ≥ name_size then var
  else { var with name := name }

/-! ## The printer (`opb_print`) -/

/-- The variable behind `opb->variable`; `none` when the pointer is null. -/
def opb_variable (m : Mem) (d : OpbData) : Option Variable :=
  match d.var with
  | none => none
  | some p => var_deref m p

/-- The parameter loop of the FUNC_ENTER case, from the first variable whose
address is not below the stack size: a separator in front of every variable
whose address is above `stack_size + 8`, then `int <name>`. -/
def opb_print_params (stack_size : Nat) : List Variable → String
  | [] => ""
  | v :: rest =>
    (if v.address > u32_add stack_size 8 then ", " else "") ++ "int " ++ v.name ++
      opb_print_params stack_size rest

/-- The FUNC_ENTER case of `opb_print` for the function object `f`. -/
def opb_print_enter (f : Function) : String :=
  (if f.return_size = 4 then "int " else "void ") ++ f.name ++ "(" ++
    (match f.locals.dropWhile (fun v => decide (v.address < f.stack_size)) with
     | [] => "void"
     | v :: rest => opb_print_params f.stack_size (v :: rest)) ++ ") \x7b"

/-- The source's `opb_load`: the fields of the static copy `loaded` (kind LOCAL or
GLOBAL) when the operand is an address whose variable has the given size,
`some none` for the null result, `none` for a null dereference. -/
def opb_load (m : Mem) (opb : Option OpbData) (size : Nat) : Option (Option OpbData) :=
  match opb with
  | none => none
  | some d =>
    if d.id = OpbId.OPB_LOCAL_ADR then
      match opb_variable m d with
      | none => none
      | some v =>
        if v.size = size then some (some { d with id := OpbId.OPB_LOCAL }) else some none
    else if d.id = OpbId.OPB_GLOBAL_ADR then
      match opb_variable m d with
      | none => none
      | some v =>
        if v.size = size then some (some { d with id := OpbId.OPB_GLOBAL }) else some none
    else some none

/-- The cast text that the LOAD and ASSIGNATION cases print for a size. -/
def opb_print_cast (size : Nat) : String :=
  if size = 1 then "*(char *)"
  else if size = 2 then "*(short *)"
  else if size = 4 then "*(int *)"
  else ""

/-- The argument loop of the FUNC_CALL case over the statement chain from
`function_arg` on: while the statement is a FUNC_ARG, a separator unless it
is the first, then its child as printed by `arg`. -/
def opb_print_args (arg : Opblock → Option String) : List Opblock → Bool → Option String
  | [], _ => some ""
  | Opblock.null :: _, _ => none
  | Opblock.node d child _ _ :: rest, first =>
    if d.id = OpbId.OPB_FUNC_ARG then
      match arg child, opb_print_args arg rest false with
      | some s, some r => some ((if first then "" else ", ") ++ s ++ r)
      | _, _ => none
    else some ""

/-- The source's `opb_print` along the tree edges.  The result is the text written to
the file, `none` for a null dereference.  `stmts` is the statement chain of
the owning function, into which `function_arg` points; `arg` prints the child
of an argument statement.  The copy returned by `opb_load` has kind LOCAL or
GLOBAL, so printing it writes the name of its variable.  The value of an
opcode is an `unsigned int`, as where it is passed to `var_get`. -/
def opb_print_with (m : Mem) (stmts : List Opblock) (arg : Opblock → Option String) :
    Opblock → Option String
  | Opblock.null => none
  | Opblock.node d child op1 op2 =>
    match d.id with
    | OpbId.OPB_UNDEF => some ""
    | OpbId.OPB_PUSH => some ""
    | OpbId.OPB_FUNC_ENTER =>
      match d.function with
      | none => none
      | some f => some (opb_print_enter (m.func f))
    | OpbId.OPB_FUNC_RETURN =>
      (opb_print_with m stmts arg child).map (fun c => "return " ++ c)
    | OpbId.OPB_FUNC_LEAVE => some "\x7d"
    | OpbId.OPB_FUNC_ARG =>
      match d.opcode, opb_print_with m stmts arg child with
      | some oc, some c =>
        some ("#define next_call_arg_" ++ fmt_i (u32_sub oc.value 8 / 4) ++ " \"" ++ c ++ "\"")
      | _, _ => none
    | OpbId.OPB_FUNC_CALL =>
      match (match d.function_called with
             | some fc => some ((m.func fc).name ++ "(")
             | none =>
               (opb_print_with m stmts arg child).map (fun c => "(*(" ++ c ++ "))(")) with
      | none => none
      | some head =>
        match d.function_arg with
        | none => some (head ++ ")")
        | some k => (opb_print_args arg (stmts.drop k) true).map (fun a => head ++ a ++ ")")
    | OpbId.OPB_POP => opb_print_with m stmts arg child
    | OpbId.OPB_CONST =>
      match d.opcode with
      | some oc => some ("0x" ++ fmt_x oc.value)
      | none => none
    | OpbId.OPB_LOCAL_ADR =>
      (opb_variable m d).map
        (fun v => if v.size = 1 ∨ v.size = 2 ∨ v.size = 4 then "&" ++ v.name else v.name)
    | OpbId.OPB_GLOBAL_ADR =>
      (opb_variable m d).map
        (fun v => if v.size = 1 ∨ v.size = 2 ∨ v.size = 4 then "&" ++ v.name else v.name)
    | OpbId.OPB_LOCAL => (opb_variable m d).map (fun v => v.name)
    | OpbId.OPB_GLOBAL => (opb_variable m d).map (fun v => v.name)
    | OpbId.OPB_JUMP => (opb_print_with m stmts arg child).map (fun c => "goto " ++ c)
    | OpbId.OPB_COMPARE =>
      match opb_print_with m stmts arg op2, d.opcode, opb_print_with m stmts arg op1,
          d.jumppoint with
      | some a, some oc, some b, some j =>
        some ("if (" ++ a ++ " " ++ oc.operation ++ " " ++ b ++ ") goto " ++ j.name)
      | _, _, _, _ => none
    | OpbId.OPB_LOAD =>
      match d.opcode with
      | none => none
      | some oc =>
        match opb_load m child.data? oc.value with
        | none => none
        | some (some tmp) => (opb_variable m tmp).map (fun v => v.name)
        | some none =>
          (opb_print_with m stmts arg child).map (fun c => opb_print_cast oc.value ++ c)
    | OpbId.OPB_ASSIGNATION =>
      match d.opcode with
      | none => none
      | some oc =>
        match (match opb_load m op2.data? oc.value with
               | none => none
               | some (some tmp) => (opb_variable m tmp).map (fun v => v.name)
               | some none =>
                 (opb_print_with m stmts arg op2).map
                   (fun c => opb_print_cast oc.value ++ c)),
            opb_print_with m stmts arg op1 with
        | some target, some b => some (target ++ " = " ++ b)
        | _, _ => none
    | OpbId.OPB_STRUCT_COPY =>
      match opb_print_with m stmts arg op2, opb_print_with m stmts arg op1, d.opcode with
      | some a, some b, some oc =>
        some ("block_copy(" ++ a ++ ", " ++ b ++ ", 0x" ++ fmt_x oc.value ++ ")")
      | _, _, _ => none
    | OpbId.OPB_OPERATION =>
      match d.opcode, opb_print_with m stmts arg child with
      | some oc, some c => some (oc.operation ++ c)
      | _, _ => none
    | OpbId.OPB_DOUBLE_OPERATION =>
      match opb_print_with m stmts arg op2, d.opcode, opb_print_with m stmts arg op1 with
      | some a, some oc, some b => some ("(" ++ a ++ " " ++ oc.operation ++ " " ++ b ++ ")")
      | _, _, _ => none
    | OpbId.OPB_JUMP_POINT => d.jumppoint.map (fun j => j.name ++ ":")
    | OpbId.OPB_JUMP_ADDRESS => d.jumppoint.map (fun j => j.name)

/-- The source's `opb_print`.  The recursion along `child`, `op1` and `op2` follows the
tree; `depth` bounds how deep calls may sit inside the arguments of calls,
where the recursion leaves the tree for the statement chain (with `depth`
zero an argument is not printed and the result is `none`). -/
def opb_print (m : Mem) (stmts : List Opblock) : Nat → Opblock → Option String
  | 0 => opb_print_with m stmts (fun _ => none)
  | depth + 1 => opb_print_with m stmts (opb_print m stmts depth)

/-! ## The emitter loop (`qvm_decompile_function_code`) -/

/-- The source's `qvm_decompile_function_locals` on the locals chain. -/
def qvm_decompile_function_locals (stack_size : Nat) : List Variable → String
  | [] => "\n"
  | v :: rest =>
    if v.address < stack_size then
      (if v.size = 4 then "\tint\t\t" ++ v.name ++ ";\n"
       else if v.size = 2 then "\tshort\t" ++ v.name ++ ";\n"
       else if v.size = 1 then "\tchar\t" ++ v.name ++ ";\n"
       else "\tchar\t" ++ v.name ++ "[" ++ fmt_u v.size ++ "];\n") ++
        qvm_decompile_function_locals stack_size rest
    else "\n"

/-- The test that guards the tab and the semicolon of a statement. -/
def opb_is_plain (id : OpbId) : Bool :=
  decide (id ≠ OpbId.OPB_FUNC_ENTER ∧ id ≠ OpbId.OPB_FUNC_LEAVE ∧ id ≠ OpbId.OPB_FUNC_ARG)

/-- The body of the loop of `qvm_decompile_function_code` for one statement. -/
def qvm_decompile_statement (m : Mem) (stmts : List Opblock) (depth : Nat)
    (func : FuncPtr) (opb : Opblock) : Option String :=
  match opb with
  | Opblock.null => none
  | Opblock.node d _ _ _ =>
    match (if d.opcodes_count ≠ 0 then
             (opb_print m stmts depth opb).map
               (fun t => (if opb_is_plain d.id then "\t" else "") ++ t ++
                 (if opb_is_plain d.id then ";" else "") ++ "\n")
           else some ""),
          (if d.id = OpbId.OPB_JUMP_POINT then
             (opb_print m stmts depth opb).map (fun t => t ++ "\n")
           else some "") with
    | some s1, some s2 =>
      some (s1 ++ s2 ++
        (if d.id = OpbId.OPB_FUNC_ENTER then
           qvm_decompile_function_locals (m.func func).stack_size (m.func func).locals
         else ""))
    | _, _ => none

/-- The loop of `qvm_decompile_function_code`: `rest` is the chain from the
current opblock on, `i` its position, `opblock_end` the position of
`func->opblock_end` (`none` for null).  The loop stops when the current
pointer equals `opblock_end`. -/
def qvm_decompile_function_code_loop (m : Mem) (stmts : List Opblock) (depth : Nat)
    (func : FuncPtr) (opblock_end : Option Nat) : List Opblock → Nat → Option String
  | [], _ => if opblock_end = none then some "" else none
  | opb :: rest, i =>
    if opblock_end = some i then some ""
    else
      match qvm_decompile_statement m stmts depth func opb,
          qvm_decompile_function_code_loop m stmts depth func opblock_end rest (i + 1) with
      | some s, some r => some (s ++ r)
      | _, _ => none

/-- The source's `qvm_decompile_function_code`.  `stmts` is the statement chain from
`func->opblock_start` on. -/
def qvm_decompile_function_code (m : Mem) (depth : Nat) (func : FuncPtr)
    (stmts : List Opblock) (opblock_end : Option Nat) : Option String :=
  qvm_decompile_function_code_loop m stmts depth func opblock_end stmts 0

/-! ## The work stack and the statement list (`opb_push`, `opb_pop`, `opb_add`) -/

/-- A pointer to a `qvm_opblock_t`. -/
abbrev OpbPtr := Nat

/-- The `next` and `prev` fields of the opblocks, addressed by pointer
(`none` is the null pointer). -/
structure Links where
  next : OpbPtr → Option OpbPtr
  prev : OpbPtr → Option OpbPtr

/-- The source's `opb_push`: `opb->next = *list; *list = opb;`. Returns the
links and the new value of `*list`. -/
def opb_push (h : Links) (opb : OpbPtr) (list : Option OpbPtr) : Links × Option OpbPtr :=
  ({ h with next := Function.update h.next opb list }, some opb)

/-- The outcomes of a call of `opb_pop`: a read through the null pointer, or
a return of `opb` that leaves `list` in `*list`. -/
inductive PopResult where
  | fault : PopResult
  | returned (opb : Option OpbPtr) (list : Option OpbPtr) : PopResult
  deriving DecidableEq

/-- The source's `opb_pop`: `opb = *list; *list = opb->next;` comes first, so
a null `*list` is read through before `if (!opb)` is reached; behind the read
`opb` is not null and no message is printed. -/
def opb_pop (h : Links) (list : Option OpbPtr) : PopResult :=
  match list with
  | none => PopResult.fault
  | some opb => PopResult.returned (some opb) (h.next opb)

/-- The source's `opb_add`: when `*list` is not null,
`(*list)->next = opb; opb->prev = *list;`, then `*list = opb`. Returns the
links and the new value of `*list`. -/
def opb_add (h : Links) (opb : OpbPtr) (list : Option OpbPtr) : Links × Option OpbPtr :=
  match list with
  | some t =>
    ({ next := Function.update h.next t (some opb),
       prev := Function.update h.prev opb (some t) }, some opb)
  | none => (h, some opb)

/-! ## The search for a call (`opb_is_call`) -/

/-- Null test of an opblock pointer. -/
def Opblock.is_null : Opblock → Bool
  | Opblock.null => true
  | Opblock.node _ _ _ _ => false

/-- The source's `opb_is_call`: the opblock itself when its kind is
FUNC_CALL; else the result for the child when there is a child; else the
result for `op1` when there is an `op1` and that result is not null; else the
result for `op2` when there is an `op2`; else null. The result `none` is a
read through a null `opb`. -/
def opb_is_call : Opblock → Option Opblock
  | Opblock.null => none
  | Opblock.node d child op1 op2 =>
    if d.id = OpbId.OPB_FUNC_CALL then some (Opblock.node d child op1 op2)
    else if child.is_null = false then opb_is_call child
    else
      match (if op1.is_null = false then opb_is_call op1 else some Opblock.null) with
      | none => none
      | some (Opblock.node d1 c1 a1 b1) => some (Opblock.node d1 c1 a1 b1)
      | some Opblock.null =>
        if op2.is_null = false then opb_is_call op2 else some Opblock.null

/-! ## The declarations of the globals (`qvm_decompile_globals`) -/

/-- The `%hhi` and `%hi` conversions: the low `bits` bits of `n` as a signed
decimal number. -/
def fmt_signed (bits n : Nat) : String :=
  if n % 2 ^ bits < 2 ^ (bits - 1) then fmt_u (n % 2 ^ bits)
  else "-" ++ fmt_u (2 ^ bits - n % 2 ^ bits)

/-- The `%02hhx` conversion: the low byte in lowercase hexadecimal, at least
two digits. -/
def fmt_02hhx (n : Nat) : String :=
  String.mk (if (Nat.toDigits 16 (n % 256)).length < 2
    then '0' :: Nat.toDigits 16 (n % 256) else Nat.toDigits 16 (n % 256))

/-- The loop `for (i = 0; i < var->size; i++)` of the initialiser of an
array: `\x` and two digits for each of the `count` bytes from offset `c`. -/
def print_bytes (data : Nat → Nat) (c : Nat) : Nat → String
  | 0 => ""
  | count + 1 => "\\x" ++ fmt_02hhx (data c) ++ print_bytes data (c + 1) count

/-- The value printed behind ` = `: `data` gives the bytes of the DATA
section by offset, `c` is the offset `var->content` points to; `short` and
`int` are read in little-endian order. -/
def print_content (data : Nat → Nat) (size c : Nat) : String :=
  if size = 1 then fmt_signed 8 (data c)
  else if size = 2 then fmt_signed 16 (data c % 256 + 256 * (data (c + 1) % 256))
  else if size = 4 then
    fmt_i (data c % 256 + 256 * (data (c + 1) % 256) + 65536 * (data (c + 2) % 256) +
      16777216 * (data (c + 3) % 256))
  else "\"" ++ print_bytes data c size ++ "\""

/-- The loop `while (list)` over the parents of a global: `first` tells
whether `list` is still `var->parents`. -/
def print_used_by (m : Mem) : Bool → List FuncPtr → String
  | _, [] => ""
  | first, p :: rest =>
    (if first then "" else ", ") ++ (m.func p).name ++ print_used_by m false rest

/-- The body of the loop of `qvm_decompile_globals` for one variable: the
text of its line; `none` is a read through a null `var->content`. -/
def qvm_decompile_global (m : Mem) (data : Nat → Nat) (v : Variable) : Option String :=
  let type := if v.size = 4 then "int\t\t" else if v.size = 2 then "short\t" else "char\t"
  let size := if v.size > 4 ∨ v.size < 1 ∨ v.size = 3 then "[" ++ fmt_u v.size ++ "]" else ""
  let content : Option String :=
    if v.address < m.qvm.data_length then
      match v.content with
      | some c => some (" = " ++ print_content data v.size c)
      | none => none
    else some ""
  match content with
  | none => none
  | some init =>
    some (type ++ v.name ++ size ++ init ++ ";" ++
      (if v.parents.isEmpty then "" else " // Used by: ") ++
      print_used_by m true v.parents ++ "\n")

/-- The loop `while (var)` of `qvm_decompile_globals`. -/
def qvm_decompile_globals_loop (m : Mem) (data : Nat → Nat) : List Variable → Option String
  | [] => some ""
  | v :: rest =>
    match qvm_decompile_global m data v with
    | none => none
    | some line => (qvm_decompile_globals_loop m data rest).map (fun t => line ++ t)

/-- The source's `qvm_decompile_globals`: the lines of the globals chain and
an empty line. -/
def qvm_decompile_globals (m : Mem) (data : Nat → Nat) : Option String :=
  (qvm_decompile_globals_loop m data m.qvm.globals).map (fun t => t ++ "\n")

/-! ## Predicates and texts used in the statements -/

/-- The printer handed to the argument loop by `opb_print` at a depth. -/
def opb_print_arg (m : Mem) (stmts : List Opblock) : Nat → Opblock → Option String
  | 0 => fun _ => none
  | depth + 1 => opb_print m stmts depth

/-- The `child` edge of an opblock (null for the null pointer). -/
def Opblock.child : Opblock → Opblock
  | Opblock.null => Opblock.null
  | Opblock.node _ child _ _ => child

/-- Texts each preceded by a comma and a blank. -/
def comma_tail : List String → String
  | [] => ""
  | t :: ts => ", " ++ t ++ comma_tail ts

/-- Texts joined by a comma and a blank (stated from the words of the
specification). -/
def comma_joined : List String → String
  | [] => ""
  | t :: ts => t ++ comma_tail ts

/-- The text in front of the argument list of a call, in the words of the
specification: the name of the callee when `function_called` is set, else
the rendering of the child between `(*(` and `))`. -/
def callee_text (m : Mem) (stmts : List Opblock) (depth : Nat) (d : OpbData)
    (child : Opblock) : Option String :=
  match d.function_called with
  | some fc => some (m.func fc).name
  | none => (opb_print m stmts depth child).map (fun c => "(*(" ++ c ++ "))")

/-- Texts written one after the other. -/
def concat_all : List String → String
  | [] => ""
  | t :: ts => t ++ concat_all ts

/-- The first variable of a chain with the given address. -/
def var_lookup : List Variable → Nat → Option Variable
  | [], _ => none
  | v :: rest, address => if v.address = address then some v else var_lookup rest address

/-- The pointer `p` denotes a variable in the state `m`, and every function
of `parents` is among the parents of that variable. -/
def var_known (m : Mem) (p : VarPtr) (parents : List FuncPtr) : Prop :=
  ∃ v, var_deref m p = some v ∧ ∀ F ∈ parents, F ∈ v.parents

/-- Every variable pointer that denotes a variable in `m` denotes one in
`m2`, with at least the same parents. -/
def var_kept (m m2 : Mem) : Prop :=
  ∀ p parents, var_known m p parents → var_known m2 p parents

/-- The shape of the kind arity table: every opblock of the tree has a
child only, or `op1` and `op2` only, or no operand. -/
def opb_shape : Opblock → Bool
  | Opblock.null => true
  | Opblock.node _ child op1 op2 =>
    ((!child.is_null && op1.is_null && op2.is_null) ||
      (child.is_null && !op1.is_null && !op2.is_null) ||
      (child.is_null && op1.is_null && op2.is_null)) &&
    opb_shape child && opb_shape op1 && opb_shape op2

/-- Every opblock of the tree has `F` as its owning function. -/
def opb_owned (F : FuncPtr) : Opblock → Bool
  | Opblock.null => true
  | Opblock.node d child op1 op2 =>
    decide (d.function = some F) && opb_owned F child && opb_owned F op1 && opb_owned F op2

/-- Relates a tree before the resolver to the tree after it, in the state
`m` after it: the trees have the same shape, and every opblock that had kind
LOCAL_ADR before has an opcode and now has a variable pointer that denotes,
in the locals of `F`, a variable with the value of the opcode as address and
`F` among its parents. -/
def locals_resolved (m : Mem) (F : FuncPtr) : Opblock → Opblock → Prop
  | Opblock.null, Opblock.null => True
  | Opblock.node d child op1 op2, Opblock.node d2 child2 op1b op2b =>
    (d.id = OpbId.OPB_LOCAL_ADR →
      ∃ oc, d.opcode = some oc ∧ d2.var = some ⟨some F, oc.value⟩ ∧
        ∃ v, var_deref m ⟨some F, oc.value⟩ = some v ∧ v ∈ (m.func F).locals ∧
          v.address = oc.value ∧ F ∈ v.parents) ∧
    locals_resolved m F child child2 ∧ locals_resolved m F op1 op1b ∧
    locals_resolved m F op2 op2b
  | _, _ => False

/-- The fields of an address operand after the resolver attached a variable. -/
def opb_resolved (t : OpbData) (p : VarPtr) : OpbData :=
  { t with var := some p, id := OpbId.OPB_GLOBAL_ADR }

/-- Relates the fields `x` of an opblock before a caller's in-place update to
its fields `y` after it: the owning function is the same, and either nothing
changed, or the kind became GLOBAL_ADR and, when the kind was LOCAL_ADR, the
variable pointer denotes the local of `F` at the value of the opcode. -/
def hdr_ok (m : Mem) (F : FuncPtr) (x y : OpbData) : Prop :=
  y.function = x.function ∧
  (y = x ∨
    (y.id = OpbId.OPB_GLOBAL_ADR ∧
      (x.id = OpbId.OPB_LOCAL_ADR →
        ∃ oc, x.opcode = some oc ∧ y.var = some ⟨some F, oc.value⟩ ∧
          var_known m ⟨some F, oc.value⟩ [F])))

/-- The chain that starts at `head` and follows `next` up to the null
pointer visits exactly the opblocks of `l`, in order. -/
def is_chain (h : Links) : Option OpbPtr → List OpbPtr → Prop
  | head, [] => head = none
  | head, p :: rest => head = some p ∧ is_chain h (h.next p) rest

instance is_chain_decidable (h : Links) :
    (head : Option OpbPtr) → (l : List OpbPtr) → Decidable (is_chain h head l)
  | head, [] => inferInstanceAs (Decidable (head = none))
  | head, p :: rest =>
    have := is_chain_decidable h (h.next p) rest
    inferInstanceAs (Decidable (head = some p ∧ is_chain h (h.next p) rest))

/-- The statement list with the opblocks of `l` is well formed, in the words
of the specification: the `prev` of the `next` of each statement is the
statement itself, and the `next` of the tail is null. -/
def well_formed (h : Links) : List OpbPtr → Prop
  | [] => True
  | [x] => h.next x = none
  | x :: y :: rest => h.next x = some y ∧ h.prev y = some x ∧ well_formed h (y :: rest)

instance well_formed_decidable (h : Links) : (l : List OpbPtr) → Decidable (well_formed h l)
  | [] => inferInstanceAs (Decidable True)
  | [x] => inferInstanceAs (Decidable (h.next x = none))
  | x :: y :: rest =>
    have := well_formed_decidable h (y :: rest)
    inferInstanceAs (Decidable (h.next x = some y ∧ h.prev y = some x ∧
      well_formed h (y :: rest)))

/-- The opblocks of a tree in pre-order: the opblock, then the tree of its
child, of `op1` and of `op2`. -/
def opb_preorder : Opblock → List Opblock
  | Opblock.null => []
  | Opblock.node d child op1 op2 =>
    Opblock.node d child op1 op2 ::
      (opb_preorder child ++ opb_preorder op1 ++ opb_preorder op2)

/-- The opblock has kind FUNC_CALL. -/
def opb_is_func_call : Opblock → Bool
  | Opblock.null => false
  | Opblock.node d _ _ _ => decide (d.id = OpbId.OPB_FUNC_CALL)

/-- The type keyword of a declaration, in the words of the specification. -/
def type_keyword (size : Nat) : String :=
  if size = 4 then "int" else if size = 2 then "short" else "char"

/-- The tabs between the type keyword and the name. -/
def type_tabs (size : Nat) : String :=
  if size = 4 then "\t\t" else "\t"

/-! ## Concrete states used to evaluate the code -/

/-- A function at 0x40 with a 16-byte frame and no locals yet. -/
def fn_example : Function :=
  { address := 0x40, name := "sub_40", stack_size := 16, return_size := 0,
    locals := [], locals_count := 0, calls := [], called_by := [] }

/-- A module with 0x200 bytes of DATA, 0x10 bytes of LIT, no globals, and
`fn_example` behind every function pointer. -/
def mem_example : Mem :=
  { qvm := { data_length := 0x200, lit_length := 0x10, globals := [],
             globals_count := 0, locals_count := 0,
             functions := [], syscalls := [], syscalls_count := 0 },
    func := fun _ => fn_example }

/-- A global at 0x100 with the given size and parents, no typed access. -/
def global_100 (size : Nat) (parents : List FuncPtr) : Variable :=
  { var_new with
    address := 0x100, name := "global_100", size := size,
    status := VarStatus.VS_GLOBAL, content := some 0x100, parents := parents }

/-- The module `mem_example` with the given globals chain. -/
def mem_globals (globals : List Variable) : Mem :=
  { mem_example with qvm := { mem_example.qvm with globals := globals } }

/-- An opblock without operands. -/
def opb_leaf (id : OpbId) (value : Nat) (function : Option FuncPtr) : Opblock :=
  Opblock.node
    { id := id, opcode := some { value := value, operation := "" },
      function := function, var := none }
    Opblock.null Opblock.null Opblock.null

/-- The fields of a LOAD of the given size owned by `function`. -/
def opb_load_data (size : Nat) (function : Option FuncPtr) : OpbData :=
  { id := OpbId.OPB_LOAD, opcode := some { value := size, operation := "" },
    function := function, var := none }

/-- The module `mem_example` in which every function pointer leads to a
function with the given name, return size and locals chain. -/
def mem_function (name : String) (return_size : Nat) (locals : List Variable) : Mem :=
  { mem_example with
    func := fun _ => { fn_example with
                        name := name, return_size := return_size, locals := locals } }

/-- A local at frame address 4 with the given size. -/
def local_4 (size : Nat) : Variable :=
  { var_new with address := 4, name := "local_4", size := size,
                 status := VarStatus.VS_LOCAL }

/-- A statement of function 7 without operands that covers one opcode. -/
def opb_statement (id : OpbId) : Opblock :=
  Opblock.node
    { id := id, opcode := some { value := 0, operation := "" }, function := some 7,
      var := none, opcodes_count := 1 }
    Opblock.null Opblock.null Opblock.null

/-- A FUNC_ARG statement of function 7 for the stack offset `offset`, whose
child is the constant `value`. -/
def opb_arg_const (offset value : Nat) : Opblock :=
  Opblock.node
    { id := OpbId.OPB_FUNC_ARG, opcode := some { value := offset, operation := "" },
      function := some 7, var := none, opcodes_count := 2 }
    (opb_leaf OpbId.OPB_CONST value (some 7)) Opblock.null Opblock.null

/-- A direct call of function 3 from function 7 whose `function_arg` points
to position `k` of the statement chain. -/
def opb_call_data (k : Nat) : OpbData :=
  { id := OpbId.OPB_FUNC_CALL, opcode := some { value := 0, operation := "" },
    function := some 7, var := none, function_called := some 3, function_arg := some k }

/-- An address opblock of function 7 with a resolved variable. -/
def opb_address (id : OpbId) (p : VarPtr) : Opblock :=
  Opblock.node
    { id := id, opcode := some { value := p.address, operation := "" },
      function := some 7, var := some p }
    Opblock.null Opblock.null Opblock.null

/-- A store of size 4 in function 7 with the given value and address operands. -/
def opb_store (op1 op2 : Opblock) : Opblock :=
  Opblock.node
    { id := OpbId.OPB_ASSIGNATION, opcode := some { value := 4, operation := "" },
      function := some 7, var := none }
    Opblock.null op1 op2

/-- The links of the statement list 1, 2, 3. -/
def links_123 : Links :=
  { next := fun p => if p = 1 then some 2 else if p = 2 then some 3 else none,
    prev := fun p => if p = 2 then some 1 else if p = 3 then some 2 else none }

/-- The function `fn_example` with the given locals chain. -/
def mem_locals (locals : List Variable) : Mem :=
  { mem_example with func := fun _ => { fn_example with locals := locals } }

/-- An argument variable of `fn_example` at the given frame address. -/
def arg_at (address : Nat) (name : String) : Variable :=
  { var_new with address := address, name := name, size := 4,
                 status := VarStatus.VS_ARG }

/-- A FUNC_ENTER statement of function 7. -/
def opb_enter : Opblock := opb_statement OpbId.OPB_FUNC_ENTER

/-- DATA bytes: the byte at offset `c` is the low byte of `c + 0xfe`. -/
def data_example : Nat → Nat := fun c => (c + 0xfe) % 256

/-! # Theorems -/

/-! ### Function lists -/

theorem func_list_find_eq_none {list : List FuncPtr} {func : FuncPtr} :
    func_list_find list func = none ↔ func ∉ list := by
  induction list with
  | nil => simp [func_list_find]
  | cons f rest ih =>
    by_cases h : f = func
    · simp [func_list_find, h]
    · simp [func_list_find, h, ih, Ne.symm h]

theorem func_list_find_some {list : List FuncPtr} {func : FuncPtr} {i : Nat}
    (h : func_list_find list func = some i) : list[i]? = some func := by
  induction list generalizing i with
  | nil => simp [func_list_find] at h
  | cons f rest ih =>
    by_cases hf : f = func
    · simp [func_list_find, hf] at h
      subst h
      simp [hf]
    · simp only [func_list_find, hf, if_false, Option.map_eq_some'] at h
      obtain ⟨j, hj, rfl⟩ := h
      simpa using ih hj

theorem func_list_add_fst_of_mem {list : List FuncPtr} {func : FuncPtr} (h : func ∈ list) :
    (func_list_add list func).1 = list := by
  unfold func_list_add
  cases hq : func_list_find list func with
  | none => exact absurd h (func_list_find_eq_none.mp hq)
  | some i => rfl

theorem func_list_add_fst_of_not_mem {list : List FuncPtr} {func : FuncPtr} (h : func ∉ list) :
    (func_list_add list func).1 = func :: list := by
  unfold func_list_add
  rw [func_list_find_eq_none.mpr h]

theorem first_additions_filter (funcs : List FuncPtr) (p : FuncPtr → Bool) :
    (first_additions funcs).filter p = first_additions (funcs.filter p) := by
  induction funcs with
  | nil => simp [first_additions]
  | cons f rest ih =>
    by_cases h : p f = true
    · simp only [first_additions, List.filter_cons, h, if_true]
      rw [← ih, List.filter_filter, List.filter_filter]
      congr 1
      apply List.filter_congr
      intro x _
      exact Bool.and_comm _ _
    · simp only [first_additions, List.filter_cons, h, Bool.false_eq_true, if_false]
      rw [← ih, List.filter_filter]
      apply List.filter_congr
      intro x _
      by_cases hx : x = f
      · subst hx; simp [h]
      · simp [hx]

theorem func_list_add_all_eq (list funcs : List FuncPtr) :
    func_list_add_all list funcs =
      (first_additions (funcs.filter (fun g => decide (g ∉ list)))).reverse ++ list := by
  induction funcs generalizing list with
  | nil => simp [func_list_add_all, first_additions]
  | cons f rest ih =>
    have hstep : func_list_add_all list (f :: rest) =
        func_list_add_all (func_list_add list f).1 rest := by
      simp [func_list_add_all]
    rw [hstep, ih]
    by_cases h : f ∈ list
    · rw [func_list_add_fst_of_mem h]
      simp [List.filter_cons, h]
    · rw [func_list_add_fst_of_not_mem h]
      simp only [List.filter_cons, h, not_false_eq_true, decide_True, if_true, first_additions,
        List.reverse_cons, List.append_assoc, List.singleton_append]
      congr 2
      rw [first_additions_filter, List.filter_filter]
      congr 1
      apply List.filter_congr
      intro x _
      by_cases hx : x = f <;> simp [hx, h]

/-- Claim C8 (as the code behaves). Starting from an empty calls / called-by / parents list,
any sequence of `func_list_add` calls leaves a list whose traversal from the head yields
the distinct functions in the reverse of the order of their first addition: the function
first added last is at the head. -/
theorem func_list_add_all_reverse_first_additions (funcs : List FuncPtr) :
    func_list_add_all [] funcs = (first_additions funcs).reverse := by
  rw [func_list_add_all_eq]
  simp

/-- Claim C8 (as stated) fails: adding function 1 and then function 2 to an empty list gives a
list that is traversed as 2, 1, while the order of first addition is 1, 2. -/
theorem func_list_add_all_not_first_addition_order :
    func_list_add_all [] [1, 2] = [2, 1] ∧ first_additions [1, 2] = [1, 2] ∧
      func_list_add_all [] [1, 2] ≠ first_additions [1, 2] := by
  decide

/-- Claim C9. On a list without repetition, `func_list_add` leaves a list without repetition
that contains the added function and every function it contained before; when the
function was already present the list is unchanged and the element returned is the
existing one (the one `func_list_find` finds, which holds that function). -/
theorem func_list_add_nodup (list : List FuncPtr) (f : FuncPtr) (h : list.Nodup) :
    (func_list_add list f).1.Nodup ∧ f ∈ (func_list_add list f).1 ∧
      (∀ g ∈ list, g ∈ (func_list_add list f).1) ∧
      (f ∈ list → (func_list_add list f).1 = list ∧
        func_list_find list f = some (func_list_add list f).2 ∧
        list[(func_list_add list f).2]? = some f) := by
  by_cases hf : f ∈ list
  · have h1 := func_list_add_fst_of_mem hf
    refine ⟨by rw [h1]; exact h, by rw [h1]; exact hf, fun g hg => by rw [h1]; exact hg, ?_⟩
    intro _
    have hq : func_list_find list f = some (func_list_add list f).2 := by
      unfold func_list_add
      cases hq : func_list_find list f with
      | none => exact absurd hf (func_list_find_eq_none.mp hq)
      | some i => rfl
    exact ⟨h1, hq, func_list_find_some hq⟩
  · have h1 := func_list_add_fst_of_not_mem hf
    refine ⟨by rw [h1]; exact List.nodup_cons.mpr ⟨hf, h⟩, by rw [h1]; simp,
      fun g hg => by rw [h1]; exact List.mem_cons_of_mem _ hg, fun hc => absurd hc hf⟩

/-- Claim C9 at a concrete list: adding function 2 to the list 3, 2, 1 returns the element at
position 1 and leaves the list as it was. -/
theorem func_list_add_nodup_witness :
    (func_list_add [3, 2, 1] 2).1.Nodup ∧ 2 ∈ (func_list_add [3, 2, 1] 2).1 ∧
      (∀ g ∈ [3, 2, 1], g ∈ (func_list_add [3, 2, 1] 2).1) ∧
      (2 ∈ [3, 2, 1] → (func_list_add [3, 2, 1] 2).1 = [3, 2, 1] ∧
        func_list_find [3, 2, 1] 2 = some (func_list_add [3, 2, 1] 2).2 ∧
        [3, 2, 1][(func_list_add [3, 2, 1] 2).2]? = some 2) :=
  func_list_add_nodup [3, 2, 1] 2 (by decide)

/-! ### Chains of variables -/

theorem var_list_set_var_list (m : Mem) (function : Option FuncPtr) (l : List Variable) :
    var_list (set_var_list m function l) function = l := by
  cases function <;> simp [var_list, set_var_list]

theorem var_list_var_count (m : Mem) (function : Option FuncPtr) :
    var_list (var_count m function) function = var_list m function := by
  cases function <;> simp [var_list, var_count]

theorem var_find_eq_none {l : List Variable} {address : Nat} :
    var_find l address = none ↔ ∀ w ∈ l, w.address ≠ address := by
  induction l with
  | nil => simp [var_find]
  | cons v rest ih =>
    by_cases h : v.address = address
    · simp [var_find, h]
    · simp [var_find, h, ih]

theorem var_find_some {l : List Variable} {address i : Nat}
    (h : var_find l address = some i) : ∃ v, l[i]? = some v ∧ v.address = address := by
  induction l generalizing i with
  | nil => simp [var_find] at h
  | cons v rest ih =>
    by_cases hv : v.address = address
    · simp [var_find, hv] at h
      subst h
      exact ⟨v, by simp, hv⟩
    · simp only [var_find, hv, if_false, Option.map_eq_some'] at h
      obtain ⟨j, hj, rfl⟩ := h
      simpa using ih hj

theorem modify_at_length {α : Type} (f : α → α) (l : List α) (i : Nat) :
    (modify_at f l i).length = l.length := by
  induction l generalizing i with
  | nil => simp [modify_at]
  | cons x rest ih => cases i <;> simp [modify_at, ih]

theorem modify_at_map {α β : Type} (f : α → α) (g : α → β) (hg : ∀ x, g (f x) = g x)
    (l : List α) (i : Nat) : (modify_at f l i).map g = l.map g := by
  induction l generalizing i with
  | nil => simp [modify_at]
  | cons x rest ih => cases i <;> simp [modify_at, ih, hg]

theorem modify_at_get {α : Type} (f : α → α) (l : List α) (i : Nat) :
    (modify_at f l i)[i]? = l[i]?.map f := by
  induction l generalizing i with
  | nil => simp [modify_at]
  | cons x rest ih => cases i <;> simp [modify_at, ih]

theorem modify_at_get_ne {α : Type} (f : α → α) (l : List α) (i j : Nat) (h : j ≠ i) :
    (modify_at f l i)[j]? = l[j]? := by
  induction l generalizing i j with
  | nil => simp [modify_at]
  | cons x rest ih =>
    cases i with
    | zero =>
      cases j with
      | zero => exact absurd rfl h
      | succ j => simp [modify_at]
    | succ i =>
      cases j with
      | zero => simp [modify_at]
      | succ j => simpa [modify_at] using ih i j (by omega)

theorem addr_sorted_iff_map (l : List Variable) :
    addr_sorted l ↔ (l.map Variable.address).Pairwise (fun a b => a < b) := by
  unfold addr_sorted
  rw [List.pairwise_map]

theorem addr_sorted_modify_at (f : Variable → Variable) (hf : ∀ x, (f x).address = x.address)
    (l : List Variable) (i : Nat) (h : addr_sorted l) : addr_sorted (modify_at f l i) := by
  rw [addr_sorted_iff_map] at *
  rw [modify_at_map f Variable.address hf]
  exact h

theorem var_find_modify_at (f : Variable → Variable) (hf : ∀ x, (f x).address = x.address)
    (l : List Variable) (i address : Nat) :
    var_find (modify_at f l i) address = var_find l address := by
  induction l generalizing i with
  | nil => simp [modify_at]
  | cons x rest ih => cases i <;> simp [modify_at, var_find, ih, hf]

/-! ### `var_find_prev` -/

theorem var_find_prev_loop_ge (address : Nat) (l : List Variable) (i : Nat)
    (acc : Option (Nat × Variable)) (h : ∀ w ∈ l, address ≤ w.address) :
    var_find_prev_loop address l i acc = acc := by
  induction l generalizing i acc with
  | nil => cases acc <;> simp [var_find_prev_loop]
  | cons v rest ih =>
    have hv : ¬ v.address < address := by
      have := h v (List.mem_cons_self _ _); omega
    have hrest : ∀ w ∈ rest, address ≤ w.address := fun w hw => h w (List.mem_cons_of_mem _ hw)
    cases acc with
    | none => simp [var_find_prev_loop, hv, ih _ _ hrest]
    | some q =>
      obtain ⟨j, p⟩ := q
      simp [var_find_prev_loop, hv, ih _ _ hrest]

theorem count_below_eq_zero (address : Nat) (l : List Variable)
    (h : ∀ w ∈ l, address ≤ w.address) : count_below address l = 0 := by
  induction l with
  | nil => rfl
  | cons v rest ih =>
    have hv : ¬ v.address < address := by
      have := h v (List.mem_cons_self _ _); omega
    simp [count_below, hv, ih (fun w hw => h w (List.mem_cons_of_mem _ hw))]

theorem var_find_prev_loop_sorted_some (address : Nat) (l : List Variable) (i j : Nat)
    (p : Variable) (hs : addr_sorted l) (hp : ∀ w ∈ l, p.address < w.address) :
    (var_find_prev_loop address l i (some (j, p))).map Prod.fst =
      some (if count_below address l = 0 then j else i + count_below address l - 1) := by
  induction l generalizing i j p with
  | nil => simp [var_find_prev_loop, count_below]
  | cons v rest ih =>
    have hs2 := List.pairwise_cons.mp hs
    by_cases hv : v.address < address
    · have hvp : v.address > p.address := hp v (List.mem_cons_self _ _)
      simp only [var_find_prev_loop, hv, hvp, and_self, if_true, count_below]
      rw [ih (i + 1) i v hs2.2 hs2.1]
      congr 1
      split <;> split <;> omega
    · have hrest : ∀ w ∈ rest, address ≤ w.address := by
        intro w hw
        have := hs2.1 w hw
        omega
      simp only [var_find_prev_loop, hv, false_and, if_false, count_below]
      rw [var_find_prev_loop_ge _ _ _ _ hrest, count_below_eq_zero _ _ hrest]
      simp

theorem var_find_prev_sorted (address : Nat) (l : List Variable) (hs : addr_sorted l) :
    var_find_prev l address =
      if count_below address l = 0 then none else some (count_below address l - 1) := by
  unfold var_find_prev
  cases l with
  | nil => simp [var_find_prev_loop, count_below]
  | cons v rest =>
    have hs2 := List.pairwise_cons.mp hs
    by_cases hv : v.address < address
    · simp only [var_find_prev_loop, hv, if_true, count_below]
      rw [var_find_prev_loop_sorted_some address rest 1 0 v hs2.2 hs2.1]
      split <;> simp
      omega
    · have hrest : ∀ w ∈ rest, address ≤ w.address := by
        intro w hw
        have := hs2.1 w hw
        omega
      simp only [var_find_prev_loop, hv, if_false, count_below]
      rw [var_find_prev_loop_ge _ _ _ _ hrest, count_below_eq_zero _ _ hrest]
      simp

theorem var_find_prev_loop_lt (address : Nat) (l : List Variable) (i : Nat)
    (acc : Option (Nat × Variable)) (hacc : ∀ q, acc = some q → q.1 < i) :
    ∀ q, var_find_prev_loop address l i acc = some q → q.1 < i + l.length := by
  induction l generalizing i acc with
  | nil =>
    intro q hq
    cases acc <;> simp [var_find_prev_loop] at hq
    subst hq
    simpa using hacc _ rfl
  | cons v rest ih =>
    intro q hq
    have hnew : ∀ q, some (i, v) = some q → q.1 < i + 1 := by
      intro q hq; cases hq; simp
    have hold : ∀ q, acc = some q → q.1 < i + 1 := fun q hq => Nat.lt_succ_of_lt (hacc q hq)
    simp only [List.length_cons]
    rw [show i + (rest.length + 1) = (i + 1) + rest.length by omega]
    cases acc with
    | none =>
      simp only [var_find_prev_loop] at hq
      split at hq
      · exact ih _ _ hnew q hq
      · exact ih _ _ hold q hq
    | some a =>
      obtain ⟨j, p⟩ := a
      simp only [var_find_prev_loop] at hq
      split at hq
      · exact ih _ _ hnew q hq
      · exact ih _ _ hold q hq

theorem var_find_prev_lt {l : List Variable} {address j : Nat}
    (h : var_find_prev l address = some j) : j < l.length := by
  unfold var_find_prev at h
  rw [Option.map_eq_some'] at h
  obtain ⟨q, hq, rfl⟩ := h
  simpa using var_find_prev_loop_lt address l 0 none (by simp) q hq

/-! ### `var_create` -/

theorem link_at_zero (v : Variable) (l : List Variable) : link_at v l 0 = v :: l := by
  simp [link_at]

theorem link_at_cons_succ (v w : Variable) (l : List Variable) (k : Nat) :
    link_at v (w :: l) (k + 1) = w :: link_at v l k := by
  simp [link_at]

theorem link_at_get (v : Variable) (l : List Variable) (k : Nat) (hk : k ≤ l.length) :
    (link_at v l k)[k]? = some v := by
  induction l generalizing k with
  | nil =>
    have : k = 0 := by simpa using hk
    subst this
    simp [link_at]
  | cons w rest ih =>
    cases k with
    | zero => simp [link_at]
    | succ k =>
      rw [link_at_cons_succ]
      simpa using ih k (by simpa using hk)

theorem link_at_sorted (v : Variable) (l : List Variable) (hs : addr_sorted l)
    (hne : ∀ w ∈ l, w.address ≠ v.address) :
    addr_sorted (link_at v l (count_below v.address l)) := by
  induction l with
  | nil => simp [link_at, count_below, addr_sorted]
  | cons w rest ih =>
    have hs2 := List.pairwise_cons.mp hs
    have hw : w.address ≠ v.address := hne w (List.mem_cons_self _ _)
    have hne2 : ∀ x ∈ rest, x.address ≠ v.address :=
      fun x hx => hne x (List.mem_cons_of_mem _ hx)
    by_cases hv : w.address < v.address
    · have hc : count_below v.address (w :: rest) = count_below v.address rest + 1 := by
        simp [count_below, hv]; omega
      rw [hc, link_at_cons_succ]
      refine List.pairwise_cons.mpr ⟨?_, ih hs2.2 hne2⟩
      intro x hx
      simp only [link_at, List.mem_append, List.mem_cons] at hx
      rcases hx with hx | hx | hx
      · exact hs2.1 x (List.mem_of_mem_take hx)
      · rw [hx]; exact hv
      · exact hs2.1 x (List.mem_of_mem_drop hx)
    · have hrest : ∀ x ∈ rest, v.address ≤ x.address := by
        intro x hx
        have := hs2.1 x hx
        omega
      have hc : count_below v.address (w :: rest) = 0 := by
        simp [count_below, hv, count_below_eq_zero _ _ hrest]
      rw [hc, link_at_zero]
      refine List.pairwise_cons.mpr ⟨?_, hs⟩
      intro x hx
      rcases List.mem_cons.mp hx with hx | hx
      · rw [hx]; omega
      · have := hs2.1 x hx
        omega

theorem var_find_link_at (v : Variable) (l : List Variable) (k : Nat) (hk : k ≤ l.length)
    (hne : ∀ w ∈ l, w.address ≠ v.address) :
    var_find (link_at v l k) v.address = some k := by
  induction l generalizing k with
  | nil =>
    have : k = 0 := by simpa using hk
    subst this
    simp [link_at, var_find]
  | cons w rest ih =>
    cases k with
    | zero => simp [link_at, var_find]
    | succ k =>
      rw [link_at_cons_succ]
      have hw : w.address ≠ v.address := hne w (List.mem_cons_self _ _)
      simp only [var_find, hw, if_false]
      rw [ih k (by simpa using hk) (fun x hx => hne x (List.mem_cons_of_mem _ hx))]
      rfl

theorem var_count_size_address (v : Variable) (s : Nat) :
    (var_count_size v s).address = v.address := by
  unfold var_count_size
  split
  · rfl
  · split
    · rfl
    · split <;> rfl

theorem var_fresh_address (m : Mem) (function : Option FuncPtr) (address used_size : Nat)
    (parent : Option FuncPtr) : (var_fresh m function address used_size parent).address = address := by
  unfold var_fresh
  cases parent <;> simp [var_count_size_address]

theorem var_create_list (m : Mem) (function : Option FuncPtr) (address used_size : Nat)
    (parent : Option FuncPtr) :
    var_list (var_create m function address used_size parent).1 function =
      link_at (var_fresh m function address used_size parent) (var_list m function)
        (var_create m function address used_size parent).2 ∧
    (var_create m function address used_size parent).2 ≤ (var_list m function).length := by
  unfold var_create
  simp only [var_list_var_count]
  cases h : var_find_prev (var_list m function) address with
  | none => simp [var_list_set_var_list, link_at_zero]
  | some j =>
    have := var_find_prev_lt h
    simp only [var_list_set_var_list, true_and]
    omega

theorem var_create_snd_sorted (m : Mem) (function : Option FuncPtr) (address used_size : Nat)
    (parent : Option FuncPtr) (hs : addr_sorted (var_list m function)) :
    (var_create m function address used_size parent).2 =
      count_below address (var_list m function) := by
  unfold var_create
  simp only [var_list_var_count]
  rw [var_find_prev_sorted address _ hs]
  by_cases hc : count_below address (var_list m function) = 0
  · simp [hc]
  · simp only [hc, if_false]
    omega

theorem var_create_sorted (m : Mem) (function : Option FuncPtr) (address used_size : Nat)
    (parent : Option FuncPtr) (hs : addr_sorted (var_list m function))
    (hne : ∀ w ∈ var_list m function, w.address ≠ address) :
    addr_sorted (var_list (var_create m function address used_size parent).1 function) := by
  rw [(var_create_list m function address used_size parent).1,
    var_create_snd_sorted m function address used_size parent hs]
  have h := link_at_sorted (var_fresh m function address used_size parent) (var_list m function) hs
    (by rw [var_fresh_address]; exact hne)
  rw [var_fresh_address] at h
  exact h

theorem var_create_get (m : Mem) (function : Option FuncPtr) (address used_size : Nat)
    (parent : Option FuncPtr) :
    (var_list (var_create m function address used_size parent).1 function)[
      (var_create m function address used_size parent).2]? =
      some (var_fresh m function address used_size parent) := by
  have h := var_create_list m function address used_size parent
  rw [h.1]
  exact link_at_get _ _ _ h.2

/-! ### `var_cut` -/

theorem var_cut_loop_cases (m : Mem) (function : Option FuncPtr) (address : Nat)
    (suf : List Variable) (i : Nat) :
    var_cut_loop m function address suf i = (m, none) ∨
    (∃ j, var_cut_loop m function address suf i = (m, some j)) ∨
    (∃ before var rest, suf = before ++ var :: rest ∧ var.address < address ∧
      var_cut_here address rest ∧ (∀ w ∈ before, w.address ≠ address) ∧
      var_cut_loop m function address suf i =
        var_cut_at m function address var (i + before.length)) := by
  induction suf generalizing i with
  | nil => left; rfl
  | cons var rest ih =>
    by_cases h1 : var.address = address
    · right; left
      exact ⟨i, by simp [var_cut_loop, h1]⟩
    · by_cases h2 : var.address < address ∧ var_cut_here address rest
      · right; right
        exact ⟨[], var, rest, rfl, h2.1, h2.2, by simp, by simp [var_cut_loop, h1, h2]⟩
      · have hstep : var_cut_loop m function address (var :: rest) i =
            var_cut_loop m function address rest (i + 1) := by
          simp only [var_cut_loop, h1, h2, if_false]
        rw [hstep]
        rcases ih (i + 1) with h | ⟨j, h⟩ | ⟨before, v, r, hsuf, hlt, hhere, hb, h⟩
        · left; exact h
        · right; left; exact ⟨j, h⟩
        · right; right
          refine ⟨var :: before, v, r, by simp [hsuf], hlt, hhere, ?_, ?_⟩
          · intro w hw
            rcases List.mem_cons.mp hw with hw | hw
            · rw [hw]; exact h1
            · exact hb w hw
          · rw [h]
            congr 1
            simp only [List.length_cons]
            omega

theorem var_cut_at_sorted (m : Mem) (function : Option FuncPtr) (address : Nat)
    (var : Variable) (i : Nat) (hs : addr_sorted (var_list m function))
    (hne : ∀ w ∈ var_list m function, w.address ≠ address) :
    addr_sorted (var_list (var_cut_at m function address var i).1 function) := by
  unfold var_cut_at
  simp only [var_list_set_var_list]
  refine addr_sorted_modify_at _ ?_ _ _ (addr_sorted_modify_at _ ?_ _ _ ?_)
  · intro x; rfl
  · intro x; rfl
  · exact var_create_sorted m function address 0 none hs hne

theorem var_cut_here_sorted {address : Nat} {var : Variable} {rest : List Variable}
    (hs : addr_sorted (var :: rest)) (hh : var_cut_here address rest) :
    ∀ w ∈ rest, address < w.address := by
  cases rest with
  | nil => simp
  | cons n r =>
    have hs2 := List.pairwise_cons.mp (List.pairwise_cons.mp hs).2
    have hn : address < n.address := hh
    intro w hw
    rcases List.mem_cons.mp hw with hw | hw
    · rw [hw]; exact hn
    · have := hs2.1 w hw
      omega

theorem var_cut_sorted (m : Mem) (function : Option FuncPtr) (address : Nat)
    (hs : addr_sorted (var_list m function)) :
    addr_sorted (var_list (var_cut m function address).1 function) := by
  unfold var_cut
  rcases var_cut_loop_cases m function address (var_list m function) 0 with
    h | ⟨j, h⟩ | ⟨before, v, r, hsuf, hlt, hhere, hb, h⟩
  · rw [h]; exact hs
  · rw [h]; exact hs
  · rw [h]
    apply var_cut_at_sorted _ _ _ _ _ hs
    rw [hsuf] at hs ⊢
    have hs1 := List.pairwise_append.mp hs
    have hs2 := List.pairwise_cons.mp hs1.2.1
    intro w hw
    rcases List.mem_append.mp hw with hw | hw
    · exact hb w hw
    · rcases List.mem_cons.mp hw with hw | hw
      · rw [hw]; omega
      · have := var_cut_here_sorted hs1.2.1 hhere w hw
        omega

theorem var_get_sorted (m : Mem) (function : Option FuncPtr) (address size : Nat)
    (parent : Option FuncPtr) (hs : addr_sorted (var_list m function)) :
    addr_sorted (var_list (var_get m function address size parent).1 function) := by
  unfold var_get
  cases h : var_find (var_list m function) address with
  | none => exact var_create_sorted m function address size parent hs (var_find_eq_none.mp h)
  | some i =>
    cases parent with
    | none => exact hs
    | some p =>
      simp only [var_list_set_var_list]
      refine addr_sorted_modify_at _ ?_ _ _ hs
      intro x; rfl

/-! ### Arithmetic of the 32-bit operations -/

theorem u32_sub_eq {a b : Nat} (ha : a < U32) (hb : b ≤ a) : u32_sub a b = a - b := by
  unfold u32_sub U32 at *
  omega

theorem u32_add_eq {a b : Nat} (h : a + b < U32) : u32_add a b = a + b := by
  unfold u32_add U32 at *
  omega

theorem fmt_i_eq_fmt_u {n : Nat} (h : n < 2147483648) : fmt_i n = fmt_u n := by
  have h2 : n % U32 = n := Nat.mod_eq_of_lt (by unfold U32; omega)
  simp [fmt_i, fmt_u, h2, h]

/-! ### More on chains -/

theorem count_below_append (address : Nat) (l1 l2 : List Variable) :
    count_below address (l1 ++ l2) = count_below address l1 + count_below address l2 := by
  induction l1 with
  | nil => simp [count_below]
  | cons v rest ih => simp [count_below, ih]; omega

theorem count_below_eq_length (address : Nat) (l : List Variable)
    (h : ∀ w ∈ l, w.address < address) : count_below address l = l.length := by
  induction l with
  | nil => rfl
  | cons v rest ih =>
    have hv : v.address < address := h v (List.mem_cons_self _ _)
    simp [count_below, hv, ih (fun w hw => h w (List.mem_cons_of_mem _ hw))]
    omega

theorem modify_at_append {α : Type} (f : α → α) (l1 : List α) (x : α) (l2 : List α) :
    modify_at f (l1 ++ x :: l2) l1.length = l1 ++ f x :: l2 := by
  induction l1 with
  | nil => simp [modify_at]
  | cons y rest ih => simp [modify_at, ih]

theorem modify_at_append_succ {α : Type} (f : α → α) (l1 : List α) (x y : α) (l2 : List α) :
    modify_at f (l1 ++ x :: y :: l2) (l1.length + 1) = l1 ++ x :: f y :: l2 := by
  induction l1 with
  | nil => simp [modify_at]
  | cons z rest ih => simp [modify_at, ih]

theorem link_at_append (v : Variable) (l1 : List Variable) (x : Variable) (l2 : List Variable) :
    link_at v (l1 ++ x :: l2) (l1.length + 1) = l1 ++ x :: v :: l2 := by
  induction l1 with
  | nil => simp [link_at]
  | cons z rest ih =>
    simp only [List.cons_append, List.length_cons]
    rw [link_at_cons_succ, ih]

/-! ### `var_cut` on a given variable -/

theorem var_cut_loop_skip (m : Mem) (function : Option FuncPtr) (address : Nat)
    (before : List Variable) (var : Variable) (rest : List Variable) (i : Nat)
    (hb : ∀ w ∈ before, w.address < var.address) (hv : var.address < address) :
    var_cut_loop m function address (before ++ var :: rest) i =
      var_cut_loop m function address (var :: rest) (i + before.length) := by
  induction before generalizing i with
  | nil => simp
  | cons w ws ih =>
    have hw : w.address < var.address := hb w (List.mem_cons_self _ _)
    have hws : ∀ x ∈ ws, x.address < var.address := fun x hx => hb x (List.mem_cons_of_mem _ hx)
    have h1 : ¬ w.address = address := by omega
    have h2 : ¬ (w.address < address ∧ var_cut_here address (ws ++ var :: rest)) := by
      intro h
      cases ws with
      | nil =>
        have : var.address > address := h.2
        omega
      | cons x xs =>
        have h3 : x.address > address := h.2
        have := hws x (List.mem_cons_self _ _)
        omega
    have hstep : var_cut_loop m function address (w :: (ws ++ var :: rest)) i =
        var_cut_loop m function address (ws ++ var :: rest) (i + 1) := by
      conv_lhs => rw [var_cut_loop]
      rw [if_neg h1, if_neg h2]
    rw [List.cons_append, hstep, ih (i + 1) hws]
    congr 1
    simp only [List.length_cons]
    omega

theorem var_cut_loop_none (m : Mem) (function : Option FuncPtr) (address : Nat)
    (suf : List Variable) (i : Nat) :
    (var_cut_loop m function address suf i).2 = none ↔ ∀ w ∈ suf, address < w.address := by
  induction suf generalizing i with
  | nil => simp [var_cut_loop]
  | cons var rest ih =>
    by_cases h1 : var.address = address
    · simp [var_cut_loop, h1]
    · by_cases h2 : var.address < address ∧ var_cut_here address rest
      · simp only [var_cut_loop, h1, h2, and_self, if_true, if_false, var_cut_at,
          List.mem_cons, forall_eq_or_imp]
        constructor
        · intro h; cases h
        · intro h; omega
      · simp only [var_cut_loop, h1, h2, if_false, ih, List.mem_cons, forall_eq_or_imp]
        constructor
        · intro h
          refine ⟨?_, h⟩
          by_contra hc
          apply h2
          refine ⟨by omega, ?_⟩
          cases rest with
          | nil => trivial
          | cons n r => exact h n (List.mem_cons_self _ _)
        · intro h
          exact h.2

/-! ### `var_get` on an existing variable -/

theorem var_get_of_not_found (m : Mem) (function : Option FuncPtr) (address size : Nat)
    (parent : Option FuncPtr) (h : var_find (var_list m function) address = none) :
    var_get m function address size parent = var_create m function address size parent := by
  unfold var_get
  rw [h]

theorem set_var_list_counters (m : Mem) (function : Option FuncPtr) (l : List Variable) :
    (set_var_list m function l).qvm.globals_count = m.qvm.globals_count ∧
    (set_var_list m function l).qvm.locals_count = m.qvm.locals_count ∧
    ∀ f, ((set_var_list m function l).func f).locals_count = (m.func f).locals_count := by
  cases function with
  | none => simp [set_var_list]
  | some g =>
    refine ⟨rfl, rfl, ?_⟩
    intro f
    by_cases hf : f = g
    · subst hf; simp [set_var_list]
    · simp [set_var_list, Function.update_noteq hf]

theorem func_list_add_count (ps : List FuncPtr) (p : FuncPtr) (h : ps.Nodup) :
    (func_list_add ps p).1.count p = 1 := by
  by_cases hp : p ∈ ps
  · rw [func_list_add_fst_of_mem hp]
    exact List.count_eq_one_of_mem h hp
  · rw [func_list_add_fst_of_not_mem hp]
    simp [List.count_eq_zero_of_not_mem hp]

/-- Claim C1. When a variable chain (the module globals, or the locals of one function) has
strictly increasing addresses, it still has strictly increasing addresses after
`var_get` on that chain, and also after `var_cut` on that chain, for every address,
size hint and parent. -/
theorem var_lists_stay_sorted (m : Mem) (function : Option FuncPtr) (address size : Nat)
    (parent : Option FuncPtr) (hs : addr_sorted (var_list m function)) :
    addr_sorted (var_list (var_get m function address size parent).1 function) ∧
    addr_sorted (var_list (var_cut m function address).1 function) :=
  ⟨var_get_sorted m function address size parent hs, var_cut_sorted m function address hs⟩

/-- Claim C1 at a concrete state: globals at 0x80 and 0x100, a lookup and a cut at 0x90. -/
theorem var_lists_stay_sorted_witness :
    addr_sorted (var_list (mem_globals [{ var_new with address := 0x80 }, global_100 8 []]) none) ∧
    addr_sorted (var_list (var_get (mem_globals [{ var_new with address := 0x80 },
      global_100 8 []]) none 0x90 4 (some 3)).1 none) ∧
    addr_sorted (var_list (var_cut (mem_globals [{ var_new with address := 0x80 },
      global_100 8 []]) none 0x90).1 none) :=
  ⟨by decide, var_lists_stay_sorted
    (mem_globals [{ var_new with address := 0x80 }, global_100 8 []]) none 0x90 4 (some 3)
    (by decide)⟩

/-- Claim C2 fails on the reuse path. A global at 0x100 whose `prob_size[4]` is 0 is looked up
by `var_get` with size hint 4: the variable found is returned and its `prob_size[4]` is
still 0, whereas the creation path (the same call on a module without that global)
returns a variable whose `prob_size[4]` is 1. -/
theorem var_get_reuse_keeps_histogram :
    var_find (var_list (mem_globals [global_100 0 []]) none) 0x100 = some 0 ∧
    ((var_list (mem_globals [global_100 0 []]) none)[0]?.map
      (fun v => v.prob_size 4)) = some 0 ∧
    (var_get (mem_globals [global_100 0 []]) none 0x100 4 (some 3)).2 = 0 ∧
    ((var_list (var_get (mem_globals [global_100 0 []]) none 0x100 4 (some 3)).1 none)[0]?.map
      (fun v => v.prob_size 4)) = some 0 ∧
    ((var_list (var_get (mem_globals []) none 0x100 4 (some 3)).1 none)[0]?.map
      (fun v => v.prob_size 4)) = some 1 := by
  decide

theorem var_get_found (m : Mem) (function parent : Option FuncPtr) (address size : Nat) :
    (∃ v, (var_list (var_get m function address size parent).1 function)[
        (var_get m function address size parent).2]? = some v ∧ v.address = address) ∧
    var_find (var_list (var_get m function address size parent).1 function) address =
      some (var_get m function address size parent).2 := by
  cases hfind : var_find (var_list m function) address with
  | none =>
    rw [var_get_of_not_found m function address size parent hfind]
    refine ⟨⟨_, var_create_get m function address size parent, var_fresh_address _ _ _ _ _⟩, ?_⟩
    have h := var_create_list m function address size parent
    rw [h.1]
    have h2 := var_find_link_at (var_fresh m function address size parent)
      (var_list m function) _ h.2
      (by rw [var_fresh_address]; exact var_find_eq_none.mp hfind)
    rw [var_fresh_address] at h2
    exact h2
  | some i0 =>
    obtain ⟨v0, hv0, hv0a⟩ := var_find_some hfind
    cases parent with
    | none =>
      have hg : var_get m function address size none = (m, i0) := by
        unfold var_get; rw [hfind]
      rw [hg]
      exact ⟨⟨v0, hv0, hv0a⟩, hfind⟩
    | some p =>
      have hg : var_get m function address size (some p) =
          (set_var_list m function
            (modify_at (fun v => { v with parents := (func_list_add v.parents p).1 })
              (var_list m function) i0), i0) := by
        unfold var_get; rw [hfind]
      rw [hg]
      simp only [var_list_set_var_list]
      have hget := modify_at_get (fun v : Variable =>
        { v with parents := (func_list_add v.parents p).1 }) (var_list m function) i0
      rw [hv0] at hget
      refine ⟨⟨_, hget, hv0a⟩, ?_⟩
      have hfm := var_find_modify_at (fun v : Variable =>
        { v with parents := (func_list_add v.parents p).1 }) (fun _ => rfl)
        (var_list m function) i0 address
      rw [hfm]
      exact hfind

theorem var_deref_var_get (m : Mem) (function parent : Option FuncPtr) (address size : Nat) :
    ∃ v, var_deref (var_get m function address size parent).1 ⟨function, address⟩ = some v ∧
      v.address = address := by
  obtain ⟨⟨v, hv, hva⟩, hf⟩ := var_get_found m function parent address size
  refine ⟨v, ?_, hva⟩
  simp only [var_deref, hf, hv]

/-- Claim C3. `var_get` returns a variable whose address is the requested one and which
`var_find` then finds in the relevant chain (the locals of the owner when one is given,
the module globals otherwise).  If a variable with that address was already in the chain
(at position `i`, with value `v`), the variable returned is that one, the chain keeps
its length and every other variable, the variable itself changes in its `parents` field
only, the globals and locals counters are unchanged, and, the parents list being free
of repetition before, the referring function occurs exactly once in it afterwards. -/
theorem var_get_returns_found (m : Mem) (function parent : Option FuncPtr)
    (address size : Nat) :
    (∃ v, (var_list (var_get m function address size parent).1 function)[
        (var_get m function address size parent).2]? = some v ∧ v.address = address) ∧
    var_find (var_list (var_get m function address size parent).1 function) address =
      some (var_get m function address size parent).2 ∧
    (∀ i v, var_find (var_list m function) address = some i →
      (var_list m function)[i]? = some v →
      (var_get m function address size parent).2 = i ∧
      (var_list (var_get m function address size parent).1 function).length =
        (var_list m function).length ∧
      (∀ j, j ≠ i → (var_list (var_get m function address size parent).1 function)[j]? =
        (var_list m function)[j]?) ∧
      (∃ ps, (var_list (var_get m function address size parent).1 function)[i]? =
        some { v with parents := ps } ∧
        ∀ p, parent = some p → v.parents.Nodup → ps.count p = 1) ∧
      (var_get m function address size parent).1.qvm.globals_count = m.qvm.globals_count ∧
      (var_get m function address size parent).1.qvm.locals_count = m.qvm.locals_count ∧
      ∀ f, ((var_get m function address size parent).1.func f).locals_count =
        (m.func f).locals_count) := by
  refine ⟨(var_get_found m function parent address size).1,
    (var_get_found m function parent address size).2, ?_⟩
  intro i v hfind hv0
  cases parent with
  | none =>
    have hg : var_get m function address size none = (m, i) := by
      unfold var_get; rw [hfind]
    rw [hg]
    exact ⟨rfl, rfl, fun _ _ => rfl, ⟨v.parents, hv0, fun p hp => by cases hp⟩, rfl, rfl,
      fun _ => rfl⟩
  | some p =>
    have hg : var_get m function address size (some p) =
        (set_var_list m function
          (modify_at (fun v => { v with parents := (func_list_add v.parents p).1 })
            (var_list m function) i), i) := by
      unfold var_get; rw [hfind]
    rw [hg]
    simp only [var_list_set_var_list]
    have hget := modify_at_get (fun v : Variable =>
      { v with parents := (func_list_add v.parents p).1 }) (var_list m function) i
    rw [hv0] at hget
    refine ⟨trivial, modify_at_length _ _ _, fun j hj => modify_at_get_ne _ _ _ _ hj,
      ⟨_, hget, ?_⟩, (set_var_list_counters m function _).1,
      (set_var_list_counters m function _).2.1, (set_var_list_counters m function _).2.2⟩
    intro q hq hnd
    cases hq
    exact func_list_add_count _ _ hnd

/-- Claim C3 at a concrete state: the global at 0x100, already used by function 5, is looked
up on behalf of function 3; it is returned, with parents 3, 5. -/
theorem var_get_returns_found_witness :
    var_find (var_list (mem_globals [global_100 4 [5]]) none) 0x100 = some 0 ∧
    (var_list (mem_globals [global_100 4 [5]]) none)[0]? = some (global_100 4 [5]) ∧
    (var_list (var_get (mem_globals [global_100 4 [5]]) none 0x100 4 (some 3)).1 none)[0]? =
      some (global_100 4 [3, 5]) ∧
    (var_get (mem_globals [global_100 4 [5]]) none 0x100 4 (some 3)).2 = 0 ∧
    (var_list (var_get (mem_globals [global_100 4 [5]]) none 0x100 4 (some 3)).1 none).length =
      (var_list (mem_globals [global_100 4 [5]]) none).length :=
  have h := (var_get_returns_found (mem_globals [global_100 4 [5]]) none (some 3) 0x100 4).2.2
    0 (global_100 4 [5]) (by decide) (by decide)
  ⟨by decide, by decide, by decide, h.1, h.2.1⟩

/-! ### The fields of a fresh variable -/

theorem var_count_size_fields (v : Variable) (s : Nat) :
    (var_count_size v s).name = v.name ∧ (var_count_size v s).status = v.status ∧
    (var_count_size v s).content = v.content ∧ (var_count_size v s).size = v.size := by
  unfold var_count_size
  split
  · exact ⟨rfl, rfl, rfl, rfl⟩
  · split
    · exact ⟨rfl, rfl, rfl, rfl⟩
    · split <;> exact ⟨rfl, rfl, rfl, rfl⟩

theorem var_fresh_fields (m : Mem) (function : Option FuncPtr) (address used_size : Nat)
    (parent : Option FuncPtr) :
    (var_fresh m function address used_size parent).name =
      (var_name_status m function address).1 ∧
    (var_fresh m function address used_size parent).status =
      (var_name_status m function address).2 ∧
    (var_fresh m function address used_size parent).content =
      var_content m function address := by
  unfold var_fresh
  cases parent <;> simp [var_count_size_fields]

/-! ### Claims on `var_cut` -/

/-- Claim C4. In a chain with strictly increasing addresses that is `before`, then `V`, then
`rest`, a cut at an address `A` with `V.address < A < V.address + V.size`, no other
variable starting in `(V.address, A]`, succeeds: `V` stays at its address with size
`A - V.address`; exactly one new variable, at address `A` and of size
`V.address + V.size - A`, is linked right after `V` and is the variable returned;
`before` and `rest` are unchanged.  The two ranges `[V.address, A)` and
`[A, V.address + V.size)` are adjacent, so they are disjoint and cover the range of `V`. -/
theorem var_cut_splits (m : Mem) (function : Option FuncPtr) (A : Nat)
    (before rest : List Variable) (V : Variable)
    (hl : var_list m function = before ++ V :: rest)
    (hs : addr_sorted (var_list m function))
    (hA : A < U32) (hsize : V.size < U32)
    (h1 : V.address < A) (h2 : A < V.address + V.size)
    (h3 : ∀ w ∈ before ++ rest, ¬ (V.address < w.address ∧ w.address ≤ A)) :
    (var_cut m function A).2 = some (before.length + 1) ∧
    var_list (var_cut m function A).1 function =
      before ++ { V with size := A - V.address } ::
        { var_fresh m function A 0 none with size := V.address + V.size - A } :: rest ∧
    (var_fresh m function A 0 none).address = A ∧
    V.address + (A - V.address) = A ∧
    A + (V.address + V.size - A) = V.address + V.size := by
  have hs0 := hs
  rw [hl] at hs
  have hs1 := List.pairwise_append.mp hs
  have hs2 := List.pairwise_cons.mp hs1.2.1
  have hb : ∀ w ∈ before, w.address < V.address :=
    fun w hw => hs1.2.2 w hw V (List.mem_cons_self _ _)
  have hr : ∀ w ∈ rest, A < w.address := by
    intro w hw
    have ha := hs2.1 w hw
    have hb := h3 w (List.mem_append_right _ hw)
    omega
  have hhere : var_cut_here A rest := by
    cases rest with
    | nil => trivial
    | cons n r => exact hr n (List.mem_cons_self _ _)
  have hne : ¬ V.address = A := by omega
  have hloop : var_cut m function A = var_cut_at m function A V before.length := by
    unfold var_cut
    rw [hl, var_cut_loop_skip m function A before V rest 0 hb h1]
    conv_lhs => rw [var_cut_loop]
    rw [if_neg hne, if_pos ⟨h1, hhere⟩, Nat.zero_add]
  have hk : (var_create m function A 0 none).2 = before.length + 1 := by
    rw [var_create_snd_sorted m function A 0 none hs0, hl, count_below_append]
    rw [count_below_eq_length A before (fun w hw => by have := hb w hw; omega)]
    simp only [count_below, h1, if_true]
    rw [count_below_eq_zero A rest (fun w hw => by have := hr w hw; omega)]
  have hlist : var_list (var_create m function A 0 none).1 function =
      before ++ V :: var_fresh m function A 0 none :: rest := by
    rw [(var_create_list m function A 0 none).1, hk, hl, link_at_append]
  have hd1 : u32_sub A V.address = A - V.address := u32_sub_eq hA (by omega)
  have hd2 : u32_sub V.size (A - V.address) = V.address + V.size - A := by
    rw [u32_sub_eq hsize (by omega)]
    omega
  refine ⟨?_, ?_, var_fresh_address _ _ _ _ _, by omega, by omega⟩
  · rw [hloop]
    simp only [var_cut_at, hk]
  · rw [hloop]
    simp only [var_cut_at, var_list_set_var_list, hk, hlist, hd1, hd2]
    rw [if_neg (by omega), modify_at_append_succ, modify_at_append]

/-- Claim C4 at the input of the specification: the global at 0x100 of size 8, cut at 0x104,
becomes a global at 0x100 of size 4 followed by a new global at 0x104 of size 4. -/
theorem var_cut_splits_witness :
    (var_cut (mem_globals [global_100 8 []]) none 0x104).2 = some 1 ∧
    (var_list (var_cut (mem_globals [global_100 8 []]) none 0x104).1 none).map
      (fun v => (v.name, v.address, v.size)) =
      [("global_100", 0x100, 4), ("global_104", 0x104, 4)] :=
  have h := var_cut_splits (mem_globals [global_100 8 []]) none 0x104 [] [] (global_100 8 [])
    rfl (by decide) (by decide) (by decide) (by decide) (by decide) (by decide)
  ⟨h.1, by rw [h.2.1]; decide⟩

/-- Claim C5 (as the code behaves). `var_cut` at `A` fails exactly when every variable of the
chain starts above `A`; when it fails the state (the chain, every size, the counters) is
unchanged.  An address above the start of some variable is cut off the nearest variable
below it whether or not it lies within that variable's size. -/
theorem var_cut_fails_iff (m : Mem) (function : Option FuncPtr) (A : Nat) :
    ((var_cut m function A).2 = none ↔ ∀ w ∈ var_list m function, A < w.address) ∧
    ((var_cut m function A).2 = none → (var_cut m function A).1 = m) := by
  refine ⟨var_cut_loop_none m function A _ 0, ?_⟩
  unfold var_cut
  rcases var_cut_loop_cases m function A (var_list m function) 0 with
    h | ⟨j, h⟩ | ⟨before, v, r, _, _, _, _, h⟩
  · rw [h]; intro _; rfl
  · rw [h]; intro _; rfl
  · rw [h]
    intro hc
    simp [var_cut_at] at hc

/-- Claim C5 at a concrete state: a cut at 0x80 below the only global, at 0x100, fails and
changes nothing. -/
theorem var_cut_fails_iff_witness :
    (var_cut (mem_globals [global_100 4 []]) none 0x80).2 = none ∧
    (var_cut (mem_globals [global_100 4 []]) none 0x80).1 = mem_globals [global_100 4 []] :=
  have h := var_cut_fails_iff (mem_globals [global_100 4 []]) none 0x80
  ⟨h.1.mpr (by decide), h.2 (h.1.mpr (by decide))⟩

/-- Claim C5 (as stated) fails: 0x200 lies in the byte range of no variable of the chain that
holds one global at 0x100 of size 4, yet `var_cut` at 0x200 returns a new variable (at
position 1), and the sizes in the chain become 0x100 and `4 - 0x100` modulo `2 ^ 32`. -/
theorem var_cut_outside_range_succeeds :
    (∀ V ∈ var_list (mem_globals [global_100 4 []]) none,
      ¬ (V.address ≤ 0x200 ∧ 0x200 < V.address + V.size)) ∧
    (var_cut (mem_globals [global_100 4 []]) none 0x200).2 = some 1 ∧
    (var_list (var_cut (mem_globals [global_100 4 []]) none 0x200).1 none).map
      (fun v => (v.address, v.size)) = [(0x100, 0x100), (0x200, 4294967044)] ∧
    (var_cut (mem_globals [global_100 4 []]) none 0x200).1.qvm.globals_count = 1 := by
  decide

/-! ### Claims on the name and status of a new variable -/

/-- Claim C6 (as the code behaves). A variable newly created by `var_get` with owner `f`, whose
stack size is `S`, at frame address `a`: for `a < S` it has status LOCAL and name
`local_<lowercase hex of a>`; for `a >= S` it has status ARG; for `a >= S + 8` its name
is `arg_<n>` with `n = (a - S - 8) / 4` in decimal. -/
theorem var_get_local_arg_name (m : Mem) (f : FuncPtr) (a size : Nat)
    (parent : Option FuncPtr) (ha : a < U32)
    (hnew : var_find (var_list m (some f)) a = none) :
    ∃ v, (var_list (var_get m (some f) a size parent).1 (some f))[
        (var_get m (some f) a size parent).2]? = some v ∧
      (a < (m.func f).stack_size →
        v.status = VarStatus.VS_LOCAL ∧ v.name = "local_" ++ fmt_x a) ∧
      ((m.func f).stack_size ≤ a → v.status = VarStatus.VS_ARG) ∧
      ((m.func f).stack_size + 8 ≤ a →
        v.name = "arg_" ++ fmt_u ((a - (m.func f).stack_size - 8) / 4)) := by
  rw [var_get_of_not_found m (some f) a size parent hnew]
  refine ⟨_, var_create_get m (some f) a size parent, ?_, ?_, ?_⟩
  · intro h
    have hn : ¬ a ≥ (m.func f).stack_size := by omega
    have hf := var_fresh_fields m (some f) a size parent
    rw [hf.1, hf.2.1]
    simp [var_name_status, hn]
  · intro h
    have hf := var_fresh_fields m (some f) a size parent
    rw [hf.2.1]
    simp [var_name_status, h]
  · intro h
    have hge : a ≥ (m.func f).stack_size := by omega
    have hf := var_fresh_fields m (some f) a size parent
    rw [hf.1]
    have e1 : u32_sub a (m.func f).stack_size = a - (m.func f).stack_size :=
      u32_sub_eq ha (by omega)
    have e2 : u32_sub (a - (m.func f).stack_size) 8 = a - (m.func f).stack_size - 8 :=
      u32_sub_eq (by omega) (by omega)
    have e3 : (a - (m.func f).stack_size - 8) / 4 < 2147483648 := by
      unfold U32 at ha
      omega
    simp only [var_name_status, hge, if_true, e1, e2, fmt_i_eq_fmt_u e3]

/-- Claim C6 at concrete inputs: in a function with a 16-byte frame, frame address 0x1c is the
argument `arg_1` and frame address 4 is the local `local_4`. -/
theorem var_get_local_arg_name_witness :
    ∃ v, (var_list (var_get mem_example (some 7) 0x1c 4 (some 7)).1 (some 7))[
        (var_get mem_example (some 7) 0x1c 4 (some 7)).2]? = some v ∧
      v.status = VarStatus.VS_ARG ∧ v.name = "arg_1" :=
  (var_get_local_arg_name mem_example 7 0x1c 4 (some 7) (by decide) (by decide)).imp
    (fun _ h => ⟨h.1, h.2.2.1 (by decide), (h.2.2.2 (by decide)).trans (by decide)⟩)

/-- Claim C6 (as stated) fails for `S <= a < S + 8`: in a function with a 16-byte frame the
variable created at frame address 16 is the ARG named `arg_1073741822`, the unsigned
32-bit value of `(16 - 16 - 8) / 4`, and not `arg_-2` as the integer quotient would
give. -/
theorem var_get_arg_name_wraps :
    (mem_example.func 7).stack_size = 16 ∧
    (var_list (var_get mem_example (some 7) 16 4 (some 7)).1 (some 7)).map
      (fun v => (v.status, v.name)) = [(VarStatus.VS_ARG, "arg_1073741822")] ∧
    "arg_" ++ toString (((16 : Int) - 16 - 8) / 4) = "arg_-2" ∧
    "arg_1073741822" ≠ "arg_" ++ toString (((16 : Int) - 16 - 8) / 4) := by
  decide

/-- Claim C7. A variable newly created by `var_get` without owner, in a module with DATA
length `D` and LIT length `L` (with `D + L` below `2 ^ 32`), at address `a`, has one of
the statuses GLOBAL, LITERAL, BSS: GLOBAL exactly when `a < D`, LITERAL exactly when
`D <= a < D + L`, BSS exactly when `D + L <= a`; its name is `global_`, `lit_` or
`bss_` followed by the lowercase hex of `a` accordingly; its content refers to the DATA
section at offset `a` when the status is GLOBAL or LITERAL and is null when it is BSS. -/
theorem var_get_global_status (m : Mem) (a size : Nat) (parent : Option FuncPtr)
    (hDL : m.qvm.data_length + m.qvm.lit_length < U32)
    (hnew : var_find (var_list m none) a = none) :
    ∃ v, (var_list (var_get m none a size parent).1 none)[
        (var_get m none a size parent).2]? = some v ∧
      (v.status = VarStatus.VS_GLOBAL ∨ v.status = VarStatus.VS_LITERAL ∨
        v.status = VarStatus.VS_BSS) ∧
      (v.status = VarStatus.VS_GLOBAL ↔ a < m.qvm.data_length) ∧
      (v.status = VarStatus.VS_LITERAL ↔
        m.qvm.data_length ≤ a ∧ a < m.qvm.data_length + m.qvm.lit_length) ∧
      (v.status = VarStatus.VS_BSS ↔ m.qvm.data_length + m.qvm.lit_length ≤ a) ∧
      (v.status = VarStatus.VS_GLOBAL → v.name = "global_" ++ fmt_x a) ∧
      (v.status = VarStatus.VS_LITERAL → v.name = "lit_" ++ fmt_x a) ∧
      (v.status = VarStatus.VS_BSS → v.name = "bss_" ++ fmt_x a) ∧
      (v.status = VarStatus.VS_GLOBAL ∨ v.status = VarStatus.VS_LITERAL →
        v.content = some a) ∧
      (v.status = VarStatus.VS_BSS → v.content = none) := by
  rw [var_get_of_not_found m none a size parent hnew]
  refine ⟨_, var_create_get m none a size parent, ?_⟩
  have hf := var_fresh_fields m none a size parent
  rw [hf.1, hf.2.1, hf.2.2]
  simp only [var_name_status, var_content, u32_add_eq hDL]
  by_cases h1 : a < m.qvm.data_length
  · have h2 : a < m.qvm.data_length + m.qvm.lit_length := by omega
    simp [h1, h2]
  · by_cases h2 : a < m.qvm.data_length + m.qvm.lit_length
    · simp [h1, h2]
      all_goals omega
    · simp [h1, h2]
      all_goals omega

/-- Claim C7 at a concrete input: with 0x200 bytes of DATA and 0x10 bytes of LIT, the variable
created at 0x204 is the literal `lit_204`, with content at offset 0x204. -/
theorem var_get_global_status_witness :
    ∃ v, (var_list (var_get mem_example none 0x204 1 (some 7)).1 none)[
        (var_get mem_example none 0x204 1 (some 7)).2]? = some v ∧
      v.status = VarStatus.VS_LITERAL ∧ v.name = "lit_204" ∧ v.content = some 0x204 :=
  (var_get_global_status mem_example 0x204 1 (some 7) (by decide) (by decide)).imp
    (fun _ h =>
      have hs := h.2.2.2.1.mpr (by decide)
      ⟨h.1, hs, (h.2.2.2.2.2.2.1 hs).trans (by decide), h.2.2.2.2.2.2.2.2.1 (Or.inr hs)⟩)

/-! ### The variable resolver -/

theorem opb_load_variables_from_leaf (m : Mem) (t0 t : OpbData)
    (h1 : t.id ≠ OpbId.OPB_LOAD) (h2 : t.id ≠ OpbId.OPB_ASSIGNATION)
    (h3 : t.id ≠ OpbId.OPB_STRUCT_COPY) (h4 : t.id ≠ OpbId.OPB_LOCAL_ADR) :
    opb_load_variables_from m (Opblock.node t0 Opblock.null Opblock.null Opblock.null) t =
      some (m, Opblock.node t Opblock.null Opblock.null Opblock.null) := by
  simp [opb_load_variables_from, opb_load_here, Opblock.data?, h1, h2, h3, h4]

theorem opb_load_address_some (m : Mem) (d t : OpbData) (oc toc : Opcode)
    (hd : d.opcode = some oc) (ht : t.opcode = some toc)
    (hk : t.id = OpbId.OPB_LOCAL_ADR ∨ t.id = OpbId.OPB_CONST) :
    opb_load_address m d (some t) =
      some ((var_get m (if t.id ≠ OpbId.OPB_CONST then d.function else none)
          toc.value oc.value d.function).1,
        some { t with
          var := some ⟨if t.id ≠ OpbId.OPB_CONST then d.function else none, toc.value⟩,
          id := OpbId.OPB_GLOBAL_ADR }) := by
  simp [opb_load_address, hd, ht, hk]

/-- Claim C10 (as the code behaves). For a LOAD (operand `child`) or an ASSIGNATION (operand
`op2`) whose address operand is an opblock without operands of kind LOCAL_ADR or CONST,
`opb_load_variables` attaches to the operand the variable that `var_get` returns for the
operand's value (looked up in the locals of the owning function for a LOCAL_ADR, in the
module globals for a CONST) and sets the operand's kind to GLOBAL_ADR in both cases.  For
the ASSIGNATION the value operand `op1` is resolved afterwards.  The pointer attached
denotes a variable with the operand's value as address. -/
theorem opb_load_variables_address_operand (m : Mem) (d t : OpbData) (oc toc : Opcode)
    (hd : d.opcode = some oc) (ht : t.opcode = some toc)
    (hk : t.id = OpbId.OPB_LOCAL_ADR ∨ t.id = OpbId.OPB_CONST) :
    (d.id = OpbId.OPB_LOAD → ∀ op1 op2,
      opb_load_variables m
          (Opblock.node d (Opblock.node t Opblock.null Opblock.null Opblock.null) op1 op2) =
        some ((var_get m (if t.id ≠ OpbId.OPB_CONST then d.function else none)
            toc.value oc.value d.function).1,
          Opblock.node d
            (Opblock.node { t with
                var := some ⟨if t.id ≠ OpbId.OPB_CONST then d.function else none, toc.value⟩,
                id := OpbId.OPB_GLOBAL_ADR }
              Opblock.null Opblock.null Opblock.null) op1 op2)) ∧
    (d.id = OpbId.OPB_ASSIGNATION → ∀ d1 a b c,
      opb_load_variables m
          (Opblock.node d Opblock.null (Opblock.node d1 a b c)
            (Opblock.node t Opblock.null Opblock.null Opblock.null)) =
        (opb_load_variables
            (var_get m (if t.id ≠ OpbId.OPB_CONST then d.function else none)
              toc.value oc.value d.function).1 (Opblock.node d1 a b c)).map
          (fun r => (r.1, Opblock.node d Opblock.null r.2
            (Opblock.node { t with
                var := some ⟨if t.id ≠ OpbId.OPB_CONST then d.function else none, toc.value⟩,
                id := OpbId.OPB_GLOBAL_ADR }
              Opblock.null Opblock.null Opblock.null)))) ∧
    (∃ v, var_deref (var_get m (if t.id ≠ OpbId.OPB_CONST then d.function else none)
          toc.value oc.value d.function).1
          ⟨if t.id ≠ OpbId.OPB_CONST then d.function else none, toc.value⟩ = some v ∧
      v.address = toc.value) := by
  refine ⟨?_, ?_, var_deref_var_get _ _ _ _ _⟩
  · intro hload op1 op2
    simp only [opb_load_variables, Opblock.data?, opb_load_variables_from, opb_load_here, hload,
      if_true, opb_load_address_some m d t oc toc hd ht hk]
    cases op2 <;> simp [Opblock.set_data]
  · intro hst d1 a b c
    have hhere : opb_load_here m d none (some t) =
        some ((var_get m (if t.id ≠ OpbId.OPB_CONST then d.function else none)
            toc.value oc.value d.function).1, d, none,
          some { t with
            var := some ⟨if t.id ≠ OpbId.OPB_CONST then d.function else none, toc.value⟩,
            id := OpbId.OPB_GLOBAL_ADR }) := by
      simp only [opb_load_here, hst, reduceCtorEq, if_false, if_true,
        opb_load_address_some m d t oc toc hd ht hk]
    have hstep : opb_load_variables m
        (Opblock.node d Opblock.null (Opblock.node d1 a b c)
          (Opblock.node t Opblock.null Opblock.null Opblock.null)) =
        match opb_load_variables_from
            (var_get m (if t.id ≠ OpbId.OPB_CONST then d.function else none)
              toc.value oc.value d.function).1 (Opblock.node d1 a b c) d1 with
        | none => none
        | some (m5, op1a) =>
          (opb_load_variables_from m5
            (Opblock.node t Opblock.null Opblock.null Opblock.null)
            { t with
              var := some ⟨if t.id ≠ OpbId.OPB_CONST then d.function else none, toc.value⟩,
              id := OpbId.OPB_GLOBAL_ADR }).map
            (fun r => (r.1, Opblock.node d Opblock.null op1a r.2)) := by
      unfold opb_load_variables
      simp only [Opblock.data?]
      rw [opb_load_variables_from]
      simp only [Opblock.data?, hhere]
    rw [hstep]
    have hsub : opb_load_variables
        (var_get m (if t.id ≠ OpbId.OPB_CONST then d.function else none)
          toc.value oc.value d.function).1 (Opblock.node d1 a b c) =
        opb_load_variables_from
          (var_get m (if t.id ≠ OpbId.OPB_CONST then d.function else none)
            toc.value oc.value d.function).1 (Opblock.node d1 a b c) d1 := by
      unfold opb_load_variables
      simp only [Opblock.data?]
    rw [hsub]
    cases opb_load_variables_from
        (var_get m (if t.id ≠ OpbId.OPB_CONST then d.function else none)
          toc.value oc.value d.function).1 (Opblock.node d1 a b c) d1 with
    | none => rfl
    | some r =>
      obtain ⟨m5, op1a⟩ := r
      simp only [Option.map_some']
      rw [opb_load_variables_from_leaf _ _ _ (by simp) (by simp) (by simp) (by simp)]
      rfl

/-- Claim C10 at a concrete input: a LOAD of size 4 in function 7 whose child is the
LOCAL_ADR of frame address 4. -/
theorem opb_load_variables_address_operand_witness :
    opb_load_variables mem_example
        (Opblock.node (opb_load_data 4 (some 7)) (opb_leaf OpbId.OPB_LOCAL_ADR 4 (some 7))
          Opblock.null Opblock.null) =
      some ((var_get mem_example (some 7) 4 4 (some 7)).1,
        Opblock.node (opb_load_data 4 (some 7))
          (Opblock.node
            { id := OpbId.OPB_GLOBAL_ADR, opcode := some { value := 4, operation := "" },
              function := some 7, var := some ⟨some 7, 4⟩ }
            Opblock.null Opblock.null Opblock.null)
          Opblock.null Opblock.null) :=
  (opb_load_variables_address_operand mem_example (opb_load_data 4 (some 7))
    { id := OpbId.OPB_LOCAL_ADR, opcode := some { value := 4, operation := "" },
      function := some 7, var := none }
    { value := 4, operation := "" } { value := 4, operation := "" } rfl rfl
    (Or.inl rfl)).1 rfl Opblock.null Opblock.null

/-- Claim C10 (as stated) fails: after `opb_load_variables` on a LOAD of size 4 in function 7
whose child is the LOCAL_ADR of frame address 4, the child has kind GLOBAL_ADR, not
LOCAL_ADR, although it was not a CONST; its variable is `local_4` of function 7. -/
theorem opb_load_variables_local_becomes_global :
    (opb_load_variables mem_example
        (Opblock.node (opb_load_data 4 (some 7)) (opb_leaf OpbId.OPB_LOCAL_ADR 4 (some 7))
          Opblock.null Opblock.null)).map (fun r => r.2) =
      some (Opblock.node (opb_load_data 4 (some 7))
        (Opblock.node
          { id := OpbId.OPB_GLOBAL_ADR, opcode := some { value := 4, operation := "" },
            function := some 7, var := some ⟨some 7, 4⟩ }
          Opblock.null Opblock.null Opblock.null)
        Opblock.null Opblock.null) ∧
    (opb_load_variables mem_example
        (Opblock.node (opb_load_data 4 (some 7)) (opb_leaf OpbId.OPB_LOCAL_ADR 4 (some 7))
          Opblock.null Opblock.null)).map
        (fun r => (var_deref r.1 ⟨some 7, 4⟩).map (fun v => (v.name, v.status))) =
      some (some ("local_4", VarStatus.VS_LOCAL)) ∧
    OpbId.OPB_GLOBAL_ADR ≠ OpbId.OPB_LOCAL_ADR := by
  decide

/-! ### Syscalls and renaming -/

theorem func_find_in_some {m : Mem} {a : Nat} {l : List FuncPtr} {p : FuncPtr}
    (h : func_find_in m a l = some p) : p ∈ l ∧ (m.func p).address = a := by
  induction l with
  | nil => simp [func_find_in] at h
  | cons q rest ih =>
    by_cases hq : (m.func q).address = a
    · simp only [func_find_in, hq, if_true, Option.some.injEq] at h
      subst h
      exact ⟨List.mem_cons_self _ _, hq⟩
    · simp only [func_find_in, hq, if_false] at h
      exact ⟨List.mem_cons_of_mem _ (ih h).1, (ih h).2⟩

theorem func_find_in_eq_none {m : Mem} {a : Nat} {l : List FuncPtr} :
    func_find_in m a l = none ↔ ∀ p ∈ l, (m.func p).address ≠ a := by
  induction l with
  | nil => simp [func_find_in]
  | cons q rest ih =>
    by_cases hq : (m.func q).address = a
    · simp [func_find_in, hq]
    · simp [func_find_in, hq, ih]

theorem func_find_eq_none {m : Mem} {a : Nat} :
    func_find m a = none ↔
      (∀ p ∈ m.qvm.functions, (m.func p).address ≠ a) ∧
      (∀ p ∈ m.qvm.syscalls, (m.func p).address ≠ a) := by
  unfold func_find
  cases h : func_find_in m a m.qvm.functions with
  | some p =>
    have hp := func_find_in_some h
    simp only [false_iff, not_and, reduceCtorEq]
    intro hall
    exact absurd hp.2 (hall p hp.1)
  | none =>
    simp only [func_find_in_eq_none]
    exact ⟨fun h2 => ⟨func_find_in_eq_none.mp h, h2⟩, fun h2 => h2.2⟩

theorem func_find_some {m : Mem} {a : Nat} {p : FuncPtr} (h : func_find m a = some p) :
    (p ∈ m.qvm.functions ∨ p ∈ m.qvm.syscalls) ∧ (m.func p).address = a := by
  unfold func_find at h
  cases h1 : func_find_in m a m.qvm.functions with
  | some q =>
    rw [h1] at h
    cases h
    exact ⟨Or.inl (func_find_in_some h1).1, (func_find_in_some h1).2⟩
  | none =>
    rw [h1] at h
    exact ⟨Or.inr (func_find_in_some h).1, (func_find_in_some h).2⟩

theorem func_find_in_only (m : Mem) (a : Nat) (q : FuncPtr) (l : List FuncPtr)
    (h : ∀ p ∈ l, p ≠ q → (m.func p).address ≠ a) :
    func_find_in m a l = none ∨ func_find_in m a l = some q := by
  induction l with
  | nil => left; rfl
  | cons p rest ih =>
    by_cases hp : (m.func p).address = a
    · right
      have : p = q := by
        by_contra hne
        exact h p (List.mem_cons_self _ _) hne hp
      subst this
      simp [func_find_in, hp]
    · simp only [func_find_in, hp, if_false]
      exact ih (fun x hx => h x (List.mem_cons_of_mem _ hx))

theorem func_add_syscall_of_none {m : Mem} {a : Nat} (fresh : FuncPtr)
    (h : func_find m a = none) :
    func_add_syscall m a fresh =
      ({ qvm := { m.qvm with
                  syscalls := fresh :: m.qvm.syscalls,
                  syscalls_count := m.qvm.syscalls_count + 1 },
         func := Function.update m.func fresh
           { func_new with address := a, name := "trap_" ++ fmt_x a } },
       fresh) := by
  unfold func_add_syscall
  rw [h]

theorem func_add_syscall_of_some {m : Mem} {a : Nat} {p : FuncPtr} (fresh : FuncPtr)
    (h : func_find m a = some p) : func_add_syscall m a fresh = (m, p) := by
  unfold func_add_syscall
  rw [h]

theorem func_find_after_add {m : Mem} {a : Nat} (fresh : FuncPtr)
    (h : func_find m a = none) :
    func_find (func_add_syscall m a fresh).1 a = some fresh := by
  have hst := func_add_syscall_of_none fresh h
  have hnone := func_find_eq_none.mp h
  have e1 : (func_add_syscall m a fresh).1.func = Function.update m.func fresh
      { func_new with address := a, name := "trap_" ++ fmt_x a } := by rw [hst]
  have e2 : (func_add_syscall m a fresh).1.qvm.functions = m.qvm.functions := by rw [hst]
  have e3 : (func_add_syscall m a fresh).1.qvm.syscalls = fresh :: m.qvm.syscalls := by
    rw [hst]
  have hfresh : ((func_add_syscall m a fresh).1.func fresh).address = a := by
    rw [e1]; simp
  have hother : ∀ p, p ≠ fresh → (func_add_syscall m a fresh).1.func p = m.func p := by
    intro p hp
    rw [e1]
    exact Function.update_noteq hp _ _
  unfold func_find
  rw [e2, e3]
  rcases func_find_in_only (func_add_syscall m a fresh).1 a fresh m.qvm.functions
      (fun p hp hne => by rw [hother p hne]; exact hnone.1 p hp) with h1 | h1
  · rw [h1]
    simp only [func_find_in, hfresh, if_true]
  · rw [h1]

/-- Claim C13. When `a` is the address of no known function and of no syscall,
`func_add_syscall` returns the new function object, links it in front of the syscalls
chain (exactly one more stub), gives it address `a` and name `trap_` followed by the
lowercase hex of `a`, adds one to the syscall count, and leaves the functions array and
every other function object alone.  When `a` is the address of a known function or
syscall, it returns a function with that address from the array or the chain and
changes nothing.  A second call with the same address returns the same function and
leaves the state of the first call. -/
theorem func_add_syscall_adds_or_reuses (m : Mem) (a : Nat) (fresh : FuncPtr) :
    ((∀ p ∈ m.qvm.functions, (m.func p).address ≠ a) →
      (∀ p ∈ m.qvm.syscalls, (m.func p).address ≠ a) →
      (func_add_syscall m a fresh).2 = fresh ∧
      (func_add_syscall m a fresh).1.qvm.syscalls = fresh :: m.qvm.syscalls ∧
      ((func_add_syscall m a fresh).1.func fresh).address = a ∧
      ((func_add_syscall m a fresh).1.func fresh).name = "trap_" ++ fmt_x a ∧
      (func_add_syscall m a fresh).1.qvm.syscalls_count = m.qvm.syscalls_count + 1 ∧
      (func_add_syscall m a fresh).1.qvm.functions = m.qvm.functions ∧
      ∀ q, q ≠ fresh → (func_add_syscall m a fresh).1.func q = m.func q) ∧
    ((∃ p, (p ∈ m.qvm.functions ∨ p ∈ m.qvm.syscalls) ∧ (m.func p).address = a) →
      (func_add_syscall m a fresh).1 = m ∧
      ((func_add_syscall m a fresh).2 ∈ m.qvm.functions ∨
        (func_add_syscall m a fresh).2 ∈ m.qvm.syscalls) ∧
      (m.func (func_add_syscall m a fresh).2).address = a) ∧
    (∀ fresh2, func_add_syscall (func_add_syscall m a fresh).1 a fresh2 =
      func_add_syscall m a fresh) := by
  refine ⟨?_, ?_, ?_⟩
  · intro h1 h2
    have h := func_find_eq_none.mpr ⟨h1, h2⟩
    rw [func_add_syscall_of_none fresh h]
    refine ⟨rfl, rfl, by simp, by simp, rfl, rfl, ?_⟩
    intro q hq
    exact Function.update_noteq hq _ _
  · rintro ⟨p, hp, hpa⟩
    cases h : func_find m a with
    | none =>
      have hn := func_find_eq_none.mp h
      rcases hp with hp | hp
      · exact absurd hpa (hn.1 p hp)
      · exact absurd hpa (hn.2 p hp)
    | some q =>
      rw [func_add_syscall_of_some fresh h]
      exact ⟨rfl, (func_find_some h).1, (func_find_some h).2⟩
  · intro fresh2
    cases h : func_find m a with
    | none =>
      rw [func_add_syscall_of_some fresh2 (func_find_after_add fresh h)]
      rw [func_add_syscall_of_none fresh h]
    | some q =>
      rw [func_add_syscall_of_some fresh h]
      exact func_add_syscall_of_some fresh2 h

/-- Claim C13 at the input of the specification: in a module without functions and
syscalls, address 0xFFFFFFF9 gives a new syscall named `trap_fffffff9`. -/
theorem func_add_syscall_adds_or_reuses_witness :
    (func_add_syscall mem_example 0xFFFFFFF9 9).2 = 9 ∧
    (func_add_syscall mem_example 0xFFFFFFF9 9).1.qvm.syscalls = [9] ∧
    ((func_add_syscall mem_example 0xFFFFFFF9 9).1.func 9).address = 0xFFFFFFF9 ∧
    ((func_add_syscall mem_example 0xFFFFFFF9 9).1.func 9).name = "trap_fffffff9" ∧
    (func_add_syscall mem_example 0xFFFFFFF9 9).1.qvm.syscalls_count = 1 :=
  have h := (func_add_syscall_adds_or_reuses mem_example 0xFFFFFFF9 9).1
    (by decide) (by decide)
  ⟨h.1, h.2.1, h.2.2.1, h.2.2.2.1.trans (by decide), h.2.2.2.2.1⟩

/-- Claim C14. With `func_size` and `var_size` the capacities of the two name buffers:
a requested name whose length reaches the capacity leaves the function (resp. the
variable) as it was and `func_rename` returns 0; a shorter name becomes the stored name,
no other field changes, and `func_rename` returns 1. -/
theorem rename_bounded (func_size var_size : Nat) (func : Function) (var : Variable)
    (name : String) :
    (name.length ≥ func_size → func_rename func_size func name = (func, 0)) ∧
    (name.length < func_size →
      func_rename func_size func name = ({ func with name := name }, 1)) ∧
    (name.length ≥ var_size → var_rename var_size var name = var) ∧
    (name.length < var_size → var_rename var_size var name = { var with name := name }) := by
  refine ⟨?_, ?_, ?_, ?_⟩
  · intro h; simp [func_rename, h]
  · intro h
    have : ¬ name.length ≥ func_size := by omega
    simp [func_rename, this]
  · intro h; simp [var_rename, h]
  · intro h
    have : ¬ name.length ≥ var_size := by omega
    simp [var_rename, this]

/-- Claim C14 at concrete inputs: with buffers of 8 bytes, the 4-character name `main`
is stored and the 8-character name `too_long` is refused. -/
theorem rename_bounded_witness :
    (func_rename 8 fn_example "main").1.name = "main" ∧
    (func_rename 8 fn_example "main").2 = 1 ∧
    func_rename 8 fn_example "too_long" = (fn_example, 0) ∧
    var_rename 8 (global_100 4 []) "too_long" = global_100 4 [] :=
  have h := rename_bounded 8 8 fn_example (global_100 4 []) "main"
  have h2 := rename_bounded 8 8 fn_example (global_100 4 []) "too_long"
  ⟨by rw [h.2.1 (by decide)], by rw [h.2.1 (by decide)], h2.1 (by decide),
    h2.2.2.1 (by decide)⟩

/-! ### The printer -/

theorem opb_print_eq_with (m : Mem) (stmts : List Opblock) (depth : Nat) :
    opb_print m stmts depth = opb_print_with m stmts (opb_print_arg m stmts depth) := by
  cases depth <;> rfl

theorem string_paren_void (s : String) : s ++ "(" ++ "void" ++ ") \x7b" = s ++ "(void) \x7b" := by
  rw [String.append_assoc, String.append_assoc]
  rfl

theorem opb_print_enter_text (m : Mem) (stmts : List Opblock) (depth : Nat)
    (d : OpbData) (child op1 op2 : Opblock) (f : FuncPtr)
    (hid : d.id = OpbId.OPB_FUNC_ENTER) (hf : d.function = some f)
    (hl : (m.func f).locals = []) :
    ((m.func f).return_size ≠ 4 →
      opb_print m stmts depth (Opblock.node d child op1 op2) =
        some ("void " ++ (m.func f).name ++ "(void) \x7b")) ∧
    ((m.func f).return_size = 4 →
      opb_print m stmts depth (Opblock.node d child op1 op2) =
        some ("int " ++ (m.func f).name ++ "(void) \x7b")) := by
  have h : opb_print m stmts depth (Opblock.node d child op1 op2) =
      some (opb_print_enter (m.func f)) := by
    rw [opb_print_eq_with]
    simp only [opb_print_with, hid, hf]
  rw [h]
  constructor
  · intro hr
    simp only [opb_print_enter, hl, List.dropWhile_nil, hr, if_false, string_paren_void]
  · intro hr
    simp only [opb_print_enter, hl, List.dropWhile_nil, hr, if_true, string_paren_void]

/-- Claim C15 (as the code behaves). For a function whose locals chain is empty,
`opb_print` of its FUNC_ENTER opblock writes `void <name>(void) {` when the return size
of the function is not 4 and `int <name>(void) {` when it is 4. -/
theorem opb_print_enter_without_locals (m : Mem) (stmts : List Opblock) (depth : Nat)
    (d : OpbData) (child op1 op2 : Opblock) (f : FuncPtr)
    (hid : d.id = OpbId.OPB_FUNC_ENTER) (hf : d.function = some f)
    (hl : (m.func f).locals = []) :
    ((m.func f).return_size ≠ 4 →
      opb_print m stmts depth (Opblock.node d child op1 op2) =
        some ("void " ++ (m.func f).name ++ "(void) \x7b")) ∧
    ((m.func f).return_size = 4 →
      opb_print m stmts depth (Opblock.node d child op1 op2) =
        some ("int " ++ (m.func f).name ++ "(void) \x7b")) :=
  opb_print_enter_text m stmts depth d child op1 op2 f hid hf hl

/-- Claim C15 at a concrete function: `sub_40`, return size 0, no locals. -/
theorem opb_print_enter_without_locals_witness :
    opb_print (mem_function "sub_40" 0 []) [] 0 (opb_statement OpbId.OPB_FUNC_ENTER) =
      some "void sub_40(void) \x7b" :=
  ((opb_print_enter_without_locals (mem_function "sub_40" 0 []) [] 0
    { id := OpbId.OPB_FUNC_ENTER, opcode := some { value := 0, operation := "" },
      function := some 7, var := none, opcodes_count := 1 }
    Opblock.null Opblock.null Opblock.null 7 rfl rfl rfl).1 (by decide)).trans (by decide)

/-- Claim C15 (as stated) fails: a function `sub_40` with return size 4 and an empty
locals chain is printed as `int sub_40(void) {`, not as `void sub_40(void) {`. -/
theorem opb_print_enter_int_without_locals :
    ((mem_function "sub_40" 4 []).func 7).locals = [] ∧
    opb_print (mem_function "sub_40" 4 []) [] 0 (opb_statement OpbId.OPB_FUNC_ENTER) =
      some "int sub_40(void) \x7b" ∧
    opb_print (mem_function "sub_40" 4 []) [] 0 (opb_statement OpbId.OPB_FUNC_ENTER) ≠
      some "void sub_40(void) \x7b" := by
  decide

/-- Claim C20. With `a` the rendering of `op2` and `b` the rendering of `op1`, a COMPARE
is printed as `if (a <operator> b) goto <label of the jumppoint>` and a
DOUBLE_OPERATION as `(a <operator> b)`: `op2` stands left of the operator, `op1` right
of it. -/
theorem opb_print_operand_order (m : Mem) (stmts : List Opblock) (depth : Nat)
    (d : OpbData) (child op1 op2 : Opblock) (oc : Opcode) (a b : String)
    (hoc : d.opcode = some oc)
    (ha : opb_print m stmts depth op2 = some a)
    (hb : opb_print m stmts depth op1 = some b) :
    (d.id = OpbId.OPB_COMPARE → ∀ j, d.jumppoint = some j →
      opb_print m stmts depth (Opblock.node d child op1 op2) =
        some ("if (" ++ a ++ " " ++ oc.operation ++ " " ++ b ++ ") goto " ++ j.name)) ∧
    (d.id = OpbId.OPB_DOUBLE_OPERATION →
      opb_print m stmts depth (Opblock.node d child op1 op2) =
        some ("(" ++ a ++ " " ++ oc.operation ++ " " ++ b ++ ")")) := by
  rw [opb_print_eq_with] at ha hb ⊢
  constructor
  · intro hid j hj
    simp only [opb_print_with, hid, ha, hb, hoc, hj]
  · intro hid
    simp only [opb_print_with, hid, ha, hb, hoc]

/-- Claim C20 at the input of the specification: `op2` is the LOAD of size 4 of the
size-4 local `local_4`, `op1` the constant 0, the operator `==`, the label `loc_50`. -/
theorem opb_print_operand_order_witness :
    opb_print (mem_function "sub_40" 0 [local_4 4]) [] 0
        (Opblock.node
          { id := OpbId.OPB_COMPARE, opcode := some { value := 0x50, operation := "==" },
            function := some 7, var := none, jumppoint := some { name := "loc_50" } }
          Opblock.null (opb_leaf OpbId.OPB_CONST 0 (some 7))
          (Opblock.node (opb_load_data 4 (some 7))
            (opb_address OpbId.OPB_LOCAL_ADR ⟨some 7, 4⟩) Opblock.null Opblock.null)) =
      some "if (local_4 == 0x0) goto loc_50" :=
  ((opb_print_operand_order (mem_function "sub_40" 0 [local_4 4]) [] 0
    { id := OpbId.OPB_COMPARE, opcode := some { value := 0x50, operation := "==" },
      function := some 7, var := none, jumppoint := some { name := "loc_50" } }
    Opblock.null (opb_leaf OpbId.OPB_CONST 0 (some 7))
    (Opblock.node (opb_load_data 4 (some 7))
      (opb_address OpbId.OPB_LOCAL_ADR ⟨some 7, 4⟩) Opblock.null Opblock.null)
    { value := 0x50, operation := "==" } "local_4" "0x0" rfl (by decide) (by decide)).1
    rfl { name := "loc_50" } rfl).trans (by decide)

theorem opb_print_address (m : Mem) (stmts : List Opblock) (depth : Nat) (t : OpbData)
    (c1 c2 c3 : Opblock) (v : Variable)
    (ht : t.id = OpbId.OPB_LOCAL_ADR ∨ t.id = OpbId.OPB_GLOBAL_ADR)
    (hv : opb_variable m t = some v) :
    opb_print m stmts depth (Opblock.node t c1 c2 c3) =
      some (if v.size = 1 ∨ v.size = 2 ∨ v.size = 4 then "&" ++ v.name else v.name) := by
  rw [opb_print_eq_with]
  rcases ht with ht | ht <;> simp only [opb_print_with, ht, hv, Option.map_some']

theorem opb_load_address_operand (m : Mem) (t : OpbData) (v : Variable) (size : Nat)
    (ht : t.id = OpbId.OPB_LOCAL_ADR ∨ t.id = OpbId.OPB_GLOBAL_ADR)
    (hv : opb_variable m t = some v) :
    (v.size = size → ∃ tmp, opb_load m (some t) size = some (some tmp) ∧
      opb_variable m tmp = some v) ∧
    (v.size ≠ size → opb_load m (some t) size = some none) := by
  rcases ht with ht | ht
  · constructor
    · intro hs
      exact ⟨{ t with id := OpbId.OPB_LOCAL }, by simp [opb_load, ht, hv, hs],
        by simpa [opb_variable] using hv⟩
    · intro hs
      simp [opb_load, ht, hv, hs]
  · constructor
    · intro hs
      exact ⟨{ t with id := OpbId.OPB_GLOBAL }, by simp [opb_load, ht, hv, hs],
        by simpa [opb_variable] using hv⟩
    · intro hs
      simp [opb_load, ht, hv, hs]

theorem opb_print_with_load (m : Mem) (stmts : List Opblock)
    (arg : Opblock → Option String) (d : OpbData) (child op1 op2 : Opblock) (oc : Opcode)
    (hid : d.id = OpbId.OPB_LOAD) (hoc : d.opcode = some oc) :
    opb_print_with m stmts arg (Opblock.node d child op1 op2) =
      match opb_load m child.data? oc.value with
      | none => none
      | some (some tmp) => (opb_variable m tmp).map (fun v => v.name)
      | some none =>
        (opb_print_with m stmts arg child).map (fun c => opb_print_cast oc.value ++ c) := by
  simp only [opb_print_with, hid, hoc]

theorem opb_print_with_assignation (m : Mem) (stmts : List Opblock)
    (arg : Opblock → Option String) (d : OpbData) (child op1 op2 : Opblock) (oc : Opcode)
    (hid : d.id = OpbId.OPB_ASSIGNATION) (hoc : d.opcode = some oc) :
    opb_print_with m stmts arg (Opblock.node d child op1 op2) =
      match (match opb_load m op2.data? oc.value with
             | none => none
             | some (some tmp) => (opb_variable m tmp).map (fun v => v.name)
             | some none =>
               (opb_print_with m stmts arg op2).map
                 (fun c => opb_print_cast oc.value ++ c)),
          opb_print_with m stmts arg op1 with
      | some target, some b => some (target ++ " = " ++ b)
      | _, _ => none := by
  simp only [opb_print_with, hid, hoc]

/-- Claim C19. For a LOAD (operand `child`) or an ASSIGNATION (operand `op2`) of size
`s` whose address operand is a LOCAL_ADR or GLOBAL_ADR opblock with variable `v`:
the access is printed as the name of `v` when `v.size = s`, and otherwise as the cast
text for `s` (`*(char *)`, `*(short *)`, `*(int *)` for 1, 2, 4) followed by the
rendering of the address operand; an ASSIGNATION then appends ` = ` and the rendering
of `op1`. -/
theorem opb_print_sized_access (m : Mem) (stmts : List Opblock) (depth : Nat)
    (d t : OpbData) (oc : Opcode) (v : Variable) (c1 c2 c3 : Opblock)
    (hoc : d.opcode = some oc)
    (hs : oc.value = 1 ∨ oc.value = 2 ∨ oc.value = 4)
    (ht : t.id = OpbId.OPB_LOCAL_ADR ∨ t.id = OpbId.OPB_GLOBAL_ADR)
    (hv : opb_variable m t = some v) :
    (d.id = OpbId.OPB_LOAD → ∀ op1 op2,
      opb_print m stmts depth (Opblock.node d (Opblock.node t c1 c2 c3) op1 op2) =
        if v.size = oc.value then some v.name
        else (opb_print m stmts depth (Opblock.node t c1 c2 c3)).map
          (fun r => opb_print_cast oc.value ++ r)) ∧
    (d.id = OpbId.OPB_ASSIGNATION → ∀ child op1 b,
      opb_print m stmts depth op1 = some b →
      opb_print m stmts depth (Opblock.node d child op1 (Opblock.node t c1 c2 c3)) =
        (if v.size = oc.value then some v.name
         else (opb_print m stmts depth (Opblock.node t c1 c2 c3)).map
           (fun r => opb_print_cast oc.value ++ r)).map (fun target => target ++ " = " ++ b)) ∧
    opb_print_cast oc.value =
      (if oc.value = 1 then "*(char *)" else if oc.value = 2 then "*(short *)"
       else "*(int *)") ∧
    opb_print m stmts depth (Opblock.node t c1 c2 c3) =
      some (if v.size = 1 ∨ v.size = 2 ∨ v.size = 4 then "&" ++ v.name else v.name) := by
  have hload := opb_load_address_operand m t v oc.value ht hv
  refine ⟨?_, ?_, ?_, opb_print_address m stmts depth t c1 c2 c3 v ht hv⟩
  · intro hid op1 op2
    rw [opb_print_eq_with, opb_print_with_load m stmts _ d _ op1 op2 oc hid hoc]
    by_cases hsz : v.size = oc.value
    · obtain ⟨tmp, h1, h2⟩ := hload.1 hsz
      simp only [Opblock.data?, h1, h2, hsz, if_true, Option.map_some']
    · simp only [Opblock.data?, hload.2 hsz, hsz, if_false]
  · intro hid child op1 b hb
    rw [opb_print_eq_with] at hb ⊢
    rw [opb_print_with_assignation m stmts _ d child op1 _ oc hid hoc]
    by_cases hsz : v.size = oc.value
    · obtain ⟨tmp, h1, h2⟩ := hload.1 hsz
      simp only [Opblock.data?, h1, h2, hsz, if_true, Option.map_some', hb]
    · simp only [Opblock.data?, hload.2 hsz, hsz, if_false, hb]
      cases opb_print_with m stmts (opb_print_arg m stmts depth) (Opblock.node t c1 c2 c3) with
      | none => rfl
      | some r => rfl
  · rcases hs with h | h | h <;> simp [opb_print_cast, h]

/-- Claim C19 at the input of the specification: a store of size 4 of the constant 0x2A
to the size-4 global `global_100`. -/
theorem opb_print_sized_access_witness :
    opb_print (mem_globals [global_100 4 []]) [] 0
        (Opblock.node
          { id := OpbId.OPB_ASSIGNATION, opcode := some { value := 4, operation := "" },
            function := some 7, var := none }
          Opblock.null (opb_leaf OpbId.OPB_CONST 0x2A (some 7))
          (opb_address OpbId.OPB_GLOBAL_ADR ⟨none, 0x100⟩)) =
      some "global_100 = 0x2a" :=
  ((opb_print_sized_access (mem_globals [global_100 4 []]) [] 0
    { id := OpbId.OPB_ASSIGNATION, opcode := some { value := 4, operation := "" },
      function := some 7, var := none }
    { id := OpbId.OPB_GLOBAL_ADR, opcode := some { value := 0x100, operation := "" },
      function := some 7, var := some ⟨none, 0x100⟩ }
    { value := 4, operation := "" } (global_100 4 []) Opblock.null Opblock.null Opblock.null
    rfl (by decide) (by decide) (by decide)).2.1 rfl Opblock.null
    (opb_leaf OpbId.OPB_CONST 0x2A (some 7)) "0x2a" (by decide)).trans (by decide)

/-! ### Calls -/

theorem opb_print_args_joined (arg : Opblock → Option String) (args rest : List Opblock)
    (texts : List String)
    (hargs : ∀ x ∈ args, ∃ dx, x.data? = some dx ∧ dx.id = OpbId.OPB_FUNC_ARG)
    (hrest : rest = [] ∨ ∃ dr r1 r2 r3 tl,
      rest = Opblock.node dr r1 r2 r3 :: tl ∧ dr.id ≠ OpbId.OPB_FUNC_ARG)
    (htexts : List.Forall₂ (fun x t => arg x.child = some t) args texts) :
    opb_print_args arg (args ++ rest) false = some (comma_tail texts) ∧
    opb_print_args arg (args ++ rest) true = some (comma_joined texts) := by
  have hstop : ∀ first, opb_print_args arg rest first = some "" := by
    intro first
    rcases hrest with h | ⟨dr, r1, r2, r3, tl, h, hne⟩
    · rw [h]; rfl
    · rw [h]; simp [opb_print_args, hne]
  induction htexts with
  | nil => exact ⟨by simpa [comma_tail] using hstop false, by simpa [comma_joined] using hstop true⟩
  | @cons x t xs ts hx _ ih =>
    have ih2 := ih (fun y hy => hargs y (List.mem_cons_of_mem _ hy))
    obtain ⟨dx, hdx, hid⟩ := hargs x (List.mem_cons_self _ _)
    cases x with
    | null => simp [Opblock.data?] at hdx
    | node d0 c a b =>
      simp only [Opblock.data?, Option.some.injEq] at hdx
      subst hdx
      simp only [Opblock.child] at hx
      have hstep : ∀ first, opb_print_args arg (Opblock.node d0 c a b :: xs ++ rest) first =
          some ((if first then "" else ", ") ++ t ++ comma_tail ts) := by
        intro first
        rw [List.cons_append, opb_print_args, if_pos hid, hx, ih2.1]
      constructor
      · rw [hstep false]; rfl
      · rw [hstep true]
        simp only [if_true, String.empty_append, comma_joined]

/-- Claim C18. For a FUNC_CALL opblock the text in front of the argument list is the
name of the callee when `function_called` is set and `(*(`, the rendering of the child,
`))` when it is not.  With `function_arg` null the call is printed as that text
followed by `()`.  With `function_arg` pointing to the first of the consecutive FUNC_ARG
statements `args`, followed by a statement that is not a FUNC_ARG or by the end of the
chain, it is printed as that text, `(`, the renderings of the children of `args` in
chain order joined by a comma and a blank, `)`. -/
theorem opb_print_call (m : Mem) (stmts : List Opblock) (depth : Nat) (d : OpbData)
    (child op1 op2 : Opblock) (hid : d.id = OpbId.OPB_FUNC_CALL) :
    (d.function_arg = none →
      opb_print m stmts depth (Opblock.node d child op1 op2) =
        (callee_text m stmts depth d child).map (fun h => h ++ "(" ++ ")")) ∧
    (∀ k args rest texts, d.function_arg = some k → stmts.drop k = args ++ rest →
      (∀ x ∈ args, ∃ dx, x.data? = some dx ∧ dx.id = OpbId.OPB_FUNC_ARG) →
      (rest = [] ∨ ∃ dr r1 r2 r3 tl,
        rest = Opblock.node dr r1 r2 r3 :: tl ∧ dr.id ≠ OpbId.OPB_FUNC_ARG) →
      List.Forall₂ (fun x t => opb_print m stmts depth x.child = some t) args texts →
      opb_print m stmts (depth + 1) (Opblock.node d child op1 op2) =
        (callee_text m stmts (depth + 1) d child).map
          (fun h => h ++ "(" ++ comma_joined texts ++ ")")) := by
  have hparen : ∀ c : String, "(*(" ++ c ++ "))(" = "(*(" ++ c ++ "))" ++ "(" := by
    intro c
    rw [String.append_assoc ("(*(" ++ c)]
    rfl
  have hunfold : ∀ arg, opb_print_with m stmts arg (Opblock.node d child op1 op2) =
      match (match d.function_called with
             | some fc => some ((m.func fc).name ++ "(")
             | none =>
               (opb_print_with m stmts arg child).map (fun c => "(*(" ++ c ++ "))(")) with
      | none => none
      | some head =>
        match d.function_arg with
        | none => some (head ++ ")")
        | some k =>
          (opb_print_args arg (stmts.drop k) true).map (fun a => head ++ a ++ ")") := by
    intro arg
    simp only [opb_print_with, hid]
  constructor
  · intro harg
    rw [opb_print_eq_with, hunfold, harg]
    unfold callee_text
    rw [opb_print_eq_with]
    cases d.function_called with
    | some fc => rfl
    | none =>
      cases opb_print_with m stmts (opb_print_arg m stmts depth) child with
      | none => rfl
      | some c => simp only [Option.map_some', hparen]
  · intro k args rest texts harg hdrop hargs hrest htexts
    have hj : opb_print_args (opb_print_arg m stmts (depth + 1)) (args ++ rest) true =
        some (comma_joined texts) :=
      (opb_print_args_joined (opb_print m stmts depth) args rest texts hargs hrest htexts).2
    have hgen : ∀ arg, opb_print_args arg (args ++ rest) true = some (comma_joined texts) →
        opb_print_with m stmts arg (Opblock.node d child op1 op2) =
          (match d.function_called with
           | some fc => some (m.func fc).name
           | none => (opb_print_with m stmts arg child).map (fun c => "(*(" ++ c ++ "))")).map
            (fun h => h ++ "(" ++ comma_joined texts ++ ")") := by
      intro arg ha
      rw [hunfold, harg]
      simp only [hdrop, ha, Option.map_some']
      cases d.function_called with
      | some fc => rfl
      | none =>
        cases opb_print_with m stmts arg child with
        | none => rfl
        | some c => simp only [Option.map_some', hparen]
    unfold callee_text
    rw [opb_print_eq_with]
    exact hgen _ hj

/-- Claim C18 at the input of the specification: the statements are the arguments
`CONST 1` and `CONST 2` followed by the call of the function named `F`. -/
theorem opb_print_call_witness :
    opb_print (mem_function "F" 0 [])
        [opb_arg_const 8 1, opb_arg_const 12 2,
          Opblock.node (opb_call_data 0) Opblock.null Opblock.null Opblock.null] 1
        (Opblock.node (opb_call_data 0) Opblock.null Opblock.null Opblock.null) =
      some "F(0x1, 0x2)" :=
  ((opb_print_call (mem_function "F" 0 [])
      [opb_arg_const 8 1, opb_arg_const 12 2,
        Opblock.node (opb_call_data 0) Opblock.null Opblock.null Opblock.null] 0
      (opb_call_data 0) Opblock.null Opblock.null Opblock.null rfl).2 0
    [opb_arg_const 8 1, opb_arg_const 12 2]
    [Opblock.node (opb_call_data 0) Opblock.null Opblock.null Opblock.null]
    ["0x1", "0x2"] rfl rfl (by decide)
    (Or.inr ⟨opb_call_data 0, Opblock.null, Opblock.null, Opblock.null, [], rfl, by decide⟩)
    (List.Forall₂.cons (by decide) (List.Forall₂.cons (by decide) List.Forall₂.nil))).trans
    (by decide)

/-! ### The emitter loop -/

theorem qvm_decompile_loop_none (m : Mem) (stmts : List Opblock) (depth : Nat)
    (func : FuncPtr) (l : List Opblock) (i : Nat) (texts : List String)
    (h : List.Forall₂ (fun s t => qvm_decompile_statement m stmts depth func s = some t)
      l texts) :
    qvm_decompile_function_code_loop m stmts depth func none l i =
      some (concat_all texts) := by
  induction h generalizing i with
  | nil => simp [qvm_decompile_function_code_loop, concat_all]
  | @cons x t xs ts hx _ ih =>
    simp only [qvm_decompile_function_code_loop, reduceCtorEq, if_false, hx, ih (i + 1),
      concat_all]

theorem qvm_decompile_loop_some (m : Mem) (stmts : List Opblock) (depth : Nat)
    (func : FuncPtr) (k : Nat) (l : List Opblock) (i : Nat) (texts : List String)
    (hik : i ≤ k) (hk : k < i + l.length)
    (h : List.Forall₂ (fun s t => qvm_decompile_statement m stmts depth func s = some t)
      (l.take (k - i)) texts) :
    qvm_decompile_function_code_loop m stmts depth func (some k) l i =
      some (concat_all texts) := by
  induction l generalizing i texts with
  | nil => simp at hk; omega
  | cons x xs ih =>
    by_cases hki : k = i
    · subst hki
      simp only [Nat.sub_self, List.take_zero, List.forall₂_nil_left_iff] at h
      subst h
      simp [qvm_decompile_function_code_loop, concat_all]
    · have hne : ¬ (some k = some i) := by simpa using hki
      have hsub : k - i = (k - (i + 1)) + 1 := by omega
      rw [hsub, List.take_succ_cons] at h
      cases h with
      | @cons _ t _ ts hx hrest =>
        have hrec := ih (i + 1) ts (by omega) (by simp only [List.length_cons] at hk; omega)
          hrest
        simp only [qvm_decompile_function_code_loop, hne, if_false, hx, hrec, concat_all]

theorem qvm_decompile_statement_plain (m : Mem) (stmts : List Opblock) (depth : Nat)
    (func : FuncPtr) (d : OpbData) (c1 c2 c3 : Opblock)
    (hj : d.id ≠ OpbId.OPB_JUMP_POINT) (he : d.id ≠ OpbId.OPB_FUNC_ENTER) :
    (d.opcodes_count = 0 →
      qvm_decompile_statement m stmts depth func (Opblock.node d c1 c2 c3) = some "") ∧
    (d.opcodes_count ≠ 0 → ∀ t, opb_print m stmts depth (Opblock.node d c1 c2 c3) = some t →
      qvm_decompile_statement m stmts depth func (Opblock.node d c1 c2 c3) =
        some ((if opb_is_plain d.id then "\t" else "") ++ t ++
          (if opb_is_plain d.id then ";" else "") ++ "\n")) := by
  constructor
  · intro h0
    simp [qvm_decompile_statement, h0, hj, he]
  · intro h0 t ht
    simp [qvm_decompile_statement, h0, hj, he, ht]

/-- Claim C17 (as the code behaves). `qvm_decompile_function_code` renders, in chain
order, the statements that come before `opblock_end` (position `k`), and all statements
of the chain when `opblock_end` is null; the statement at `opblock_end` is not rendered.
The text is the texts of these statements one after the other.  A statement that is
neither a JUMP_POINT nor a FUNC_ENTER gives no text when it covers no opcode, and
otherwise one line: a tab unless it is a FUNC_LEAVE or FUNC_ARG, its rendering, a
semicolon unless it is a FUNC_LEAVE or FUNC_ARG, an end of line. -/
theorem qvm_decompile_function_code_renders (m : Mem) (depth : Nat) (func : FuncPtr)
    (stmts : List Opblock) :
    (∀ k texts, k < stmts.length →
      List.Forall₂ (fun s t => qvm_decompile_statement m stmts depth func s = some t)
        (stmts.take k) texts →
      qvm_decompile_function_code m depth func stmts (some k) = some (concat_all texts)) ∧
    (∀ texts,
      List.Forall₂ (fun s t => qvm_decompile_statement m stmts depth func s = some t)
        stmts texts →
      qvm_decompile_function_code m depth func stmts none = some (concat_all texts)) ∧
    (∀ d c1 c2 c3, d.id ≠ OpbId.OPB_JUMP_POINT → d.id ≠ OpbId.OPB_FUNC_ENTER →
      (d.opcodes_count = 0 →
        qvm_decompile_statement m stmts depth func (Opblock.node d c1 c2 c3) = some "") ∧
      (d.opcodes_count ≠ 0 → ∀ t,
        opb_print m stmts depth (Opblock.node d c1 c2 c3) = some t →
        qvm_decompile_statement m stmts depth func (Opblock.node d c1 c2 c3) =
          some ((if opb_is_plain d.id then "\t" else "") ++ t ++
            (if opb_is_plain d.id then ";" else "") ++ "\n"))) := by
  refine ⟨?_, ?_, ?_⟩
  · intro k texts hk h
    exact qvm_decompile_loop_some m stmts depth func k stmts 0 texts (Nat.zero_le _)
      (by omega) h
  · intro texts h
    exact qvm_decompile_loop_none m stmts depth func stmts 0 texts h
  · intro d c1 c2 c3 hj he
    exact qvm_decompile_statement_plain m stmts depth func d c1 c2 c3 hj he

/-- Claim C17 at a concrete function: the statements are a FUNC_ENTER, a POP of the
constant 5 and a FUNC_LEAVE, and `opblock_end` is null. -/
theorem qvm_decompile_function_code_renders_witness :
    qvm_decompile_function_code (mem_function "sub_40" 0 []) 0 7
        [opb_statement OpbId.OPB_FUNC_ENTER,
          Opblock.node
            { id := OpbId.OPB_POP, opcode := none, function := some 7, var := none,
              opcodes_count := 1 }
            (opb_leaf OpbId.OPB_CONST 5 (some 7)) Opblock.null Opblock.null,
          opb_statement OpbId.OPB_FUNC_LEAVE] none =
      some "void sub_40(void) \x7b\n\n\t0x5;\n\x7d\n" :=
  ((qvm_decompile_function_code_renders (mem_function "sub_40" 0 []) 0 7
      [opb_statement OpbId.OPB_FUNC_ENTER,
        Opblock.node
          { id := OpbId.OPB_POP, opcode := none, function := some 7, var := none,
            opcodes_count := 1 }
          (opb_leaf OpbId.OPB_CONST 5 (some 7)) Opblock.null Opblock.null,
        opb_statement OpbId.OPB_FUNC_LEAVE]).2.1
    ["void sub_40(void) \x7b\n\n", "\t0x5;\n", "\x7d\n"]
    (List.Forall₂.cons (by decide) (List.Forall₂.cons (by decide)
      (List.Forall₂.cons (by decide) List.Forall₂.nil)))).trans (by decide)

/-- Claim C17 (as stated) fails: with the statements FUNC_ENTER, POP of the constant 5,
FUNC_LEAVE and the tail pointer `opblock_end` on the FUNC_LEAVE (position 2), the text
is the line of the FUNC_ENTER, the empty line that ends the locals, and the line of the
POP; the tail, which alone would be rendered as `}` and an end of line, is missing. -/
theorem qvm_decompile_function_code_skips_tail :
    qvm_decompile_function_code (mem_function "sub_40" 0 []) 0 7
        [opb_statement OpbId.OPB_FUNC_ENTER,
          Opblock.node
            { id := OpbId.OPB_POP, opcode := none, function := some 7, var := none,
              opcodes_count := 1 }
            (opb_leaf OpbId.OPB_CONST 5 (some 7)) Opblock.null Opblock.null,
          opb_statement OpbId.OPB_FUNC_LEAVE] (some 2) =
      some "void sub_40(void) \x7b\n\n\t0x5;\n" ∧
    qvm_decompile_statement (mem_function "sub_40" 0 []) [] 0 7
        (opb_statement OpbId.OPB_FUNC_LEAVE) = some "\x7d\n" := by
  decide

/-- Claim C16 (as the code behaves). For a function named `name` with a return size
other than 4 and no variables, whose statement chain starts with a FUNC_ENTER followed
by a FUNC_LEAVE, each covering at least one opcode: with `opblock_end` on the FUNC_LEAVE
the text is the line `void <name>(void) {` followed by an empty line, and no `}`; with
`opblock_end` past the FUNC_LEAVE (on the next statement, or null at the end of the
chain) the text is the line `void <name>(void) {`, an empty line, then the line `}`. -/
theorem qvm_decompile_empty_function (m : Mem) (depth : Nat) (f : FuncPtr)
    (de dl : OpbData) (c1 c2 c3 c4 c5 c6 : Opblock) (rest : List Opblock)
    (hde : de.id = OpbId.OPB_FUNC_ENTER) (hdf : de.function = some f)
    (hdc : de.opcodes_count ≠ 0)
    (hdl : dl.id = OpbId.OPB_FUNC_LEAVE) (hlc : dl.opcodes_count ≠ 0)
    (hr : (m.func f).return_size ≠ 4) (hl : (m.func f).locals = []) :
    qvm_decompile_function_code m depth f
        (Opblock.node de c1 c2 c3 :: Opblock.node dl c4 c5 c6 :: rest) (some 1) =
      some ("void " ++ (m.func f).name ++ "(void) \x7b\n\n") ∧
    (rest ≠ [] →
      qvm_decompile_function_code m depth f
          (Opblock.node de c1 c2 c3 :: Opblock.node dl c4 c5 c6 :: rest) (some 2) =
        some ("void " ++ (m.func f).name ++ "(void) \x7b\n\n\x7d\n")) ∧
    (rest = [] →
      qvm_decompile_function_code m depth f
          (Opblock.node de c1 c2 c3 :: Opblock.node dl c4 c5 c6 :: rest) none =
        some ("void " ++ (m.func f).name ++ "(void) \x7b\n\n\x7d\n")) := by
  have hent : ∀ stmts, qvm_decompile_statement m stmts depth f (Opblock.node de c1 c2 c3) =
      some ("void " ++ (m.func f).name ++ "(void) \x7b\n\n") := by
    intro stmts
    have hp := (opb_print_enter_text m stmts depth de c1 c2 c3 f hde hdf hl).1 hr
    simp only [qvm_decompile_statement, hdc, ne_eq, not_false_eq_true, if_true, hp, hde,
      Option.map_some', reduceCtorEq, if_false, opb_is_plain, hl,
      qvm_decompile_function_locals]
    simp [String.append_assoc]
  have hlv : ∀ stmts, qvm_decompile_statement m stmts depth f (Opblock.node dl c4 c5 c6) =
      some "\x7d\n" := by
    intro stmts
    have hp : opb_print m stmts depth (Opblock.node dl c4 c5 c6) = some "\x7d" := by
      rw [opb_print_eq_with]
      simp only [opb_print_with, hdl]
    simp only [qvm_decompile_statement, hlc, ne_eq, not_false_eq_true, if_true, hp, hdl,
      Option.map_some', reduceCtorEq, if_false, opb_is_plain]
    decide
  have hjoin : ∀ s : String,
      s ++ "(void) \x7b\n\n" ++ ("\x7d\n" ++ "") = s ++ "(void) \x7b\n\n\x7d\n" := by
    intro s
    rw [String.append_assoc]
    rfl
  refine ⟨?_, ?_, ?_⟩
  · have h := qvm_decompile_loop_some m
      (Opblock.node de c1 c2 c3 :: Opblock.node dl c4 c5 c6 :: rest) depth f 1
      (Opblock.node de c1 c2 c3 :: Opblock.node dl c4 c5 c6 :: rest) 0
      ["void " ++ (m.func f).name ++ "(void) \x7b\n\n"] (by omega)
      (by simp only [List.length_cons]; omega)
      (List.Forall₂.cons (hent _) List.Forall₂.nil)
    unfold qvm_decompile_function_code
    rw [h]
    simp [concat_all]
  · intro hrest
    have hlen : 0 < rest.length := List.length_pos.mpr hrest
    have h := qvm_decompile_loop_some m
      (Opblock.node de c1 c2 c3 :: Opblock.node dl c4 c5 c6 :: rest) depth f 2
      (Opblock.node de c1 c2 c3 :: Opblock.node dl c4 c5 c6 :: rest) 0
      ["void " ++ (m.func f).name ++ "(void) \x7b\n\n", "\x7d\n"] (by omega)
      (by simp only [List.length_cons]; omega)
      (List.Forall₂.cons (hent _) (List.Forall₂.cons (hlv _) List.Forall₂.nil))
    unfold qvm_decompile_function_code
    rw [h]
    simp only [concat_all, hjoin]
  · intro hrest
    subst hrest
    have h := qvm_decompile_loop_none m
      [Opblock.node de c1 c2 c3, Opblock.node dl c4 c5 c6] depth f
      [Opblock.node de c1 c2 c3, Opblock.node dl c4 c5 c6] 0
      ["void " ++ (m.func f).name ++ "(void) \x7b\n\n", "\x7d\n"]
      (List.Forall₂.cons (hent _) (List.Forall₂.cons (hlv _) List.Forall₂.nil))
    unfold qvm_decompile_function_code
    rw [h]
    simp only [concat_all, hjoin]

/-- Claim C16 at the function `sub_40`: with the end of the chain as `opblock_end` the
text is `void sub_40(void) {`, an empty line, `}`. -/
theorem qvm_decompile_empty_function_witness :
    qvm_decompile_function_code (mem_function "sub_40" 0 []) 0 7
        [opb_statement OpbId.OPB_FUNC_ENTER, opb_statement OpbId.OPB_FUNC_LEAVE] none =
      some "void sub_40(void) \x7b\n\n\x7d\n" :=
  ((qvm_decompile_empty_function (mem_function "sub_40" 0 []) 0 7
    { id := OpbId.OPB_FUNC_ENTER, opcode := some { value := 0, operation := "" },
      function := some 7, var := none, opcodes_count := 1 }
    { id := OpbId.OPB_FUNC_LEAVE, opcode := some { value := 0, operation := "" },
      function := some 7, var := none, opcodes_count := 1 }
    Opblock.null Opblock.null Opblock.null Opblock.null Opblock.null Opblock.null []
    rfl rfl (by decide) rfl (by decide) (by decide) rfl).2.2 rfl).trans (by decide)

/-- Claim C16 (as stated) fails: for `sub_40` with return size 0, no variables, and the
statement chain FUNC_ENTER, FUNC_LEAVE with the head pointer on the FUNC_ENTER and the
tail pointer `opblock_end` on the FUNC_LEAVE, the text is `void sub_40(void) {`, an end
of line, and one more end of line: it holds no `}` at all. -/
theorem empty_function_text_has_no_brace :
    qvm_decompile_function_code (mem_function "sub_40" 0 []) 0 7
        [opb_statement OpbId.OPB_FUNC_ENTER, opb_statement OpbId.OPB_FUNC_LEAVE] (some 1) =
      some "void sub_40(void) \x7b\n\n" ∧
    '\x7d' ∉ "void sub_40(void) \x7b\n\n".toList := by
  decide

/-! ### Variables stay known -/

theorem var_deref_eq_lookup (m : Mem) (p : VarPtr) :
    var_deref m p = var_lookup (var_list m p.owner) p.address := by
  unfold var_deref
  generalize var_list m p.owner = l
  induction l with
  | nil => simp [var_find, var_lookup]
  | cons v rest ih =>
    by_cases h : v.address = p.address
    · simp [var_find, var_lookup, h]
    · simp only [var_find, var_lookup, h, if_false]
      rw [← ih]
      cases var_find rest p.address <;> simp

theorem var_lookup_some {l : List Variable} {a : Nat} {v : Variable}
    (h : var_lookup l a = some v) : v ∈ l ∧ v.address = a := by
  induction l with
  | nil => simp [var_lookup] at h
  | cons w rest ih =>
    by_cases hw : w.address = a
    · simp only [var_lookup, hw, if_true, Option.some.injEq] at h
      subst h
      exact ⟨List.mem_cons_self _ _, hw⟩
    · simp only [var_lookup, hw, if_false] at h
      exact ⟨List.mem_cons_of_mem _ (ih h).1, (ih h).2⟩

theorem var_deref_some {m : Mem} {p : VarPtr} {v : Variable} (h : var_deref m p = some v) :
    v ∈ var_list m p.owner ∧ v.address = p.address := by
  rw [var_deref_eq_lookup] at h
  exact var_lookup_some h

theorem var_lookup_eq_none {l : List Variable} {a : Nat} :
    var_lookup l a = none ↔ var_find l a = none := by
  induction l with
  | nil => simp [var_lookup, var_find]
  | cons w rest ih =>
    by_cases hw : w.address = a
    · simp [var_lookup, var_find, hw]
    · simp [var_lookup, var_find, hw, ih]

theorem var_lookup_link_at (w : Variable) (l : List Variable) (j a : Nat)
    (hj : j ≤ l.length) (hw : w.address ≠ a) :
    var_lookup (link_at w l j) a = var_lookup l a := by
  induction l generalizing j with
  | nil =>
    have : j = 0 := by simpa using hj
    subst this
    simp [link_at, var_lookup, hw]
  | cons x xs ih =>
    cases j with
    | zero => simp [link_at, var_lookup, hw]
    | succ j =>
      rw [link_at_cons_succ]
      simp only [var_lookup]
      rw [ih j (by simpa using hj)]

theorem var_lookup_modify_at (f : Variable → Variable)
    (hf : ∀ x, (f x).address = x.address) (l : List Variable) (i a : Nat) (v : Variable)
    (h : var_lookup l a = some v) :
    var_lookup (modify_at f l i) a = some v ∨ var_lookup (modify_at f l i) a = some (f v) := by
  induction l generalizing i with
  | nil => simp [var_lookup] at h
  | cons x xs ih =>
    by_cases hx : x.address = a
    · simp only [var_lookup, hx, if_true, Option.some.injEq] at h
      subst h
      cases i with
      | zero => right; simp [modify_at, var_lookup, hf, hx]
      | succ i => left; simp [modify_at, var_lookup, hx]
    · simp only [var_lookup, hx, if_false] at h
      cases i with
      | zero => left; simp [modify_at, var_lookup, hf, hx, h]
      | succ i =>
        simp only [modify_at, var_lookup, hx, if_false]
        exact ih i h

theorem func_list_add_keeps (ps : List FuncPtr) (q F : FuncPtr) (h : F ∈ ps) :
    F ∈ (func_list_add ps q).1 := by
  by_cases hq : q ∈ ps
  · rw [func_list_add_fst_of_mem hq]; exact h
  · rw [func_list_add_fst_of_not_mem hq]; exact List.mem_cons_of_mem _ h

theorem func_list_add_mem (ps : List FuncPtr) (q : FuncPtr) : q ∈ (func_list_add ps q).1 := by
  by_cases hq : q ∈ ps
  · rw [func_list_add_fst_of_mem hq]; exact hq
  · rw [func_list_add_fst_of_not_mem hq]; exact List.mem_cons_self _ _

theorem var_list_set_var_list_other (m : Mem) (fn owner : Option FuncPtr)
    (l : List Variable) (h : owner ≠ fn) :
    var_list (set_var_list m fn l) owner = var_list m owner := by
  cases fn with
  | none =>
    cases owner with
    | none => exact absurd rfl h
    | some g => rfl
  | some f =>
    cases owner with
    | none => rfl
    | some g =>
      have hg : g ≠ f := fun e => h (by rw [e])
      simp [var_list, set_var_list, Function.update_noteq hg]

theorem var_list_var_count_any (m : Mem) (fn owner : Option FuncPtr) :
    var_list (var_count m fn) owner = var_list m owner := by
  cases fn with
  | none => cases owner <;> rfl
  | some f =>
    cases owner with
    | none => rfl
    | some g =>
      by_cases hg : g = f
      · subst hg; simp [var_list, var_count]
      · simp [var_list, var_count, Function.update_noteq hg]

theorem var_list_var_get_other (m : Mem) (fn owner parent : Option FuncPtr)
    (a s : Nat) (h : owner ≠ fn) :
    var_list (var_get m fn a s parent).1 owner = var_list m owner := by
  unfold var_get
  cases var_find (var_list m fn) a with
  | none =>
    unfold var_create
    simp only
    cases var_find_prev (var_list (var_count m fn) fn) a with
    | none =>
      simp only [var_list_set_var_list_other _ _ _ _ h, var_list_var_count_any]
    | some j =>
      simp only [var_list_set_var_list_other _ _ _ _ h, var_list_var_count_any]
  | some i =>
    cases parent with
    | none => rfl
    | some p => simp only [var_list_set_var_list_other _ _ _ _ h]

theorem var_fresh_parent (m : Mem) (fn : Option FuncPtr) (a s : Nat) (p : FuncPtr) :
    p ∈ (var_fresh m fn a s (some p)).parents := by
  unfold var_fresh
  exact func_list_add_mem _ _

theorem var_known_var_get (m : Mem) (fn parent : Option FuncPtr) (a s : Nat) :
    var_kept m (var_get m fn a s parent).1 := by
  intro p ps hk
  obtain ⟨v, hv, hps⟩ := hk
  by_cases ho : p.owner = fn
  · rw [var_deref_eq_lookup, ho] at hv
    unfold var_known
    rw [var_deref_eq_lookup, ho]
    cases hfind : var_find (var_list m fn) a with
    | none =>
      rw [var_get_of_not_found m fn a s parent hfind]
      have hl := var_create_list m fn a s parent
      rw [hl.1]
      have hne : (var_fresh m fn a s parent).address ≠ p.address := by
        rw [var_fresh_address]
        intro e
        rw [← var_lookup_eq_none, e, hv] at hfind
        cases hfind
      rw [var_lookup_link_at _ _ _ _ hl.2 hne]
      exact ⟨v, hv, hps⟩
    | some i =>
      cases parent with
      | none =>
        have hg : var_get m fn a s none = (m, i) := by
          unfold var_get; rw [hfind]
        rw [hg]
        exact ⟨v, hv, hps⟩
      | some q =>
        have hg : var_get m fn a s (some q) =
            (set_var_list m fn
              (modify_at (fun v => { v with parents := (func_list_add v.parents q).1 })
                (var_list m fn) i), i) := by
          unfold var_get; rw [hfind]
        rw [hg]
        simp only [var_list_set_var_list]
        rcases var_lookup_modify_at
          (fun v : Variable => { v with parents := (func_list_add v.parents q).1 })
          (fun _ => rfl) (var_list m fn) i p.address v hv with h | h
        · exact ⟨v, h, hps⟩
        · exact ⟨_, h, fun F hF => func_list_add_keeps _ _ _ (hps F hF)⟩
  · unfold var_known
    unfold var_deref at hv ⊢
    rw [var_list_var_get_other m fn p.owner parent a s ho]
    exact ⟨v, hv, hps⟩

theorem var_known_after_var_get (m : Mem) (fn parent : Option FuncPtr) (a s : Nat) :
    var_known (var_get m fn a s parent).1 ⟨fn, a⟩ parent.toList := by
  obtain ⟨v, hv, hva⟩ := var_deref_var_get m fn parent a s
  refine ⟨v, hv, ?_⟩
  intro F hF
  have hpar : parent = some F := by simpa using hF
  subst hpar
  rw [var_deref_eq_lookup] at hv
  simp only at hv
  cases hfind : var_find (var_list m fn) a with
  | none =>
    rw [var_get_of_not_found m fn a s (some F) hfind] at hv
    have hl := var_create_list m fn a s (some F)
    have hidx := var_create_get m fn a s (some F)
    have hf := (var_get_found m fn (some F) a s).2
    rw [var_get_of_not_found m fn a s (some F) hfind] at hf
    have hd : var_deref (var_create m fn a s (some F)).1 ⟨fn, a⟩ =
        some (var_fresh m fn a s (some F)) := by
      simp only [var_deref, hf, hidx]
    rw [var_deref_eq_lookup] at hd
    simp only at hd
    rw [hd] at hv
    cases hv
    exact var_fresh_parent m fn a s F
  | some i =>
    have hg : var_get m fn a s (some F) =
        (set_var_list m fn
          (modify_at (fun v => { v with parents := (func_list_add v.parents F).1 })
            (var_list m fn) i), i) := by
      unfold var_get; rw [hfind]
    rw [hg] at hv
    simp only [var_list_set_var_list] at hv
    have hl : ∃ v0, var_lookup (var_list m fn) a = some v0 := by
      cases hq : var_lookup (var_list m fn) a with
      | none => rw [var_lookup_eq_none, hfind] at hq; cases hq
      | some v0 => exact ⟨v0, rfl⟩
    obtain ⟨v0, hv0⟩ := hl
    have hi : (var_list m fn)[i]? = some v0 := by
      have h1 : var_deref m ⟨fn, a⟩ = some v0 := by rw [var_deref_eq_lookup]; exact hv0
      simpa [var_deref, hfind] using h1
    have hfm := var_find_modify_at (fun v : Variable =>
      { v with parents := (func_list_add v.parents F).1 }) (fun _ => rfl) (var_list m fn) i a
    have hget := modify_at_get (fun v : Variable =>
      { v with parents := (func_list_add v.parents F).1 }) (var_list m fn) i
    rw [hi] at hget
    have hd : var_deref (set_var_list m fn
        (modify_at (fun v => { v with parents := (func_list_add v.parents F).1 })
          (var_list m fn) i)) ⟨fn, a⟩ =
        some { v0 with parents := (func_list_add v0.parents F).1 } := by
      simp only [var_deref, var_list_set_var_list, hfm, hfind, hget, Option.map_some']
    rw [var_deref_eq_lookup] at hd
    simp only [var_list_set_var_list] at hd
    rw [hd] at hv
    cases hv
    exact func_list_add_mem _ _

theorem var_kept_refl (m : Mem) : var_kept m m := fun _ _ h => h

theorem var_kept_trans {m1 m2 m3 : Mem} (h1 : var_kept m1 m2) (h2 : var_kept m2 m3) :
    var_kept m1 m3 := fun p ps h => h2 p ps (h1 p ps h)

/-! ### The resolver keeps and attaches variables -/

theorem hdr_ok_refl (m : Mem) (F : FuncPtr) (x : OpbData) : hdr_ok m F x x :=
  ⟨rfl, Or.inl rfl⟩

theorem hdr_ok_kept {m m2 : Mem} {F : FuncPtr} {x y : OpbData} (hk : var_kept m m2)
    (h : hdr_ok m F x y) : hdr_ok m2 F x y := by
  refine ⟨h.1, ?_⟩
  rcases h.2 with h2 | ⟨h2, h3⟩
  · exact Or.inl h2
  · refine Or.inr ⟨h2, fun hx => ?_⟩
    obtain ⟨oc, h4, h5, h6⟩ := h3 hx
    exact ⟨oc, h4, h5, hk _ _ h6⟩

theorem opb_load_address_spec (m : Mem) (F : FuncPtr) (d : OpbData)
    (operand : Option OpbData) (m1 : Mem) (o : Option OpbData)
    (hF : d.function = some F) (h : opb_load_address m d operand = some (m1, o)) :
    var_kept m m1 ∧ ∃ x y, operand = some x ∧ o = some y ∧ hdr_ok m1 F x y := by
  cases operand with
  | none => simp [opb_load_address] at h
  | some x =>
    unfold opb_load_address at h
    simp only at h
    by_cases hk : x.id = OpbId.OPB_LOCAL_ADR ∨ x.id = OpbId.OPB_CONST
    · rw [if_pos hk] at h
      cases hx : x.opcode with
      | none => simp [hx] at h
      | some toc =>
        cases hd : d.opcode with
        | none => simp [hx, hd] at h
        | some oc =>
          simp only [hx, hd, Option.some.injEq, Prod.mk.injEq] at h
          obtain ⟨h1, h2⟩ := h
          subst h1
          refine ⟨var_known_var_get _ _ _ _ _, x, _, rfl, h2.symm, rfl, Or.inr ⟨rfl, ?_⟩⟩
          intro hloc
          refine ⟨toc, hx, ?_, ?_⟩
          · simp [hloc, hF]
          · have := var_known_after_var_get m
              (if x.id ≠ OpbId.OPB_CONST then d.function else none) d.function
              toc.value oc.value
            simpa [hloc, hF] using this
    · rw [if_neg hk] at h
      simp only [Option.some.injEq, Prod.mk.injEq] at h
      obtain ⟨h1, h2⟩ := h
      subst h1
      exact ⟨var_kept_refl _, x, x, rfl, h2.symm, hdr_ok_refl _ _ _⟩

theorem opb_load_copy_spec (m : Mem) (F : FuncPtr) (d : OpbData)
    (operand : Option OpbData) (m1 : Mem) (o : Option OpbData)
    (h : opb_load_copy m d operand = some (m1, o)) :
    var_kept m m1 ∧ ∃ x y, operand = some x ∧ o = some y ∧ hdr_ok m1 F x y := by
  cases operand with
  | none => simp [opb_load_copy] at h
  | some x =>
    unfold opb_load_copy at h
    simp only at h
    by_cases hk : x.id = OpbId.OPB_CONST
    · rw [if_pos hk] at h
      cases hx : x.opcode with
      | none => simp [hx] at h
      | some toc =>
        simp only [hx, Option.some.injEq, Prod.mk.injEq] at h
        obtain ⟨h1, h2⟩ := h
        subst h1
        refine ⟨var_known_var_get _ _ _ _ _, x, _, rfl, h2.symm, rfl, Or.inr ⟨rfl, ?_⟩⟩
        intro hloc
        rw [hk] at hloc
        cases hloc
    · rw [if_neg hk] at h
      simp only [Option.some.injEq, Prod.mk.injEq] at h
      obtain ⟨h1, h2⟩ := h
      subst h1
      exact ⟨var_kept_refl _, x, x, rfl, h2.symm, hdr_ok_refl _ _ _⟩

theorem opb_load_local_spec (m : Mem) (F : FuncPtr) (d : OpbData) (m1 : Mem) (d1 : OpbData)
    (hF : d.function = some F) (h : opb_load_local m d = some (m1, d1)) :
    var_kept m m1 ∧ ∃ oc, d.opcode = some oc ∧
      d1 = { d with var := some ⟨some F, oc.value⟩ } ∧
      var_known m1 ⟨some F, oc.value⟩ [F] := by
  unfold opb_load_local at h
  cases hd : d.opcode with
  | none => simp [hd] at h
  | some oc =>
    simp only [hd, Option.some.injEq, Prod.mk.injEq] at h
    obtain ⟨h1, h2⟩ := h
    subst h1
    refine ⟨var_known_var_get _ _ _ _ _, oc, rfl, ?_, ?_⟩
    · rw [← h2, hF]
    · have := var_known_after_var_get m d.function d.function oc.value 0
      simpa [hF] using this

/-- What the four rules in front of the recursion do, for an opblock owned by `F`. -/
theorem opb_load_here_spec (m : Mem) (F : FuncPtr) (d : OpbData) (cd od : Option OpbData)
    (m4 : Mem) (d4 : OpbData) (cd2 od2 : Option OpbData)
    (hF : d.function = some F)
    (h : opb_load_here m d cd od = some (m4, d4, cd2, od2)) :
    var_kept m m4 ∧
    (d.id = OpbId.OPB_LOCAL_ADR → ∃ oc, d.opcode = some oc ∧
      d4 = { d with var := some ⟨some F, oc.value⟩ } ∧
      var_known m4 ⟨some F, oc.value⟩ [F]) ∧
    (d.id ≠ OpbId.OPB_LOCAL_ADR → d4 = d) ∧
    (cd = none → cd2 = none) ∧
    (∀ x, cd = some x → ∃ y, cd2 = some y ∧ hdr_ok m4 F x y) ∧
    (od = none → od2 = none) ∧
    (∀ x, od = some x → ∃ y, od2 = some y ∧ hdr_ok m4 F x y) := by
  unfold opb_load_here at h
  by_cases h1 : d.id = OpbId.OPB_LOAD
  · simp only [h1, if_true, reduceCtorEq, if_false] at h
    cases hq : opb_load_address m d cd with
    | none => simp [hq] at h
    | some r =>
      obtain ⟨m1, cd1⟩ := r
      simp only [hq, Option.some.injEq, Prod.mk.injEq] at h
      obtain ⟨e1, e2, e3, e4⟩ := h
      subst e1 e2 e3 e4
      obtain ⟨hk, x, y, hx, hy, hxy⟩ := opb_load_address_spec m F d cd _ _ hF hq
      refine ⟨hk, fun hc => absurd hc (by rw [h1]; simp), fun _ => rfl,
        fun hc => absurd hx (by rw [hc]; simp), ?_, fun hc => hc, ?_⟩
      · intro x2 hx2
        rw [hx2] at hx
        cases hx
        exact ⟨y, hy, hxy⟩
      · intro x2 hx2
        exact ⟨x2, hx2, hdr_ok_refl _ _ _⟩
  · by_cases h2 : d.id = OpbId.OPB_ASSIGNATION
    · simp only [h2, if_true, reduceCtorEq, if_false] at h
      cases hq : opb_load_address m d od with
      | none => simp [hq] at h
      | some r =>
        obtain ⟨m1, od1⟩ := r
        simp only [hq, Option.some.injEq, Prod.mk.injEq] at h
        obtain ⟨e1, e2, e3, e4⟩ := h
        subst e1 e2 e3 e4
        obtain ⟨hk, x, y, hx, hy, hxy⟩ := opb_load_address_spec m F d od _ _ hF hq
        refine ⟨hk, fun hc => absurd hc (by rw [h2]; simp), fun _ => rfl,
          fun hc => hc, ?_, fun hc => absurd hx (by rw [hc]; simp), ?_⟩
        · intro x2 hx2
          exact ⟨x2, hx2, hdr_ok_refl _ _ _⟩
        · intro x2 hx2
          rw [hx2] at hx
          cases hx
          exact ⟨y, hy, hxy⟩
    · by_cases h3 : d.id = OpbId.OPB_STRUCT_COPY
      · simp only [h3, if_true, reduceCtorEq, if_false] at h
        cases hq : opb_load_copy m d od with
        | none => simp [hq] at h
        | some r =>
          obtain ⟨m1, od1⟩ := r
          simp only [hq, Option.some.injEq, Prod.mk.injEq] at h
          obtain ⟨e1, e2, e3, e4⟩ := h
          subst e1 e2 e3 e4
          obtain ⟨hk, x, y, hx, hy, hxy⟩ := opb_load_copy_spec m F d od _ _ hq
          refine ⟨hk, fun hc => absurd hc (by rw [h3]; simp), fun _ => rfl,
            fun hc => hc, ?_, fun hc => absurd hx (by rw [hc]; simp), ?_⟩
          · intro x2 hx2
            exact ⟨x2, hx2, hdr_ok_refl _ _ _⟩
          · intro x2 hx2
            rw [hx2] at hx
            cases hx
            exact ⟨y, hy, hxy⟩
      · by_cases h4 : d.id = OpbId.OPB_LOCAL_ADR
        · simp only [h4, if_true, reduceCtorEq, if_false] at h
          cases hq : opb_load_local m d with
          | none => simp [hq] at h
          | some r =>
            obtain ⟨m1, d1⟩ := r
            simp only [hq, Option.some.injEq, Prod.mk.injEq] at h
            obtain ⟨e1, e2, e3, e4⟩ := h
            subst e1 e2 e3 e4
            obtain ⟨hk, oc, hoc, hd1, hkn⟩ := opb_load_local_spec m F d _ _ hF hq
            exact ⟨hk, fun _ => ⟨oc, hoc, hd1, hkn⟩, fun hc => absurd h4 hc,
              fun hc => hc, fun x2 hx2 => ⟨x2, hx2, hdr_ok_refl _ _ _⟩,
              fun hc => hc, fun x2 hx2 => ⟨x2, hx2, hdr_ok_refl _ _ _⟩⟩
        · simp only [h1, h2, h3, h4, if_false, Option.some.injEq, Prod.mk.injEq] at h
          obtain ⟨e1, e2, e3, e4⟩ := h
          subst e1 e2 e3 e4
          exact ⟨var_kept_refl _, fun hc => absurd hc h4, fun _ => rfl,
            fun hc => hc, fun x2 hx2 => ⟨x2, hx2, hdr_ok_refl _ _ _⟩,
            fun hc => hc, fun x2 hx2 => ⟨x2, hx2, hdr_ok_refl _ _ _⟩⟩

theorem var_known_explicit {m : Mem} {F : FuncPtr} {a : Nat}
    (h : var_known m ⟨some F, a⟩ [F]) :
    ∃ v, var_deref m ⟨some F, a⟩ = some v ∧ v ∈ (m.func F).locals ∧ v.address = a ∧
      F ∈ v.parents := by
  obtain ⟨v, hv, hp⟩ := h
  exact ⟨v, hv, (var_deref_some hv).1, (var_deref_some hv).2, hp F (List.mem_singleton.mpr rfl)⟩

theorem locals_resolved_kept {m m2 : Mem} {F : FuncPtr} (hk : var_kept m m2)
    (t t2 : Opblock) (h : locals_resolved m F t t2) : locals_resolved m2 F t t2 := by
  induction t generalizing t2 with
  | null =>
    cases t2 with
    | null => trivial
    | node d2 c2 a2 b2 => exact h
  | node d c a b ihc iha ihb =>
    cases t2 with
    | null => exact h
    | node d2 c2 a2 b2 =>
      simp only [locals_resolved] at h ⊢
      refine ⟨?_, ihc c2 h.2.1, iha a2 h.2.2.1, ihb b2 h.2.2.2⟩
      intro hid
      obtain ⟨oc, h1, h2, v, h3, _, _, h4⟩ := h.1 hid
      have hkn : var_known m ⟨some F, oc.value⟩ [F] :=
        ⟨v, h3, fun G hG => by rw [List.mem_singleton.mp hG]; exact h4⟩
      exact ⟨oc, h1, h2, var_known_explicit (hk _ _ hkn)⟩

theorem locals_resolved_null (m : Mem) (F : FuncPtr) :
    locals_resolved m F Opblock.null Opblock.null := trivial

/-- The resolver on a tree of the arity shape owned by `F`, entered with fields that a
caller may have updated: known variables stay known, and every LOCAL_ADR of the tree
ends with its local attached. -/
theorem opb_load_variables_from_inv (F : FuncPtr) (t : Opblock) :
    ∀ (m : Mem) (d : OpbData) (m2 : Mem) (t2 : Opblock),
      opb_shape t = true → opb_owned F t = true →
      (∀ d0, t.data? = some d0 → hdr_ok m F d0 d) →
      opb_load_variables_from m t d = some (m2, t2) →
      var_kept m m2 ∧ locals_resolved m2 F t t2 := by
  induction t with
  | null =>
    intro m d m2 t2 _ _ _ hrun
    simp [opb_load_variables_from] at hrun
  | node d0 c a b ihc iha ihb =>
    intro m d m2 t2 hshape hown hhdr hrun
    have hd := hhdr d0 rfl
    simp only [opb_owned, Bool.and_eq_true, decide_eq_true_eq] at hown
    obtain ⟨⟨⟨hF0, hownc⟩, howna⟩, hownb⟩ := hown
    have hF : d.function = some F := by rw [hd.1, hF0]
    simp only [opb_shape, Bool.and_eq_true] at hshape
    obtain ⟨⟨⟨hsh, hshc⟩, hsha⟩, hshb⟩ := hshape
    rw [opb_load_variables_from] at hrun
    cases hh : opb_load_here m d c.data? b.data? with
    | none => simp [hh] at hrun
    | some r =>
      obtain ⟨m4, d4, cd, od⟩ := r
      simp only [hh] at hrun
      obtain ⟨hk4, hloc, hnloc, hcn, hcs, hon, hos⟩ :=
        opb_load_here_spec m F d c.data? b.data? m4 d4 cd od hF hh
      -- the root
      have hroot : ∀ m5, var_kept m4 m5 → d0.id = OpbId.OPB_LOCAL_ADR →
          ∃ oc, d0.opcode = some oc ∧ d4.var = some ⟨some F, oc.value⟩ ∧
            ∃ v, var_deref m5 ⟨some F, oc.value⟩ = some v ∧ v ∈ (m5.func F).locals ∧
              v.address = oc.value ∧ F ∈ v.parents := by
        intro m5 hk5 hid
        rcases hd.2 with he | ⟨hg, hrest⟩
        · rw [he] at hloc
          obtain ⟨oc, h1, h2, h3⟩ := hloc hid
          refine ⟨oc, h1, ?_, var_known_explicit (hk5 _ _ h3)⟩
          rw [h2]
        · have hne : d.id ≠ OpbId.OPB_LOCAL_ADR := by rw [hg]; simp
          obtain ⟨oc, h1, h2, h3⟩ := hrest hid
          refine ⟨oc, h1, ?_, var_known_explicit (hk5 _ _ (hk4 _ _ h3))⟩
          rw [hnloc hne, h2]
      cases c with
      | node dc c1 c2 c3 =>
        -- a child only
        have ha : a = Opblock.null := by
          cases a with
          | null => rfl
          | node _ _ _ _ => simp [Opblock.is_null] at hsh
        have hb : b = Opblock.null := by
          cases b with
          | null => rfl
          | node _ _ _ _ => simp [Opblock.is_null] at hsh
        subst ha hb
        obtain ⟨y, hy, hxy⟩ := hcs dc rfl
        rw [hy] at hrun
        simp only [Option.map_eq_some'] at hrun
        obtain ⟨r, hr, hr2⟩ := hrun
        obtain ⟨m5, c5⟩ := r
        simp only [Prod.mk.injEq] at hr2
        obtain ⟨e1, e2⟩ := hr2
        subst e1
        have hi := ihc m4 y m5 c5 hshc hownc
          (fun d1 hd1 => by simp only [Opblock.data?, Option.some.injEq] at hd1; rw [← hd1]; exact hxy)
          hr
        refine ⟨var_kept_trans hk4 hi.1, ?_⟩
        rw [← e2]
        simp only [locals_resolved, Opblock.set_data]
        exact ⟨hroot m5 hi.1, hi.2, trivial, trivial⟩
      | null =>
        have hcd : cd = none := hcn rfl
        rw [hcd] at hrun
        cases a with
        | node da a1 a2 a3 =>
          cases b with
          | null => simp [Opblock.is_null] at hsh
          | node db b1 b2 b3 =>
            simp only [Opblock.data?] at hrun
            cases hq : opb_load_variables_from m4 (Opblock.node da a1 a2 a3) da with
            | none => simp [hq] at hrun
            | some r =>
              obtain ⟨m5, a5⟩ := r
              simp only [hq] at hrun
              obtain ⟨y, hy, hxy⟩ := hos db rfl
              rw [hy] at hrun
              simp only [Option.map_eq_some'] at hrun
              obtain ⟨r, hr, hr2⟩ := hrun
              obtain ⟨m6, b6⟩ := r
              simp only [Prod.mk.injEq] at hr2
              obtain ⟨e1, e2⟩ := hr2
              subst e1
              have hia := iha m4 da m5 a5 hsha howna
                (fun d1 hd1 => by
                  simp only [Opblock.data?, Option.some.injEq] at hd1
                  rw [← hd1]; exact hdr_ok_refl _ _ _)
                hq
              have hib := ihb m5 y m6 b6 hshb hownb
                (fun d1 hd1 => by
                  simp only [Opblock.data?, Option.some.injEq] at hd1
                  rw [← hd1]; exact hdr_ok_kept hia.1 hxy)
                hr
              refine ⟨var_kept_trans hk4 (var_kept_trans hia.1 hib.1), ?_⟩
              rw [← e2]
              simp only [locals_resolved]
              exact ⟨hroot m6 (var_kept_trans hia.1 hib.1), trivial,
                locals_resolved_kept hib.1 _ _ hia.2, hib.2⟩
        | null =>
          cases b with
          | node _ _ _ _ => simp [Opblock.is_null] at hsh
          | null =>
            have hod : od = none := hon rfl
            rw [hod] at hrun
            simp only [Opblock.data?, Option.some.injEq, Prod.mk.injEq] at hrun
            obtain ⟨e1, e2⟩ := hrun
            subst e1
            refine ⟨hk4, ?_⟩
            rw [← e2]
            simp only [locals_resolved]
            exact ⟨hroot m4 (var_kept_refl _), trivial, trivial, trivial⟩

theorem stage_kept {α : Type} (m m1 : Mem) (c : Prop) [Decidable c]
    (f : Option (Mem × α)) (x o : α)
    (hf : ∀ m1 o, f = some (m1, o) → var_kept m m1)
    (h : (if c then f else some (m, x)) = some (m1, o)) : var_kept m m1 := by
  by_cases hc : c
  · rw [if_pos hc] at h
    exact hf m1 o h
  · rw [if_neg hc] at h
    simp only [Option.some.injEq, Prod.mk.injEq] at h
    rw [← h.1]
    exact var_kept_refl _

theorem opb_load_address_kept (m : Mem) (d : OpbData) (operand : Option OpbData)
    (m1 : Mem) (o : Option OpbData) (h : opb_load_address m d operand = some (m1, o)) :
    var_kept m m1 := by
  cases operand with
  | none => simp [opb_load_address] at h
  | some x =>
    unfold opb_load_address at h
    simp only at h
    by_cases hk : x.id = OpbId.OPB_LOCAL_ADR ∨ x.id = OpbId.OPB_CONST
    · rw [if_pos hk] at h
      cases hx : x.opcode with
      | none => simp [hx] at h
      | some toc =>
        cases hd : d.opcode with
        | none => simp [hx, hd] at h
        | some oc =>
          simp only [hx, hd, Option.some.injEq, Prod.mk.injEq] at h
          rw [← h.1]
          exact var_known_var_get _ _ _ _ _
    · rw [if_neg hk] at h
      simp only [Option.some.injEq, Prod.mk.injEq] at h
      rw [← h.1]
      exact var_kept_refl _

theorem opb_load_local_kept (m : Mem) (d : OpbData) (m1 : Mem) (d1 : OpbData)
    (h : opb_load_local m d = some (m1, d1)) : var_kept m m1 := by
  unfold opb_load_local at h
  cases hd : d.opcode with
  | none => simp [hd] at h
  | some oc =>
    simp only [hd, Option.some.injEq, Prod.mk.injEq] at h
    rw [← h.1]
    exact var_known_var_get _ _ _ _ _

theorem opb_load_here_kept (m : Mem) (d : OpbData) (cd od : Option OpbData)
    (m4 : Mem) (d4 : OpbData) (cd2 od2 : Option OpbData)
    (h : opb_load_here m d cd od = some (m4, d4, cd2, od2)) : var_kept m m4 := by
  unfold opb_load_here at h
  cases h1 : (if d.id = OpbId.OPB_LOAD then opb_load_address m d cd else some (m, cd)) with
  | none => simp [h1] at h
  | some r1 =>
    obtain ⟨m1, cd1⟩ := r1
    have k1 := stage_kept m m1 _ _ _ _ (fun _ _ hq => opb_load_address_kept m d cd _ _ hq) h1
    simp only [h1] at h
    cases h2 : (if d.id = OpbId.OPB_ASSIGNATION then opb_load_address m1 d od
        else some (m1, od)) with
    | none => simp [h2] at h
    | some r2 =>
      obtain ⟨m2, od2a⟩ := r2
      have k2 := stage_kept m1 m2 _ _ _ _
        (fun _ _ hq => opb_load_address_kept m1 d od _ _ hq) h2
      simp only [h2] at h
      cases h3 : (if d.id = OpbId.OPB_STRUCT_COPY then opb_load_copy m2 d od2a
          else some (m2, od2a)) with
      | none => simp [h3] at h
      | some r3 =>
        obtain ⟨m3, od3⟩ := r3
        have k3 := stage_kept m2 m3 _ _ _ _
          (fun _ _ hq => (opb_load_copy_spec m2 0 d od2a _ _ hq).1) h3
        simp only [h3] at h
        cases h4 : (if d.id = OpbId.OPB_LOCAL_ADR then opb_load_local m3 d
            else some (m3, d)) with
        | none => simp [h4] at h
        | some r4 =>
          obtain ⟨m4a, d4a⟩ := r4
          have k4 := stage_kept m3 m4a _ _ _ _
            (fun _ _ hq => opb_load_local_kept m3 d _ _ hq) h4
          simp only [h4, Option.some.injEq, Prod.mk.injEq] at h
          rw [← h.1]
          exact var_kept_trans k1 (var_kept_trans k2 (var_kept_trans k3 k4))

/-- Whatever the tree, the resolver keeps the variables known before it. -/
theorem opb_load_variables_from_kept (t : Opblock) :
    ∀ (m : Mem) (d : OpbData) (m2 : Mem) (t2 : Opblock),
      opb_load_variables_from m t d = some (m2, t2) → var_kept m m2 := by
  induction t with
  | null =>
    intro m d m2 t2 hrun
    simp [opb_load_variables_from] at hrun
  | node d0 c a b ihc iha ihb =>
    intro m d m2 t2 hrun
    rw [opb_load_variables_from] at hrun
    cases hh : opb_load_here m d c.data? b.data? with
    | none => simp [hh] at hrun
    | some r =>
      obtain ⟨m4, d4, cd, od⟩ := r
      simp only [hh] at hrun
      have hk4 := opb_load_here_kept m d _ _ m4 d4 cd od hh
      cases cd with
      | some cd1 =>
        simp only [Option.map_eq_some'] at hrun
        obtain ⟨r, hr, hr2⟩ := hrun
        simp only [Prod.mk.injEq] at hr2
        rw [← hr2.1]
        exact var_kept_trans hk4 (ihc m4 cd1 r.1 r.2 hr)
      | none =>
        simp only at hrun
        cases h1 : a.data? with
        | some d1 =>
          simp only [h1] at hrun
          cases hq : opb_load_variables_from m4 a d1 with
          | none => simp [hq] at hrun
          | some r1 =>
            obtain ⟨m5, a5⟩ := r1
            simp only [hq] at hrun
            have hk5 := iha m4 d1 m5 a5 hq
            cases od with
            | some od1 =>
              simp only [Option.map_eq_some'] at hrun
              obtain ⟨r, hr, hr2⟩ := hrun
              simp only [Prod.mk.injEq] at hr2
              rw [← hr2.1]
              exact var_kept_trans hk4 (var_kept_trans hk5 (ihb m5 od1 r.1 r.2 hr))
            | none =>
              simp only [Option.some.injEq, Prod.mk.injEq] at hrun
              rw [← hrun.1]
              exact var_kept_trans hk4 hk5
        | none =>
          simp only [h1] at hrun
          cases od with
          | some od1 =>
            simp only [Option.map_eq_some'] at hrun
            obtain ⟨r, hr, hr2⟩ := hrun
            simp only [Prod.mk.injEq] at hr2
            rw [← hr2.1]
            exact var_kept_trans hk4 (ihb m4 od1 r.1 r.2 hr)
          | none =>
            simp only [Option.some.injEq, Prod.mk.injEq] at hrun
            rw [← hrun.1]
            exact hk4

/-! ### Claims on the resolver -/

theorem var_known_globals {m : Mem} {a : Nat} {parent : Option FuncPtr}
    (h : var_known m ⟨none, a⟩ parent.toList) :
    ∃ v, var_deref m ⟨none, a⟩ = some v ∧ v ∈ m.qvm.globals ∧ v.address = a ∧
      ∀ F, parent = some F → F ∈ v.parents := by
  obtain ⟨v, hv, hp⟩ := h
  refine ⟨v, hv, (var_deref_some hv).1, (var_deref_some hv).2, ?_⟩
  intro F hF
  exact hp F (by simp [hF])

theorem opb_load_variables_child_const (m : Mem) (d t : OpbData) (oc toc : Opcode)
    (op1 op2 : Opblock) (hid : d.id = OpbId.OPB_LOAD) (hd : d.opcode = some oc)
    (ht : t.id = OpbId.OPB_CONST) (htoc : t.opcode = some toc) :
    opb_load_variables m
        (Opblock.node d (Opblock.node t Opblock.null Opblock.null Opblock.null) op1 op2) =
      some ((var_get m none toc.value oc.value d.function).1,
        Opblock.node d
          (Opblock.node (opb_resolved t ⟨none, toc.value⟩)
            Opblock.null Opblock.null Opblock.null) op1 op2) := by
  have ha := opb_load_address_some m d t oc toc hd htoc (Or.inr ht)
  simp only [ht, ne_eq, not_true_eq_false, if_false] at ha
  simp only [opb_load_variables, Opblock.data?, opb_load_variables_from, opb_load_here, hid,
    if_true, ha]
  cases op2 <;> simp [Opblock.set_data, opb_resolved]

theorem opb_load_variables_op2_const (m : Mem) (d t d1 : OpbData) (toc : Opcode)
    (a b c : Opblock) (size : Nat)
    (hhere : opb_load_here m d none (some t) =
      some ((var_get m none toc.value size d.function).1, d, none,
        some (opb_resolved t ⟨none, toc.value⟩))) :
    opb_load_variables m
        (Opblock.node d Opblock.null (Opblock.node d1 a b c)
          (Opblock.node t Opblock.null Opblock.null Opblock.null)) =
      (opb_load_variables (var_get m none toc.value size d.function).1
          (Opblock.node d1 a b c)).map
        (fun r => (r.1, Opblock.node d Opblock.null r.2
          (Opblock.node (opb_resolved t ⟨none, toc.value⟩)
            Opblock.null Opblock.null Opblock.null))) := by
  have hstep : opb_load_variables m
      (Opblock.node d Opblock.null (Opblock.node d1 a b c)
        (Opblock.node t Opblock.null Opblock.null Opblock.null)) =
      match opb_load_variables_from (var_get m none toc.value size d.function).1
          (Opblock.node d1 a b c) d1 with
      | none => none
      | some (m5, op1a) =>
        (opb_load_variables_from m5
          (Opblock.node t Opblock.null Opblock.null Opblock.null)
          (opb_resolved t ⟨none, toc.value⟩)).map
          (fun r => (r.1, Opblock.node d Opblock.null op1a r.2)) := by
    unfold opb_load_variables
    simp only [Opblock.data?]
    rw [opb_load_variables_from]
    simp only [Opblock.data?, hhere]
  rw [hstep]
  have hsub : opb_load_variables (var_get m none toc.value size d.function).1
      (Opblock.node d1 a b c) =
      opb_load_variables_from (var_get m none toc.value size d.function).1
        (Opblock.node d1 a b c) d1 := by
    unfold opb_load_variables
    simp only [Opblock.data?]
  rw [hsub]
  cases opb_load_variables_from (var_get m none toc.value size d.function).1
      (Opblock.node d1 a b c) d1 with
  | none => rfl
  | some r =>
    obtain ⟨m5, op1a⟩ := r
    simp only [Option.map_some']
    rw [opb_load_variables_from_leaf _ _ _ (by simp [opb_resolved]) (by simp [opb_resolved])
      (by simp [opb_resolved]) (by simp [opb_resolved])]
    rfl

theorem opb_load_variables_op2_known (m : Mem) (d t d1 : OpbData) (toc : Opcode)
    (a b c : Opblock) (size : Nat) (m2 : Mem) (r : Opblock)
    (hhere : opb_load_here m d none (some t) =
      some ((var_get m none toc.value size d.function).1, d, none,
        some (opb_resolved t ⟨none, toc.value⟩)))
    (hrun : opb_load_variables m
        (Opblock.node d Opblock.null (Opblock.node d1 a b c)
          (Opblock.node t Opblock.null Opblock.null Opblock.null)) = some (m2, r)) :
    ∃ op1b, opb_load_variables (var_get m none toc.value size d.function).1
        (Opblock.node d1 a b c) = some (m2, op1b) ∧
      r = Opblock.node d Opblock.null op1b
        (Opblock.node (opb_resolved t ⟨none, toc.value⟩)
          Opblock.null Opblock.null Opblock.null) ∧
      ∃ v, var_deref m2 ⟨none, toc.value⟩ = some v ∧ v ∈ m2.qvm.globals ∧
        v.address = toc.value ∧ ∀ F, d.function = some F → F ∈ v.parents := by
  rw [opb_load_variables_op2_const m d t d1 toc a b c size hhere] at hrun
  simp only [Option.map_eq_some'] at hrun
  obtain ⟨q, hq, hq2⟩ := hrun
  obtain ⟨m5, op1b⟩ := q
  simp only [Prod.mk.injEq] at hq2
  obtain ⟨e1, e2⟩ := hq2
  subst e1
  refine ⟨op1b, hq, e2.symm, ?_⟩
  have hkept : var_kept (var_get m none toc.value size d.function).1 m5 := by
    unfold opb_load_variables at hq
    simp only [Opblock.data?] at hq
    exact opb_load_variables_from_kept _ _ _ _ _ hq
  exact var_known_globals
    (hkept _ _ (var_known_after_var_get m none d.function toc.value size))

/-- Claim C11. Let the operand be a CONST of value `a` without operands.  After a
successful `opb_load_variables` on a LOAD with that child, on an ASSIGNATION with that
`op2`, or on a STRUCT_COPY with that `op2`, the operand has kind GLOBAL_ADR and its
variable pointer denotes a member of the module globals with address `a` that has the
owning function of the opblock among its parents.  The lookup is
`var_get(qvm, NULL, a, size, opb->function)` with the size of the LOAD or ASSIGNATION,
and with 0 for the STRUCT_COPY; for the two stores the value operand `op1` is resolved
after it. -/
theorem opb_load_variables_const_operand (m : Mem) (d t : OpbData) (toc : Opcode)
    (ht : t.id = OpbId.OPB_CONST) (htoc : t.opcode = some toc) :
    (opb_resolved t ⟨none, toc.value⟩).id = OpbId.OPB_GLOBAL_ADR ∧
    (opb_resolved t ⟨none, toc.value⟩).var = some ⟨none, toc.value⟩ ∧
    (d.id = OpbId.OPB_LOAD → ∀ oc op1 op2 m2 r, d.opcode = some oc →
      opb_load_variables m
          (Opblock.node d (Opblock.node t Opblock.null Opblock.null Opblock.null) op1 op2) =
        some (m2, r) →
      m2 = (var_get m none toc.value oc.value d.function).1 ∧
      r = Opblock.node d
        (Opblock.node (opb_resolved t ⟨none, toc.value⟩)
          Opblock.null Opblock.null Opblock.null) op1 op2 ∧
      ∃ v, var_deref m2 ⟨none, toc.value⟩ = some v ∧ v ∈ m2.qvm.globals ∧
        v.address = toc.value ∧ ∀ F, d.function = some F → F ∈ v.parents) ∧
    (d.id = OpbId.OPB_ASSIGNATION → ∀ oc d1 a b c m2 r, d.opcode = some oc →
      opb_load_variables m
          (Opblock.node d Opblock.null (Opblock.node d1 a b c)
            (Opblock.node t Opblock.null Opblock.null Opblock.null)) = some (m2, r) →
      ∃ op1b, opb_load_variables (var_get m none toc.value oc.value d.function).1
          (Opblock.node d1 a b c) = some (m2, op1b) ∧
        r = Opblock.node d Opblock.null op1b
          (Opblock.node (opb_resolved t ⟨none, toc.value⟩)
            Opblock.null Opblock.null Opblock.null) ∧
        ∃ v, var_deref m2 ⟨none, toc.value⟩ = some v ∧ v ∈ m2.qvm.globals ∧
          v.address = toc.value ∧ ∀ F, d.function = some F → F ∈ v.parents) ∧
    (d.id = OpbId.OPB_STRUCT_COPY → ∀ d1 a b c m2 r,
      opb_load_variables m
          (Opblock.node d Opblock.null (Opblock.node d1 a b c)
            (Opblock.node t Opblock.null Opblock.null Opblock.null)) = some (m2, r) →
      ∃ op1b, opb_load_variables (var_get m none toc.value 0 d.function).1
          (Opblock.node d1 a b c) = some (m2, op1b) ∧
        r = Opblock.node d Opblock.null op1b
          (Opblock.node (opb_resolved t ⟨none, toc.value⟩)
            Opblock.null Opblock.null Opblock.null) ∧
        ∃ v, var_deref m2 ⟨none, toc.value⟩ = some v ∧ v ∈ m2.qvm.globals ∧
          v.address = toc.value ∧ ∀ F, d.function = some F → F ∈ v.parents) := by
  refine ⟨rfl, rfl, ?_, ?_, ?_⟩
  · intro hid oc op1 op2 m2 r hd hrun
    rw [opb_load_variables_child_const m d t oc toc op1 op2 hid hd ht htoc] at hrun
    simp only [Option.some.injEq, Prod.mk.injEq] at hrun
    obtain ⟨e1, e2⟩ := hrun
    subst e1
    exact ⟨rfl, e2.symm,
      var_known_globals (var_known_after_var_get m none d.function toc.value oc.value)⟩
  · intro hid oc d1 a b c m2 r hd hrun
    have ha := opb_load_address_some m d t oc toc hd htoc (Or.inr ht)
    simp only [ht, ne_eq, not_true_eq_false, if_false] at ha
    have hhere : opb_load_here m d none (some t) =
        some ((var_get m none toc.value oc.value d.function).1, d, none,
          some (opb_resolved t ⟨none, toc.value⟩)) := by
      simp only [opb_load_here, hid, reduceCtorEq, if_false, if_true, ha, opb_resolved]
    exact opb_load_variables_op2_known m d t d1 toc a b c oc.value m2 r hhere hrun
  · intro hid d1 a b c m2 r hrun
    have hhere : opb_load_here m d none (some t) =
        some ((var_get m none toc.value 0 d.function).1, d, none,
          some (opb_resolved t ⟨none, toc.value⟩)) := by
      simp only [opb_load_here, hid, reduceCtorEq, if_false, if_true, opb_load_copy, ht, htoc,
        opb_resolved]
    exact opb_load_variables_op2_known m d t d1 toc a b c 0 m2 r hhere hrun

/-- Claim C11 at a concrete input: in function 7, a store of size 4 of the constant
0x2A to the constant address 0x100 succeeds, and the global at 0x100 is then known with
function 7 among its parents. -/
theorem opb_load_variables_const_operand_witness :
    ∃ m2 r, opb_load_variables mem_example
        (opb_store (opb_leaf OpbId.OPB_CONST 0x2A (some 7))
          (opb_leaf OpbId.OPB_CONST 0x100 (some 7))) = some (m2, r) ∧
      ∃ v, var_deref m2 ⟨none, 0x100⟩ = some v ∧ v ∈ m2.qvm.globals ∧
        v.address = 0x100 ∧ 7 ∈ v.parents := by
  have hs : (opb_load_variables mem_example
      (opb_store (opb_leaf OpbId.OPB_CONST 0x2A (some 7))
        (opb_leaf OpbId.OPB_CONST 0x100 (some 7)))).isSome = true := by decide
  obtain ⟨q, hq⟩ := Option.isSome_iff_exists.mp hs
  obtain ⟨op1b, _, _, v, h1, h2, h3, h4⟩ :=
    (opb_load_variables_const_operand mem_example
      { id := OpbId.OPB_ASSIGNATION, opcode := some { value := 4, operation := "" },
        function := some 7, var := none }
      { id := OpbId.OPB_CONST, opcode := some { value := 0x100, operation := "" },
        function := some 7, var := none }
      { value := 0x100, operation := "" } rfl rfl).2.2.2.1 rfl
      { value := 4, operation := "" } _ _ _ _ q.1 q.2 rfl hq
  exact ⟨q.1, q.2, hq, v, h1, h2, h3, h4 7 rfl⟩

/-- Claim C12. For a tree of opblocks that has the shape of the arity table (each
opblock has a child only, `op1` and `op2` only, or no operand) and whose opblocks all
have `F` as owning function: after `opb_load_variables` succeeds, the tree has the same
shape, and every opblock that had kind LOCAL_ADR before the call has a variable pointer
that denotes a member of the locals of `F` whose address is the value of the opblock's
opcode. -/
theorem opb_load_variables_resolves_locals (m : Mem) (F : FuncPtr) (t : Opblock)
    (m2 : Mem) (t2 : Opblock)
    (hshape : opb_shape t = true) (hown : opb_owned F t = true)
    (hrun : opb_load_variables m t = some (m2, t2)) :
    locals_resolved m2 F t t2 := by
  cases t with
  | null => simp [opb_load_variables, Opblock.data?] at hrun
  | node d c a b =>
    simp only [opb_load_variables, Opblock.data?] at hrun
    exact (opb_load_variables_from_inv F _ m d m2 t2 hshape hown
      (fun d0 hd0 => by
        simp only [Opblock.data?, Option.some.injEq] at hd0
        rw [← hd0]; exact hdr_ok_refl _ _ _) hrun).2

/-- Claim C12 at a concrete input: in function 7, a store of size 4 whose value operand
is the LOCAL_ADR of frame address 0x1c and whose address operand is the LOCAL_ADR of
frame address 4. -/
theorem opb_load_variables_resolves_locals_witness :
    ∃ m2 t2, opb_load_variables mem_example
        (opb_store (opb_leaf OpbId.OPB_LOCAL_ADR 0x1c (some 7))
          (opb_leaf OpbId.OPB_LOCAL_ADR 4 (some 7))) = some (m2, t2) ∧
      locals_resolved m2 7
        (opb_store (opb_leaf OpbId.OPB_LOCAL_ADR 0x1c (some 7))
          (opb_leaf OpbId.OPB_LOCAL_ADR 4 (some 7))) t2 := by
  have hs : (opb_load_variables mem_example
      (opb_store (opb_leaf OpbId.OPB_LOCAL_ADR 0x1c (some 7))
        (opb_leaf OpbId.OPB_LOCAL_ADR 4 (some 7)))).isSome = true := by decide
  obtain ⟨q, hq⟩ := Option.isSome_iff_exists.mp hs
  exact ⟨q.1, q.2, hq,
    opb_load_variables_resolves_locals mem_example 7 _ q.1 q.2 (by decide) (by decide) hq⟩

/-! ### The declarations of the globals -/

theorem print_used_by_false (m : Mem) (parents : List FuncPtr) :
    print_used_by m false parents = comma_tail (parents.map (fun p => (m.func p).name)) := by
  induction parents with
  | nil => rfl
  | cons p rest ih =>
    simp only [print_used_by, List.map_cons, comma_tail, ih]
    simp [String.append_assoc]

theorem print_used_by_joined (m : Mem) (parents : List FuncPtr) :
    print_used_by m true parents = comma_joined (parents.map (fun p => (m.func p).name)) := by
  cases parents with
  | nil => rfl
  | cons p rest =>
    simp only [print_used_by, List.map_cons, comma_joined, print_used_by_false]
    simp

theorem qvm_decompile_globals_loop_lines (m : Mem) (data : Nat → Nat)
    (line : Variable → String) :
    ∀ l : List Variable, (∀ v ∈ l, qvm_decompile_global m data v = some (line v)) →
      qvm_decompile_globals_loop m data l = some (concat_all (l.map line)) := by
  intro l
  induction l with
  | nil => intro _; rfl
  | cons v rest ih =>
    intro hall
    have hv := hall v (List.mem_cons_self _ _)
    have hrest := ih (fun w hw => hall w (List.mem_cons_of_mem _ hw))
    simp only [qvm_decompile_globals_loop, hv, hrest, Option.map_some', List.map_cons,
      concat_all]

/-- Claim C21: the line `qvm_decompile_globals` prints for a global whose
`content` pointer is set when its address is below the DATA length: the type
keyword (`int` for size 4, `short` for size 2, `char` otherwise) and its
tabs, the name, `[size]` exactly when the size is not 1, 2 or 4, ` = ` and
the value exactly when the address is below the DATA length, `;`, then
` // Used by: ` and the names of the parents joined by a comma and a blank
exactly when there are parents, and the end of the line. -/
theorem qvm_decompile_global_line (m : Mem) (data : Nat → Nat) (v : Variable) (c : Nat)
    (hc : v.address < m.qvm.data_length → v.content = some c) :
    qvm_decompile_global m data v =
      some (type_keyword v.size ++ type_tabs v.size ++ v.name ++
        (if v.size = 1 ∨ v.size = 2 ∨ v.size = 4 then "" else "[" ++ fmt_u v.size ++ "]") ++
        (if v.address < m.qvm.data_length then " = " ++ print_content data v.size c
         else "") ++
        ";" ++
        (if v.parents = [] then ""
         else " // Used by: " ++ comma_joined (v.parents.map (fun p => (m.func p).name))) ++
        "\n") := by
  have htype : (if v.size = 4 then "int\t\t" else if v.size = 2 then "short\t" else "char\t") =
      type_keyword v.size ++ type_tabs v.size := by
    unfold type_keyword type_tabs
    by_cases h4 : v.size = 4
    · rw [if_pos h4, if_pos h4, if_pos h4]; rfl
    · rw [if_neg h4, if_neg h4, if_neg h4]
      by_cases h2 : v.size = 2
      · rw [if_pos h2, if_pos h2]; rfl
      · rw [if_neg h2, if_neg h2]; rfl
  have hsize : (if v.size > 4 ∨ v.size < 1 ∨ v.size = 3 then "[" ++ fmt_u v.size ++ "]" else "") =
      (if v.size = 1 ∨ v.size = 2 ∨ v.size = 4 then "" else "[" ++ fmt_u v.size ++ "]") := by
    by_cases h : v.size = 1 ∨ v.size = 2 ∨ v.size = 4
    · rw [if_pos h, if_neg (by omega)]
    · rw [if_neg h, if_pos (by omega)]
  have hparents : (if v.parents.isEmpty then "" else " // Used by: ") ++
        print_used_by m true v.parents =
      (if v.parents = [] then ""
       else " // Used by: " ++ comma_joined (v.parents.map (fun p => (m.func p).name))) := by
    rw [print_used_by_joined]
    cases v.parents with
    | nil => rfl
    | cons p rest => simp
  unfold qvm_decompile_global
  simp only [htype, hsize]
  by_cases hd : v.address < m.qvm.data_length
  · simp only [hd, if_true, hc hd]
    rw [← hparents]
    simp only [String.append_assoc]
  · simp only [hd, if_false]
    rw [← hparents]
    simp only [String.append_assoc]

theorem qvm_decompile_global_line_witness :
    qvm_decompile_global mem_example data_example (global_100 3 [1, 2]) =
      some "char\tglobal_100[3] = \"\\xfe\\xff\\x00\"; // Used by: sub_40, sub_40\n" :=
  (qvm_decompile_global_line mem_example data_example (global_100 3 [1, 2]) 0x100
    (fun _ => rfl)).trans (by decide)

/-! ### The work stack and the statement list -/

theorem is_chain_update_next {h : Links} {x : OpbPtr} (y : Option OpbPtr) :
    ∀ {l : List OpbPtr} {s : Option OpbPtr}, is_chain h s l → x ∉ l →
      is_chain { h with next := Function.update h.next x y } s l := by
  intro l
  induction l with
  | nil => intro s hl _; exact hl
  | cons p rest ih =>
    intro s hl hx
    have hpx : p ≠ x := fun e => hx (by simp [e])
    refine ⟨hl.1, ?_⟩
    have hstep : Function.update h.next x y p = h.next p := Function.update_noteq hpx _ _
    show is_chain _ (Function.update h.next x y p) rest
    rw [hstep]
    exact ih hl.2 (fun hm => hx (List.mem_cons_of_mem _ hm))

theorem well_formed_tail_next {h : Links} :
    ∀ {l : List OpbPtr} {t : OpbPtr}, well_formed h l → l.getLast? = some t →
      h.next t = none := by
  intro l
  induction l with
  | nil => intro t _ ht; simp at ht
  | cons x rest ih =>
    intro t hwf ht
    cases rest with
    | nil =>
      simp at ht
      subst ht
      exact hwf
    | cons y rest2 =>
      rw [List.getLast?_cons_cons] at ht
      exact ih hwf.2.2 ht

theorem well_formed_is_chain {h : Links} :
    ∀ {l : List OpbPtr}, well_formed h l → is_chain h l.head? l := by
  intro l
  induction l with
  | nil => intro _; rfl
  | cons x rest ih =>
    intro hwf
    cases rest with
    | nil => exact ⟨rfl, hwf⟩
    | cons y rest2 =>
      refine ⟨rfl, ?_⟩
      have := ih hwf.2.2
      rw [hwf.1]
      exact this

theorem well_formed_append {h : Links} {b t : OpbPtr} :
    ∀ {l : List OpbPtr}, well_formed h l → l.getLast? = some t → b ∉ l →
      h.next b = none →
      well_formed { next := Function.update h.next t (some b),
                    prev := Function.update h.prev b (some t) } (l ++ [b]) := by
  intro l
  induction l with
  | nil => intro _ ht; simp at ht
  | cons x rest ih =>
    intro hwf ht hb hbn
    have hxb : x ≠ b := fun e => hb (by simp [e])
    cases rest with
    | nil =>
      simp at ht
      subst ht
      refine ⟨?_, ?_, ?_⟩
      · show Function.update h.next x (some b) x = some b
        exact Function.update_same _ _ _
      · show Function.update h.prev b (some x) b = some x
        exact Function.update_same _ _ _
      · show Function.update h.next x (some b) b = none
        rw [Function.update_noteq (Ne.symm hxb)]
        exact hbn
    | cons y rest2 =>
      rw [List.getLast?_cons_cons] at ht
      have hyb : y ≠ b := fun e => hb (by simp [e])
      have hxt : x ≠ t := by
        intro e
        have h1 := well_formed_tail_next hwf.2.2 ht
        rw [← e, hwf.1] at h1
        cases h1
      refine ⟨?_, ?_, ?_⟩
      · show Function.update h.next t (some b) x = some y
        rw [Function.update_noteq hxt]
        exact hwf.1
      · show Function.update h.prev b (some t) y = some x
        rw [Function.update_noteq hyb]
        exact hwf.2.1
      · exact ih hwf.2.2 ht (fun hm => hb (List.mem_cons_of_mem _ hm)) hbn

/-- Claim C22, as the code has it: `opb_pop` on an empty work stack reads
`opb->next` through the null head before it tests `opb`, so the call ends in
a read through the null pointer; it does not return null with the stack left
empty. -/
theorem opb_pop_empty_reads_null (h : Links) :
    opb_pop h none = PopResult.fault ∧
      opb_pop h none ≠ PopResult.returned none none := by
  constructor
  · rfl
  · intro e
    cases e

/-- Claim C23: for a work stack with head `s` and opblocks `l`, and two
different opblocks `a` and `b` that are not on it, after `opb_push` of `a`
and then of `b` the stack holds `b`, `a` and then `l`; the first `opb_pop`
returns `b` and leaves the stack pushed with `a`, the second returns `a` and
leaves the head `s` with the opblocks `l` again; and an `opb_pop` right after
the `opb_push` of `a` returns `a` and leaves the stack `s`. -/
theorem opb_push_pop_lifo (h : Links) (s : Option OpbPtr) (l : List OpbPtr) (a b : OpbPtr)
    (hl : is_chain h s l) (ha : a ∉ l) (hb : b ∉ l) (hab : a ≠ b) :
    is_chain (opb_push (opb_push h a s).1 b (opb_push h a s).2).1
        (opb_push (opb_push h a s).1 b (opb_push h a s).2).2 (b :: a :: l) ∧
      opb_pop (opb_push (opb_push h a s).1 b (opb_push h a s).2).1
          (opb_push (opb_push h a s).1 b (opb_push h a s).2).2 =
        PopResult.returned (some b) (opb_push h a s).2 ∧
      opb_pop (opb_push (opb_push h a s).1 b (opb_push h a s).2).1 (opb_push h a s).2 =
        PopResult.returned (some a) s ∧
      is_chain (opb_push (opb_push h a s).1 b (opb_push h a s).2).1 s l ∧
      opb_pop (opb_push h a s).1 (opb_push h a s).2 = PopResult.returned (some a) s ∧
      is_chain (opb_push h a s).1 s l := by
  have h1 : is_chain (opb_push h a s).1 s l := is_chain_update_next s hl ha
  have h2 : is_chain (opb_push (opb_push h a s).1 b (opb_push h a s).2).1 s l :=
    is_chain_update_next (opb_push h a s).2 h1 hb
  have nb : (opb_push (opb_push h a s).1 b (opb_push h a s).2).1.next b = some a := by
    simp [opb_push]
  have na2 : (opb_push (opb_push h a s).1 b (opb_push h a s).2).1.next a = s := by
    simp [opb_push, Function.update_noteq hab]
  have na1 : (opb_push h a s).1.next a = s := by
    simp [opb_push]
  refine ⟨⟨rfl, ?_, ?_⟩, ?_, ?_, h2, ?_, h1⟩
  · exact nb
  · show is_chain _ ((opb_push (opb_push h a s).1 b (opb_push h a s).2).1.next a) l
    rw [na2]
    exact h2
  · show PopResult.returned (some b) _ = _
    rw [nb]
    rfl
  · show PopResult.returned (some a) _ = _
    rw [na2]
  · show PopResult.returned (some a) _ = _
    rw [na1]

theorem opb_push_pop_lifo_witness :
    opb_pop (opb_push (opb_push links_123 7 (some 1)).1 8 (opb_push links_123 7 (some 1)).2).1
        (opb_push links_123 7 (some 1)).2 = PopResult.returned (some 7) (some 1) :=
  (opb_push_pop_lifo links_123 (some 1) [1, 2, 3] 7 8 (by decide) (by decide) (by decide)
    (by decide)).2.2.1

/-- Claim C24: for a well-formed statement list with the opblocks `l` (the
tail pointer is the last of them, null when there is none) and a fresh
opblock `b` (not in the list, `prev` and `next` null), after `opb_add` the
tail pointer is `b`, the `prev` of `b` is the old tail, the `next` of the old
tail is `b`, the `next` of `b` is null, the list with the opblocks of `l`
followed by `b` is well formed and is what the traversal from the head along
`next` visits; on an empty list `prev` and `next` of `b` stay null. -/
theorem opb_add_appends (h : Links) (l : List OpbPtr) (b : OpbPtr)
    (hwf : well_formed h l) (hb : b ∉ l) (hbn : h.next b = none) (hbp : h.prev b = none) :
    (opb_add h b l.getLast?).2 = some b ∧
      (opb_add h b l.getLast?).1.prev b = l.getLast? ∧
      (∀ t, l.getLast? = some t → (opb_add h b l.getLast?).1.next t = some b) ∧
      (opb_add h b l.getLast?).1.next b = none ∧
      well_formed (opb_add h b l.getLast?).1 (l ++ [b]) ∧
      is_chain (opb_add h b l.getLast?).1 (l ++ [b]).head? (l ++ [b]) ∧
      (l = [] → (opb_add h b l.getLast?).1.prev b = none ∧
        (opb_add h b l.getLast?).1.next b = none) := by
  have key : (opb_add h b l.getLast?).2 = some b ∧
      (opb_add h b l.getLast?).1.prev b = l.getLast? ∧
      (∀ t, l.getLast? = some t → (opb_add h b l.getLast?).1.next t = some b) ∧
      (opb_add h b l.getLast?).1.next b = none ∧
      well_formed (opb_add h b l.getLast?).1 (l ++ [b]) := by
    cases ht : l.getLast? with
    | none =>
      have hnil : l = [] := List.getLast?_eq_none_iff.mp ht
      subst hnil
      exact ⟨rfl, hbp, fun t e => Option.noConfusion e, hbn, hbn⟩
    | some t =>
      have htb : b ≠ t := fun e => hb (by rw [e]; exact List.mem_of_mem_getLast? ht)
      refine ⟨rfl, ?_, ?_, ?_, ?_⟩
      · show Function.update h.prev b (some t) b = some t
        exact Function.update_same _ _ _
      · intro t2 e
        cases e
        show Function.update h.next t (some b) t = some b
        exact Function.update_same _ _ _
      · show Function.update h.next t (some b) b = none
        rw [Function.update_noteq htb]
        exact hbn
      · exact well_formed_append hwf ht hb hbn
  refine ⟨key.1, key.2.1, key.2.2.1, key.2.2.2.1, key.2.2.2.2,
    well_formed_is_chain key.2.2.2.2, ?_⟩
  intro hnil
  subst hnil
  exact ⟨hbp, hbn⟩

theorem opb_add_appends_witness :
    well_formed (opb_add links_123 9 (some 3)).1 [1, 2, 3, 9] :=
  (opb_add_appends links_123 [1, 2, 3] 9 (by decide) (by decide) (by decide)
    (by decide)).2.2.2.2.1

/-! ### The search for a call -/

theorem opb_is_func_call_node {x : Opblock} (hx : opb_is_func_call x = true) :
    ∃ d c a b, x = Opblock.node d c a b := by
  cases x with
  | null => cases hx
  | node d c a b => exact ⟨d, c, a, b, rfl⟩

theorem opb_preorder_null {t : Opblock} (ht : t.is_null = true) : opb_preorder t = [] := by
  cases t with
  | null => rfl
  | node d c a b => cases ht

theorem opb_is_call_eq_find :
    ∀ t : Opblock, opb_shape t = true → t.is_null = false →
      opb_is_call t =
        some (((opb_preorder t).find? opb_is_func_call).getD Opblock.null) := by
  intro t
  induction t with
  | null => intro _ hn; cases hn
  | node d child op1 op2 ihc ih1 ih2 =>
    intro hs _
    simp only [opb_shape, Bool.and_eq_true, Bool.or_eq_true, Bool.not_eq_true'] at hs
    obtain ⟨⟨⟨hcase, hsc⟩, hs1⟩, hs2⟩ := hs
    by_cases hid : d.id = OpbId.OPB_FUNC_CALL
    · have hp : opb_is_func_call (Opblock.node d child op1 op2) = true := by
        simp [opb_is_func_call, hid]
      simp only [opb_is_call, hid, if_true, opb_preorder, List.find?_cons, hp, Option.getD_some]
    · have hp : opb_is_func_call (Opblock.node d child op1 op2) = false := by
        simp [opb_is_func_call, hid]
      simp only [opb_is_call, hid, if_false, opb_preorder, List.find?_cons, hp]
      rcases hcase with (⟨⟨hc, h1⟩, h2⟩ | ⟨⟨hc, h1⟩, h2⟩) | ⟨⟨hc, h1⟩, h2⟩
      · simp only [hc, if_true, opb_preorder_null h1, opb_preorder_null h2, List.append_nil]
        exact ihc hsc hc
      · rw [if_neg (by simp [hc]), if_pos h1, if_pos h2, opb_preorder_null hc,
          List.nil_append, List.find?_append, ih1 hs1 h1, ih2 hs2 h2]
        cases hf : (opb_preorder op1).find? opb_is_func_call with
        | none => simp
        | some x =>
          obtain ⟨dx, cx, ax, bx, rfl⟩ := opb_is_func_call_node (List.find?_some hf)
          simp
      · rw [if_neg (by simp [hc]), if_neg (by simp [h1]), if_neg (by simp [h2]),
          opb_preorder_null hc, opb_preorder_null h1, opb_preorder_null h2]
        rfl

/-- Claim C26: for a tree that follows the arity table (`opb_shape`) and is
not the null pointer, `opb_is_call` returns the first opblock of kind
FUNC_CALL in the pre-order opblock, child, `op1`, `op2`, and null when the
tree has none: the result is null exactly when no opblock of the tree has
kind FUNC_CALL, and a result that is not null is an opblock of the tree of
kind FUNC_CALL. -/
theorem opb_is_call_first_in_preorder (t : Opblock) (hs : opb_shape t = true)
    (hn : t.is_null = false) :
    ∃ c, opb_is_call t = some c ∧
      c = ((opb_preorder t).find? opb_is_func_call).getD Opblock.null ∧
      (c = Opblock.null ↔ ∀ x ∈ opb_preorder t, opb_is_func_call x = false) ∧
      (c ≠ Opblock.null → c ∈ opb_preorder t ∧ opb_is_func_call c = true) := by
  refine ⟨_, opb_is_call_eq_find t hs hn, rfl, ?_, ?_⟩
  · cases hf : (opb_preorder t).find? opb_is_func_call with
    | none =>
      simp only [Option.getD_none, true_iff]
      intro x hx
      have := List.find?_eq_none.mp hf x hx
      simpa using this
    | some x =>
      obtain ⟨dx, cx, ax, bx, rfl⟩ := opb_is_func_call_node (List.find?_some hf)
      simp only [Option.getD_some]
      constructor
      · intro e
        cases e
      · intro hall
        have h1 := hall _ (List.mem_of_find?_eq_some hf)
        rw [List.find?_some hf] at h1
        cases h1
  · cases hf : (opb_preorder t).find? opb_is_func_call with
    | none => intro hc; exact absurd rfl hc
    | some x =>
      intro _
      exact ⟨List.mem_of_find?_eq_some hf, List.find?_some hf⟩

theorem opb_is_call_first_in_preorder_witness :
    ∃ c, opb_is_call (opb_store (opb_leaf OpbId.OPB_CONST 1 none)
        (opb_leaf OpbId.OPB_FUNC_CALL 2 none)) = some c ∧
      c = ((opb_preorder (opb_store (opb_leaf OpbId.OPB_CONST 1 none)
        (opb_leaf OpbId.OPB_FUNC_CALL 2 none))).find? opb_is_func_call).getD Opblock.null ∧
      (c = Opblock.null ↔ ∀ x ∈ opb_preorder (opb_store (opb_leaf OpbId.OPB_CONST 1 none)
        (opb_leaf OpbId.OPB_FUNC_CALL 2 none)), opb_is_func_call x = false) ∧
      (c ≠ Opblock.null → c ∈ opb_preorder (opb_store (opb_leaf OpbId.OPB_CONST 1 none)
        (opb_leaf OpbId.OPB_FUNC_CALL 2 none)) ∧ opb_is_func_call c = true) :=
  opb_is_call_first_in_preorder _ (by decide) (by decide)

/-! ### The parameter list of FUNC_ENTER -/

/-- Claim C25, as the code has it: the separator in front of an argument is
printed when the address of the argument is above the frame size plus 8, not
when the argument is not the first. With a 16-byte frame, a single argument
at 28 is rendered with a separator in front, and two arguments at 16 and 20
are rendered without a separator between them. -/
theorem opb_print_enter_separator_by_address :
    opb_print (mem_locals [arg_at 28 "arg_1"]) [] 1 opb_enter =
        some "void sub_40(, int arg_1) \x7b" ∧
      opb_print (mem_locals [arg_at 16 "arg_x", arg_at 20 "arg_y"]) [] 1 opb_enter =
        some "void sub_40(int arg_xint arg_y) \x7b" := by
  constructor <;> decide

end Qvmd
